import Mathlib

/-!
# Resolution and persistence core of qbs

A shallow embedding of `src/lib/language/language.cpp` and
`src/lib/corelib/buildgraph/rescuableartifactdata.cpp`.

Conventions of the embedding.

* A `QString` is a Lean `String`, taken up to Qt's string equality (for which a null
  string equals the empty one).  The one place where the source asks `isNull()`, the name
  of a module, keeps nullness as an `Option`: `none` is the null string.
* `QMap<QString, V>`, `QVariantMap` and `QProcessEnvironment` are association lists with
  pairwise distinct keys (`AList`).
* A `const ResolvedModule *` is the position of the module in the module list handed to
  `getProcessEnvironment`; a `QHash` from such pointers to lists is a function whose
  value at an absent key is the empty list, as `QHash::value` gives.
* A `throw Error(..)` is `Except.error`; a recursion that the source does not bound is
  given a fuel argument, and `none` stands for a run that does not come back.
-/

namespace qbs

/-! ## Qt value types -/

/-- The keyed containers `QMap<QString, V>`: distinct keys, one value per key. -/
abbrev QMap (V : Type) := AList (fun _ : String => V)

/-- The part of `QVariant` that the code inspects: its map and string conversions. -/
inductive QVariant where
  | invalid
  | bool (b : Bool)
  | string (s : String)
  | list (l : List QVariant)
  | map (m : List (String × QVariant))

abbrev QVariantMap := QMap QVariant

/-- Embeds `QVariant::toString()`: the string itself, `true`/`false` for a boolean, and the
empty string for a value that has no string form. -/
def QVariant.toString : QVariant → String
  | .string s => s
  | .bool true => "true"
  | .bool false => "false"
  | _ => ""

/-- Embeds `QVariant::toMap()`: the map held by the variant, the empty map for any other type. -/
def QVariant.toMap : QVariant → QVariantMap
  | .map m => m.foldl (fun acc kv => acc.insert kv.1 kv.2) ∅
  | _ => ∅

/-- Embeds `QVariantMap::value(key)`: a default-constructed (invalid) variant when absent. -/
def QVariantMap.value (m : QVariantMap) (key : String) : QVariant :=
  (m.lookup key).getD QVariant.invalid

/-- Embeds `QProcessEnvironment`: variable name to value. -/
abbrev QProcessEnvironment := QMap String

/-- Embeds `QProcessEnvironment::value(name)`: the empty string for an unset variable. -/
def QProcessEnvironment.value (env : QProcessEnvironment) (name : String) : String :=
  (env.lookup name).getD ""

/-- Embeds `QProcessEnvironment::isEmpty()`. -/
def QProcessEnvironment.isEmpty (env : QProcessEnvironment) : Bool :=
  env.entries.isEmpty

/-- Embeds `CodeLocation`: file, line, column. -/
structure CodeLocation where
  fileName : String
  line : Int
  column : Int
  deriving DecidableEq, Repr, Inhabited

/-- Embeds `JsImport`: the three fields its stream operators write. -/
structure JsImport where
  scopeName : String
  fileNames : List String
  location : CodeLocation
  deriving DecidableEq, Repr, Inhabited

/-! ## Modules and the module environment resolver -/

/-- Embeds `ResolvedModule`, with the fields that `ResolvedModule::store` writes. -/
structure ResolvedModule where
  name : Option String
  moduleDependencies : List String
  setupBuildEnvironmentScript : String
  setupRunEnvironmentScript : String
  jsImports : List JsImport
  deriving DecidableEq, Repr

instance : Inhabited ResolvedModule := ⟨⟨none, [], "", "", []⟩⟩

/-- Embeds `m->name` for a module pointer `m` (a position in `modules`). -/
def moduleName (modules : List ResolvedModule) (m : Nat) : Option String :=
  (modules.getD m default).name

/-- The key under which a `QString`-keyed container files a module name: a null name and
the empty name are the same key. -/
def nameKey (name : Option String) : String := name.getD ""

/-- Embeds `moduleHash[key].append(value)` on a `QHash` from module pointers to pointer lists. -/
def hashAppend (h : Nat → List Nat) (key value : Nat) : Nat → List Nat :=
  fun k => if k = key then h k ++ [value] else h k

/-- The two adjacency tables `moduleParents` and `moduleChildren`. -/
structure ModuleGraph where
  moduleParents : Nat → List Nat
  moduleChildren : Nat → List Nat

/-- Both tables empty. -/
def ModuleGraph.empty : ModuleGraph := ⟨fun _ => [], fun _ => []⟩

/-- Modelled from the spec: the macro `QBS_ASSERT(cond, action)` of `tools/qbsassert.h`,
which is not among the sources.  The spec calls a failed condition an assertion failure
that abandons the resolution; the statement that runs in that case is the `action` written
at the call site (`return env`, `break`), and the code after the macro runs otherwise. -/
def QBS_ASSERT {α : Type} (cond : Bool) (action : α) (continuation : α) : α :=
  if cond then continuation else action

/-- The first loop of `getProcessEnvironment`: `moduleMap.insert(module->name, module)`
for every module in list order (a later module of the same name replaces an earlier). -/
def insertModules (l : List (Nat × ResolvedModule)) (init : QMap Nat) : QMap Nat :=
  l.foldl (fun moduleMap p => moduleMap.insert (nameKey p.2.name) p.1) init

/-- The `moduleMap` of `getProcessEnvironment`: module name to module pointer. -/
def buildModuleMap (modules : List ResolvedModule) : QMap Nat :=
  insertModules modules.enum ∅

/-- The inner loop over `module->moduleDependencies`.  `none` is the failed
`QBS_ASSERT(depmod, return env)`. -/
def addDependencies (moduleMap : QMap Nat) (module : Nat) :
    List String → ModuleGraph → Option ModuleGraph
  | [], g => some g
  | moduleName :: rest, g =>
    let depmod := moduleMap.lookup moduleName
    QBS_ASSERT depmod.isSome none
      (depmod.bind fun d =>
        addDependencies moduleMap module rest
          ⟨hashAppend g.moduleParents d module, hashAppend g.moduleChildren module d⟩)

/-- The outer loop over the modules, each with its pointer. -/
def addModules (moduleMap : QMap Nat) :
    List (Nat × ResolvedModule) → ModuleGraph → Option ModuleGraph
  | [], g => some g
  | p :: rest, g =>
    (addDependencies moduleMap p.1 p.2.moduleDependencies g).bind
      fun g1 => addModules moduleMap rest g1

/-- The adjacency tables that `getProcessEnvironment` builds; `none` when a dependency
name is not in `moduleMap`. -/
def moduleGraph (modules : List ResolvedModule) : Option ModuleGraph :=
  addModules (buildModuleMap modules) modules.enum ModuleGraph.empty

/-- Embeds `rootModules`: the modules whose `moduleParents` entry is empty, in list order.  (The
`QBS_ASSERT(module, return env)` of that loop tests a pointer taken from the list, which
is never null here.) -/
def rootModules (modules : List ResolvedModule) (g : ModuleGraph) : List Nat :=
  (List.range modules.length).filter fun m => (g.moduleParents m).isEmpty

/-- The `foreach` of `topSortModules`, with `result` and `seenModuleNames` as the loop
state and the recursive call passed in as `recurse`. -/
def topSortLoop (modules : List ResolvedModule) (moduleChildren : Nat → List Nat)
    (recurse : List Nat → List String → Option (List Nat × List String)) :
    List Nat → List Nat × List String → Option (List Nat × List String)
  | [], state => some state
  | m :: rest, (result, seenModuleNames) =>
    match moduleName modules m with
    | none => topSortLoop modules moduleChildren recurse rest (result, seenModuleNames)
    | some name =>
      match recurse (moduleChildren m) seenModuleNames with
      | none => none
      | some (sub, seen1) =>
        if name ∈ seen1 then
          topSortLoop modules moduleChildren recurse rest (result ++ sub, seen1)
        else
          topSortLoop modules moduleChildren recurse rest
            (result ++ sub ++ [m], name :: seen1)

/-- Embeds `topSortModules(moduleChildren, modules, seenModuleNames)`: the sorted list and the
updated set of seen names.  `fuel` bounds the depth of the recursion. -/
def topSortModules (heap : List ResolvedModule) (moduleChildren : Nat → List Nat) :
    Nat → List Nat → List String → Option (List Nat × List String)
  | 0 => fun _ _ => none
  | fuel + 1 => fun modules seenModuleNames =>
    topSortLoop heap moduleChildren (topSortModules heap moduleChildren fuel) modules
      ([], seenModuleNames)

/-- Embeds `topSortedModules` of `getProcessEnvironment`: `topSortModules` from the root modules
with an empty set of seen names. -/
def topSortedModules (fuel : Nat) (modules : List ResolvedModule) (g : ModuleGraph) :
    Option (List Nat) :=
  (topSortModules modules g.moduleChildren fuel (rootModules modules g) []).map Prod.fst

/-- Module `m` lists the name of module `d` among its dependencies (both are positions in
the module list). -/
def DependsOn (modules : List ResolvedModule) (m d : Nat) : Prop :=
  ∃ M D, modules[m]? = some M ∧ modules[d]? = some D ∧
    ∃ s ∈ M.moduleDependencies, D.name = some s

/-- Every module of the list is listed after the modules it has as children, given the
names `S` that count as already listed.  (A predicate of the proofs about
`topSortModules`.) -/
def DepsFirst (modules : List ResolvedModule) (moduleChildren : Nat → List Nat) :
    (String → Prop) → List Nat → Prop
  | _, [] => True
  | S, m :: rest =>
    (∀ d ∈ moduleChildren m, ∀ s, moduleName modules d = some s → S s) ∧
      DepsFirst modules moduleChildren (fun s => S s ∨ moduleName modules m = some s) rest

/-- What a returned `(added, seen1)` satisfies for the module list `ms` and the names
`seen` at entry. -/
structure TopSortSpec (modules : List ResolvedModule) (moduleChildren : Nat → List Nat)
    (ms : List Nat) (seen : List String) (added : List Nat)
    (seen1 : List String) : Prop where
  seen_iff : ∀ s, s ∈ seen1 ↔ s ∈ seen ∨ ∃ m ∈ added, moduleName modules m = some s
  covers : ∀ m ∈ ms, ∀ s, moduleName modules m = some s → s ∈ seen1
  depsFirst : DepsFirst modules moduleChildren (fun s => s ∈ seen) added

/-- The test behind `DependsOn`, as a Boolean. -/
def dependsOnB (modules : List ResolvedModule) (m d : Nat) : Bool :=
  match modules[m]?, modules[d]? with
  | some M, some D => M.moduleDependencies.any fun s => decide (D.name = some s)
  | _, _ => false

/-- Three modules: `app` depends on `lib` and `base`, `lib` on `base`. -/
def exampleModules : List ResolvedModule :=
  [⟨some "app", ["lib", "base"], "", "", []⟩,
   ⟨some "lib", ["base"], "", "", []⟩,
   ⟨some "base", [], "", "", []⟩]

/-! ## Environment scripts -/

/-- Embeds `enum EnvType`. -/
inductive EnvType where
  | BuildEnv
  | RunEnv
  deriving DecidableEq, Repr

/-- Embeds `Error`, with its message. -/
structure Error where
  message : String
  deriving DecidableEq, Repr

/-- Embeds `PropertyMapInternal`: the wrapped `m_value`. -/
structure PropertyMapInternal where
  value : QVariantMap

/-- Embeds `ResolvedProject`, with the fields that `load`, `store` and `setBuildConfiguration`
touch.  `Product` is the type behind `ResolvedProductPtr`. -/
structure ResolvedProject (Product : Type) where
  location : CodeLocation
  id : String
  buildConfiguration : QVariantMap
  platformEnvironment : QVariantMap
  products : List Product

/-- Embeds `js_getenv`: a script error without an argument, else `procenv->value(argument 0)`. -/
def js_getenv (arguments : List String) (procenv : QProcessEnvironment) :
    Except String String :=
  if arguments.length < 1 then Except.error "getenv expects 1 argument"
  else Except.ok (procenv.value (arguments.getD 0 ""))

/-- Embeds `js_putenv`: a script error with fewer than two arguments, else
`procenv->insert(argument 0, argument 1)`. -/
def js_putenv (arguments : List String) (procenv : QProcessEnvironment) :
    Except String QProcessEnvironment :=
  if arguments.length < 2 then Except.error "putenv expects 2 arguments"
  else Except.ok (procenv.insert (arguments.getD 0 "") (arguments.getD 1 ""))

/-- The two functions that `getProcessEnvironment` puts into the script scope. -/
structure ScriptFunctions where
  getenv : List String → QProcessEnvironment → Except String String
  putenv : List String → QProcessEnvironment → Except String QProcessEnvironment

/-- What `engine->evaluate(setupScript)` leaves behind: whether
`scriptValue.isError() || engine->hasUncaughtException()`, `scriptValue.toString()`, the
engine and the process environment that `_qbs_procenv` points to. -/
structure EvalResult (σ : Type) where
  isError : Bool
  message : String
  engine : σ
  procenv : QProcessEnvironment

/-- The script engine, an external collaborator: its state `σ` (scope included) and the
calls that `getProcessEnvironment` makes on it. -/
structure ScriptEngine (σ : Type) where
  clearImportsCache : σ → σ
  newScope : ScriptFunctions → σ → σ
  engineImport : List JsImport → σ → σ
  setScopeObject : String → QVariantMap → σ → σ
  setScopeProperty : String → QVariant → σ → σ
  evaluate : String → σ → QProcessEnvironment → EvalResult σ

/-- The copy loop at the head of `getProcessEnvironment`:
`procenv.insert(it.key(), it.value().toString())` for every platform entry. -/
def overlayPlatformEnvironment (platformEnv : QVariantMap) (procenv : QProcessEnvironment) :
    QProcessEnvironment :=
  platformEnv.entries.foldl (fun acc e => acc.insert e.1 e.2.toString) procenv

/-- The `continue` test at the head of the module loop. -/
def skipModule (envType : EnvType) (module : ResolvedModule) : Bool :=
  (decide (envType = EnvType.BuildEnv) && module.setupBuildEnvironmentScript.isEmpty) ||
    (decide (envType = EnvType.RunEnv) && module.setupBuildEnvironmentScript.isEmpty &&
      module.setupRunEnvironmentScript.isEmpty)

/-- The choice of `setupScript`. -/
def setupScript (envType : EnvType) (module : ResolvedModule) : String :=
  if envType = EnvType.BuildEnv then module.setupBuildEnvironmentScript
  else if module.setupRunEnvironmentScript.isEmpty then module.setupBuildEnvironmentScript
  else module.setupRunEnvironmentScript

/-- The step "expose properties of direct module dependencies": one scope object per
child. -/
def exposeDependencies {σ : Type} (engine : ScriptEngine σ) (productModules : QVariantMap)
    (modules : List ResolvedModule) (children : List Nat) (scope : σ) : σ :=
  children.foldl (fun s depmod =>
    engine.setScopeObject (nameKey (moduleName modules depmod))
      (productModules.value (nameKey (moduleName modules depmod))).toMap s) scope

/-- The step "expose the module's properties": one scope property per entry of
`moduleCfg`. -/
def exposeProperties {σ : Type} (engine : ScriptEngine σ) (moduleCfg : QVariantMap)
    (scope : σ) : σ :=
  moduleCfg.entries.foldl (fun s e => engine.setScopeProperty e.1 e.2 s) scope

/-- The text of the error thrown for a failed script. -/
def setupErrorMessage (envType : EnvType) (scriptMessage : String) : String :=
  "Error while setting up " ++ (if envType = EnvType.BuildEnv then "build" else "run") ++
    " environment: " ++ scriptMessage

/-- The body of the module loop for a module that is not skipped: imports, exposed
properties, evaluation of the selected script, and the `throw` on a script error. -/
def runSetupScript {σ : Type} (engine : ScriptEngine σ) (envType : EnvType)
    (modules : List ResolvedModule) (productConfiguration : PropertyMapInternal)
    (g : ModuleGraph) (state : σ × QProcessEnvironment) (m : Nat) :
    Except Error (σ × QProcessEnvironment) :=
  let module := modules.getD m default
  let s1 := engine.engineImport module.jsImports state.1
  let productModules := (productConfiguration.value.value "modules").toMap
  let s2 := exposeDependencies engine productModules modules (g.moduleChildren m) s1
  let s3 := exposeProperties engine (productModules.value (nameKey module.name)).toMap s2
  let r := engine.evaluate (setupScript envType module) s3 state.2
  if r.isError then Except.error ⟨setupErrorMessage envType r.message⟩
  else Except.ok (r.engine, r.procenv)

/-- The loop over `topSortedModules`. -/
def evaluateModules {σ : Type} (engine : ScriptEngine σ) (envType : EnvType)
    (modules : List ResolvedModule) (productConfiguration : PropertyMapInternal)
    (g : ModuleGraph) : List Nat → σ × QProcessEnvironment →
    Except Error (σ × QProcessEnvironment)
  | [], state => Except.ok state
  | m :: rest, state =>
    if skipModule envType (modules.getD m default) then
      evaluateModules engine envType modules productConfiguration g rest state
    else
      match runSetupScript engine envType modules productConfiguration g state m with
      | Except.error e => Except.error e
      | Except.ok state1 =>
        evaluateModules engine envType modules productConfiguration g rest state1

/-- Embeds `getProcessEnvironment(engine, envType, modules, productConfiguration, project, env)`.
The result is `none` when the recursion of `topSortModules` outruns `fuel`,
`Except.error` for the thrown `Error`, and `Except.ok` for the returned environment. -/
def getProcessEnvironment {σ Product : Type} (fuel : Nat) (engine : ScriptEngine σ)
    (engineState : σ) (envType : EnvType) (modules : List ResolvedModule)
    (productConfiguration : PropertyMapInternal) (project : ResolvedProject Product)
    (env : QProcessEnvironment) : Option (Except Error QProcessEnvironment) :=
  let procenv := overlayPlatformEnvironment project.platformEnvironment env
  match moduleGraph modules with
  | none => some (Except.ok env)
  | some g =>
    let scope := engine.newScope ⟨js_getenv, js_putenv⟩ (engine.clearImportsCache engineState)
    match topSortedModules fuel modules g with
    | none => none
    | some order =>
      some ((evaluateModules engine envType modules productConfiguration g order
        (scope, procenv)).map Prod.snd)

/-! ### A small engine for the scenarios -/

/-- One call of `putenv` from a script, as an evaluation result. -/
def scriptPutenv (fns : ScriptFunctions) (arguments : List String)
    (procenv : QProcessEnvironment) : EvalResult (Option ScriptFunctions) :=
  match fns.putenv arguments procenv with
  | Except.ok procenv1 => ⟨false, "undefined", some fns, procenv1⟩
  | Except.error msg => ⟨true, msg, some fns, procenv⟩

/-- An engine that knows the two scripts of the scenario, `putenv("X", "1")` and
`putenv("Y", getenv("X") + "2")`, runs them through the functions found in the scope, and
reports any other text as an error. -/
def scenarioEngine : ScriptEngine (Option ScriptFunctions) where
  clearImportsCache := fun s => s
  newScope := fun fns _ => some fns
  engineImport := fun _ s => s
  setScopeObject := fun _ _ s => s
  setScopeProperty := fun _ _ s => s
  evaluate := fun script scope procenv =>
    match scope with
    | none => ⟨true, "ReferenceError", none, procenv⟩
    | some fns =>
      if script = "putenv(\"X\", \"1\")" then scriptPutenv fns ["X", "1"] procenv
      else if script = "putenv(\"Y\", getenv(\"X\") + \"2\")" then
        match fns.getenv ["X"] procenv with
        | Except.ok x => scriptPutenv fns ["Y", x ++ "2"] procenv
        | Except.error msg => ⟨true, msg, some fns, procenv⟩
      else ⟨true, "SyntaxError", some fns, procenv⟩

/-- The two modules of the scenario, `derived` listed before the `base` it depends on. -/
def scenarioModules : List ResolvedModule :=
  [⟨some "derived", ["base"], "putenv(\"Y\", getenv(\"X\") + \"2\")", "", []⟩,
   ⟨some "base", [], "putenv(\"X\", \"1\")", "", []⟩]

/-- A project without platform environment and without products. -/
def scenarioProject : ResolvedProject Unit :=
  ⟨⟨"", 0, 0⟩, "", ∅, ∅, []⟩

/-! ## Persistence -/

/-- Modelled from the spec: one executed build command (`command.h` is not among the
sources).  The spec keeps "the list of previously executed build commands" in the rescue
record; a command is an atomic value here, held in its stored form. -/
structure Command where
  stored : String
  deriving DecidableEq, Repr, Inhabited

/-- One value in the `QDataStream` of the pool, tagged with the type whose stream operator
wrote it. -/
inductive StreamItem where
  | int (i : Int)
  | bool (b : Bool)
  | string (s : String)
  | stringList (l : List String)
  | fileTags (tags : List String)
  | fileTime (t : Int)
  | location (l : CodeLocation)
  | variantMap (m : QVariantMap)
  | command (c : Command)

/-- Modelled from the spec: the `PersistentPool` (`tools/persistence.h` is not among the
sources): the data stream, written at its end and read from its front, and the table that
"assigns small integer IDs to strings so repeated values serialize once". -/
structure PersistentPool where
  stream : List StreamItem
  stringStorage : List String

namespace PersistentPool

/-- The step `pool.stream() << value`. -/
def write (pool : PersistentPool) (item : StreamItem) : PersistentPool :=
  { pool with stream := pool.stream ++ [item] }

/-- The step `pool.stream() >> value` for an `int`. -/
def readInt (pool : PersistentPool) : Option (Int × PersistentPool) :=
  match pool.stream with
  | StreamItem.int i :: rest => some (i, { pool with stream := rest })
  | _ => none

/-- The step `pool.stream() >> value` for a `bool`. -/
def readBool (pool : PersistentPool) : Option (Bool × PersistentPool) :=
  match pool.stream with
  | StreamItem.bool b :: rest => some (b, { pool with stream := rest })
  | _ => none

/-- The step `pool.stream() >> value` for a `QString`. -/
def readString (pool : PersistentPool) : Option (String × PersistentPool) :=
  match pool.stream with
  | StreamItem.string s :: rest => some (s, { pool with stream := rest })
  | _ => none

/-- The step `pool.stream() >> value` for a `QStringList`. -/
def readStringList (pool : PersistentPool) : Option (List String × PersistentPool) :=
  match pool.stream with
  | StreamItem.stringList l :: rest => some (l, { pool with stream := rest })
  | _ => none

/-- The step `pool.stream() >> value` for `FileTags`. -/
def readFileTags (pool : PersistentPool) : Option (List String × PersistentPool) :=
  match pool.stream with
  | StreamItem.fileTags l :: rest => some (l, { pool with stream := rest })
  | _ => none

/-- The step `pool.stream() >> value` for a `FileTime`. -/
def readFileTime (pool : PersistentPool) : Option (Int × PersistentPool) :=
  match pool.stream with
  | StreamItem.fileTime t :: rest => some (t, { pool with stream := rest })
  | _ => none

/-- The step `pool.stream() >> value` for a `CodeLocation`. -/
def readLocation (pool : PersistentPool) : Option (CodeLocation × PersistentPool) :=
  match pool.stream with
  | StreamItem.location l :: rest => some (l, { pool with stream := rest })
  | _ => none

/-- The step `pool.stream() >> value` for a `QVariantMap`. -/
def readVariantMap (pool : PersistentPool) : Option (QVariantMap × PersistentPool) :=
  match pool.stream with
  | StreamItem.variantMap m :: rest => some (m, { pool with stream := rest })
  | _ => none

/-- The step `pool.stream() >> value` for one command. -/
def readCommand (pool : PersistentPool) : Option (Command × PersistentPool) :=
  match pool.stream with
  | StreamItem.command c :: rest => some (c, { pool with stream := rest })
  | _ => none

/-- Modelled from the spec: `storeString` "by small-integer back-reference": a string of
the table is written as its id alone, a new one as the next id followed by the string,
and joins the table. -/
def storeString (pool : PersistentPool) (t : String) : PersistentPool :=
  if t ∈ pool.stringStorage then
    pool.write (StreamItem.int (pool.stringStorage.indexOf t))
  else
    { stream := pool.stream ++
        [StreamItem.int pool.stringStorage.length, StreamItem.string t]
      stringStorage := pool.stringStorage ++ [t] }

/-- Modelled from the spec: `idLoadString`, the reader of `storeString`: an id of the
table gives the string filed under it, the next free id is followed by a new string. -/
def idLoadString (pool : PersistentPool) : Option (String × PersistentPool) :=
  match pool.readInt with
  | none => none
  | some (id, p1) =>
    if id < 0 then none
    else if h : id.toNat < p1.stringStorage.length then
      some (p1.stringStorage.get ⟨id.toNat, h⟩, p1)
    else if id.toNat = p1.stringStorage.length then
      match p1.readString with
      | none => none
      | some (s, p2) => some (s, { p2 with stringStorage := p2.stringStorage ++ [s] })
    else none

end PersistentPool

/-- Modelled from the spec: `storeCommandList` (`command.cpp` is not among the sources):
"container writes are always preceded by an explicit element count", then the commands
in order. -/
def storeCommandList (commands : List Command) (pool : PersistentPool) : PersistentPool :=
  commands.foldl (fun p c => p.write (StreamItem.command c))
    (pool.write (StreamItem.int commands.length))

/-- The reading loop of `loadCommandList`. -/
def loadCommands : Nat → List Command → PersistentPool →
    Option (List Command × PersistentPool)
  | 0, acc, pool => some (acc, pool)
  | n + 1, acc, pool =>
    match pool.readCommand with
    | none => none
    | some (c, p1) => loadCommands n (acc ++ [c]) p1

/-- Modelled from the spec: `loadCommandList`, the reader of `storeCommandList`. -/
def loadCommandList (pool : PersistentPool) : Option (List Command × PersistentPool) :=
  match pool.readInt with
  | none => none
  | some (count, p1) => loadCommands count.toNat [] p1

/-! ### `RescuableArtifactData` -/

/-- Embeds `RescuableArtifactData::ChildData`. -/
structure ChildData where
  productName : String
  productProfile : String
  childFilePath : String
  addedByScanner : Bool
  deriving DecidableEq, Repr, Inhabited

/-- Embeds `RescuableArtifactData`. -/
structure RescuableArtifactData where
  timeStamp : Int
  children : List ChildData
  commands : List Command
  deriving DecidableEq, Repr, Inhabited

namespace RescuableArtifactData

/-- The body of the `foreach` of `store`. -/
def storeChild (cd : ChildData) (pool : PersistentPool) : PersistentPool :=
  (((pool.storeString cd.productName).storeString cd.productProfile).storeString
    cd.childFilePath).write (StreamItem.bool cd.addedByScanner)

/-- The `foreach` of `store`. -/
def storeChildren (children : List ChildData) (pool : PersistentPool) : PersistentPool :=
  children.foldl (fun p cd => storeChild cd p) pool

/-- Embeds `RescuableArtifactData::store`. -/
def store (self : RescuableArtifactData) (pool : PersistentPool) : PersistentPool :=
  let p1 := pool.write (StreamItem.fileTime self.timeStamp)
  let p2 := p1.write (StreamItem.int self.children.length)
  let p3 := storeChildren self.children p2
  storeCommandList self.commands p3

/-- The `for (int i = 0; i < c; ++i)` of `load`, with `children` as the list that
`children << cd` extends. -/
def loadChildren : Nat → List ChildData → PersistentPool →
    Option (List ChildData × PersistentPool)
  | 0, children, pool => some (children, pool)
  | n + 1, children, pool =>
    match pool.idLoadString with
    | none => none
    | some (productName, p1) =>
      match p1.idLoadString with
      | none => none
      | some (productProfile, p2) =>
        match p2.idLoadString with
        | none => none
        | some (childFilePath, p3) =>
          match p3.readBool with
          | none => none
          | some (addedByScanner, p4) =>
            loadChildren n
              (children ++ [⟨productName, productProfile, childFilePath, addedByScanner⟩]) p4

/-- Embeds `RescuableArtifactData::load` on the record `self`. -/
def load (self : RescuableArtifactData) (pool : PersistentPool) :
    Option (RescuableArtifactData × PersistentPool) :=
  match pool.readFileTime with
  | none => none
  | some (timeStamp, p1) =>
    match p1.readInt with
    | none => none
    | some (c, p2) =>
      match loadChildren c.toNat self.children p2 with
      | none => none
      | some (children, p3) =>
        match loadCommandList p3 with
        | none => none
        | some (commands, p4) => some (⟨timeStamp, children, commands⟩, p4)

end RescuableArtifactData

/-! ### `RuleArtifact` -/

/-- Embeds `RuleArtifact::Binding`. -/
structure Binding where
  name : List String
  code : String
  location : CodeLocation
  deriving DecidableEq, Repr, Inhabited

/-- Embeds `RuleArtifact`. -/
structure RuleArtifact where
  fileName : String
  fileTags : List String
  bindings : List Binding
  deriving DecidableEq, Repr, Inhabited

namespace RuleArtifact

/-- The loop `for (int i = bindings.count(); --i >= 0;)` of `store`, entered with the
value of `i` before the decrement. -/
def storeBindings (bindings : List Binding) : Nat → PersistentPool → PersistentPool
  | 0, pool => pool
  | i + 1, pool =>
    let binding := bindings.getD i default
    storeBindings bindings i
      (((pool.write (StreamItem.stringList binding.name)).write
        (StreamItem.string binding.code)).write (StreamItem.location binding.location))

/-- Embeds `RuleArtifact::store`. -/
def store (self : RuleArtifact) (pool : PersistentPool) : PersistentPool :=
  let p1 := pool.write (StreamItem.string self.fileName)
  let p2 := p1.write (StreamItem.fileTags self.fileTags)
  let p3 := p2.write (StreamItem.int self.bindings.length)
  storeBindings self.bindings self.bindings.length p3

/-- The loop `for (; --i >= 0;)` of `load`, with `bindings += binding`. -/
def loadBindings : Nat → List Binding → PersistentPool →
    Option (List Binding × PersistentPool)
  | 0, bindings, pool => some (bindings, pool)
  | i + 1, bindings, pool =>
    match pool.readStringList with
    | none => none
    | some (name, p1) =>
      match p1.readString with
      | none => none
      | some (code, p2) =>
        match p2.readLocation with
        | none => none
        | some (location, p3) => loadBindings i (bindings ++ [⟨name, code, location⟩]) p3

/-- Embeds `RuleArtifact::load`; `bindings.clear()` makes the result independent of the record
loaded into. -/
def load (pool : PersistentPool) : Option (RuleArtifact × PersistentPool) :=
  match pool.readString with
  | none => none
  | some (fileName, p1) =>
    match p1.readFileTags with
    | none => none
    | some (fileTags, p2) =>
      match p2.readInt with
      | none => none
      | some (i, p3) =>
        match loadBindings i.toNat [] p3 with
        | none => none
        | some (bindings, p4) => some (⟨fileName, fileTags, bindings⟩, p4)

end RuleArtifact

/-! ### `ResolvedProject` -/

/-- The pair `pool.store(object)` / `pool.idLoadS<T>()` for the objects of one class,
taken as given for the class of the products. -/
structure ObjectCodec (T : Type) where
  store : T → PersistentPool → PersistentPool
  idLoadS : PersistentPool → Option (T × PersistentPool)

/-- The two calls are an inverse pair: `store` only appends to the stream, what it
appends depends on the string table alone, and `idLoadS` reads the object back from
there, ending with the table that the writer ended with. -/
def ObjectCodec.Inverse {T : Type} (codec : ObjectCodec T) : Prop :=
  (∀ x pre table, codec.store x ⟨pre, table⟩ =
    ⟨pre ++ (codec.store x ⟨[], table⟩).stream, (codec.store x ⟨[], table⟩).stringStorage⟩) ∧
  ∀ x table rest, codec.idLoadS ⟨(codec.store x ⟨[], table⟩).stream ++ rest, table⟩ =
    some (x, ⟨rest, (codec.store x ⟨[], table⟩).stringStorage⟩)

namespace ResolvedProject

variable {Product : Type}

/-- Embeds `ResolvedProject::deriveId`. -/
def deriveId (config : QVariantMap) : String :=
  let qbsProperties := (config.value "qbs").toMap
  let buildVariant := (qbsProperties.value "buildVariant").toString
  let profile := (qbsProperties.value "profile").toString
  profile ++ "-" ++ buildVariant

/-- Embeds `ResolvedProject::deriveBuildDirectory`. -/
def deriveBuildDirectory (buildRoot : String) (id : String) : String :=
  buildRoot ++ "/" ++ id

/-- Embeds `ResolvedProject::setBuildConfiguration`. -/
def setBuildConfiguration (self : ResolvedProject Product) (config : QVariantMap) :
    ResolvedProject Product :=
  { self with buildConfiguration := config, id := deriveId config }

/-- The `foreach` of `store`. -/
def storeProducts (codec : ObjectCodec Product) (products : List Product)
    (pool : PersistentPool) : PersistentPool :=
  products.foldl (fun p product => codec.store product p) pool

/-- Embeds `ResolvedProject::store`. -/
def store (codec : ObjectCodec Product) (self : ResolvedProject Product)
    (pool : PersistentPool) : PersistentPool :=
  let p1 := pool.storeString self.location.fileName
  let p2 := p1.write (StreamItem.int self.location.line)
  let p3 := p2.write (StreamItem.int self.location.column)
  let p4 := p3.write (StreamItem.string self.id)
  let p5 := p4.write (StreamItem.variantMap self.platformEnvironment)
  let p6 := p5.write (StreamItem.int self.products.length)
  storeProducts codec self.products p6

/-- The loop `for (; --count >= 0;)` of `load`, with `products.append(rProduct)`. -/
def loadProducts (codec : ObjectCodec Product) : Nat → List Product → PersistentPool →
    Option (List Product × PersistentPool)
  | 0, products, pool => some (products, pool)
  | count + 1, products, pool =>
    match codec.idLoadS pool with
    | none => none
    | some (rProduct, p1) => loadProducts codec count (products ++ [rProduct]) p1

/-- Embeds `ResolvedProject::load` on the project `self`. -/
def load (codec : ObjectCodec Product) (self : ResolvedProject Product)
    (pool : PersistentPool) : Option (ResolvedProject Product × PersistentPool) :=
  match pool.idLoadString with
  | none => none
  | some (fileName, p1) =>
    match p1.readInt with
    | none => none
    | some (line, p2) =>
      match p2.readInt with
      | none => none
      | some (column, p3) =>
        match p3.readString with
        | none => none
        | some (id, p4) =>
          match p4.readVariantMap with
          | none => none
          | some (platformEnvironment, p5) =>
            match p5.readInt with
            | none => none
            | some (count, p6) =>
              match loadProducts codec count.toNat [] p6 with
              | none => none
              | some (products, p7) =>
                some ({ self with
                        location := ⟨fileName, line, column⟩
                        id := id
                        platformEnvironment := platformEnvironment
                        products := products }, p7)

end ResolvedProject

/-! ### The stream written by the store functions, item by item -/

/-- What `storeString t` appends to the stream when the table is `table`. -/
def stringItems (table : List String) (t : String) : List StreamItem :=
  if t ∈ table then [StreamItem.int (table.indexOf t)]
  else [StreamItem.int table.length, StreamItem.string t]

/-- The string table after `storeString t`. -/
def stringTable (table : List String) (t : String) : List String :=
  if t ∈ table then table else table ++ [t]

/-- What `RescuableArtifactData::storeChild` appends to the stream. -/
def childItems (table : List String) (cd : ChildData) : List StreamItem :=
  stringItems table cd.productName ++
    stringItems (stringTable table cd.productName) cd.productProfile ++
    stringItems (stringTable (stringTable table cd.productName) cd.productProfile)
      cd.childFilePath ++
    [StreamItem.bool cd.addedByScanner]

/-- The string table after `RescuableArtifactData::storeChild`. -/
def childTable (table : List String) (cd : ChildData) : List String :=
  stringTable (stringTable (stringTable table cd.productName) cd.productProfile)
    cd.childFilePath

/-- What the `foreach` over the children appends to the stream. -/
def childrenItems : List String → List ChildData → List StreamItem
  | _, [] => []
  | table, cd :: rest => childItems table cd ++ childrenItems (childTable table cd) rest

/-- The string table after the `foreach` over the children. -/
def childrenTable : List String → List ChildData → List String
  | table, [] => table
  | table, cd :: rest => childrenTable (childTable table cd) rest

/-- The three stream items of each binding of the list, in list order. -/
def bindingItems : List Binding → List StreamItem
  | [] => []
  | b :: rest =>
    StreamItem.stringList b.name :: StreamItem.string b.code ::
      StreamItem.location b.location :: bindingItems rest

/-- What the `foreach` over the products appends to the stream. -/
def productItems {Product : Type} (codec : ObjectCodec Product) :
    List String → List Product → List StreamItem
  | _, [] => []
  | table, x :: rest =>
    (codec.store x ⟨[], table⟩).stream ++
      productItems codec (codec.store x ⟨[], table⟩).stringStorage rest

/-- The string table after the `foreach` over the products. -/
def productTable {Product : Type} (codec : ObjectCodec Product) :
    List String → List Product → List String
  | table, [] => table
  | table, x :: rest => productTable codec (codec.store x ⟨[], table⟩).stringStorage rest

/-- The pool codec of plain strings, as an object codec. -/
def stringCodec : ObjectCodec String :=
  ⟨fun t pool => pool.storeString t, PersistentPool.idLoadString⟩

/-- A rescue record with two children and no commands. -/
def exampleRescueData : RescuableArtifactData :=
  ⟨1400000000,
   [⟨"app", "gcc", "/src/a.h", true⟩, ⟨"lib", "gcc", "/src/b.h", false⟩],
   []⟩

/-- A rule artifact with two different bindings. -/
def exampleRuleArtifact : RuleArtifact :=
  ⟨"out.o", ["obj"],
   [⟨["cpp", "defines"], "[]", ⟨"a.qbs", 3, 5⟩⟩, ⟨["cpp", "flags"], "[1]", ⟨"a.qbs", 4, 5⟩⟩]⟩

/-- A build configuration with the given profile and build variant under `qbs`. -/
def exampleConfiguration (profile buildVariant : String) : QVariantMap :=
  AList.insert "qbs"
    (QVariant.map [("profile", QVariant.string profile),
      ("buildVariant", QVariant.string buildVariant)]) ∅

/-- A project whose products are plain names, stored through `stringCodec`, before any
build configuration is set. -/
def exampleProject : ResolvedProject String :=
  ⟨⟨"project.qbs", 1, 1⟩, "", ∅, AList.insert "PATH" (QVariant.string "/usr/bin") ∅,
    ["app", "lib"]⟩

/-- A project as it is before anything is loaded or configured. -/
def freshProject : ResolvedProject String :=
  ⟨⟨"", 0, 0⟩, "", ∅, ∅, []⟩

/-! ## Groups and wildcards -/

/-- Embeds `SourceArtifact`. -/
structure SourceArtifact where
  absoluteFilePath : String
  fileTags : List String
  properties : PropertyMapInternal

/-- Embeds `SourceWildCards`.  (`pathPrefix` is the member `prefix`.) -/
structure SourceWildCards where
  pathPrefix : String
  patterns : List String
  excludePatterns : List String
  files : List SourceArtifact

/-- Embeds `ResolvedGroup`; a null `wildcards` pointer is `none`. -/
structure ResolvedGroup where
  name : String
  enabled : Bool
  location : CodeLocation
  files : List SourceArtifact
  wildcards : Option SourceWildCards
  properties : PropertyMapInternal

/-- Embeds `ResolvedGroup::allFiles`. -/
def ResolvedGroup.allFiles (self : ResolvedGroup) : List SourceArtifact :=
  let lst := self.files
  match self.wildcards with
  | some wildcards => lst ++ wildcards.files
  | none => lst

/-- The `QDir::Filters` that the expander combines. -/
structure DirFilters where
  dirs : Bool
  files : Bool
  hidden : Bool
  noDotAndDotDot : Bool
  deriving DecidableEq, Repr

/-- What the wildcard expander asks of its surroundings: `HostOsInfo::isWindowsHost()`,
`FileInfo::isAbsolute`, `FileInfo::isPattern`, `FileInfo(path).isDir()`, and the paths
that a `QDirIterator(baseDir, nameFilters, filters, flags)` yields, the last argument
telling whether `flags` is `QDirIterator::Subdirectories`. -/
structure FileSystem where
  isWindowsHost : Bool
  isAbsolute : String → Bool
  isPattern : String → Bool
  isDir : String → Bool
  dirIterator : String → List String → DirFilters → Bool → List String

/-- Embeds `QString::split(sep)` on the characters of a string; `cur` collects the current
piece in reverse. -/
def splitChars (sep : Char) : List Char → List Char → List (List Char)
  | [], cur => [cur.reverse]
  | c :: cs, cur =>
    if c = sep then cur.reverse :: splitChars sep cs [] else splitChars sep cs (c :: cur)

/-- Embeds `QString::split(sep)`. -/
def qsplit (s : String) (sep : Char) : List String :=
  (splitChars sep s.data []).map String.mk

/-- Embeds `QString::replace(before, after)` for characters. -/
def qreplace (s : String) (before after : Char) : String :=
  String.mk (s.data.map fun c => if c = before then after else c)

/-- Embeds `QString::endsWith(c)`. -/
def qendsWith (s : String) (c : Char) : Bool :=
  decide (s.data.getLast? = some c)

/-- Embeds `QSet<QString>::operator+=` for one element. -/
def qsetInsert (set : List String) (x : String) : List String :=
  if x ∈ set then set else set ++ [x]

/-- Embeds `QSet<QString>::operator-=`. -/
def qsetSubtract (set other : List String) : List String :=
  set.filter fun x => decide (x ∉ other)

namespace SourceWildCards

/-- The `while (part == "**")` loop at the head of the recursive `expandPatterns`, from
the state `(part, changed_parts, recursive)` to the state after the loop. -/
def skipStars : String → List String → Bool → Bool × String × List String
  | part, [], recursive =>
    if part = "**" then (true, "*", []) else (recursive, part, [])
  | part, next :: rest, recursive =>
    if part = "**" then skipStars next rest true else (recursive, part, next :: rest)

/-- The filters of the iterator, from `isDir` and the file pattern. -/
def iteratorFilters (fs : FileSystem) (isDir : Bool) (filePattern : String) : DirFilters :=
  let itFilters : DirFilters :=
    if isDir then ⟨true, false, false, false⟩ else ⟨false, true, false, false⟩
  let itFilters :=
    if isDir && !fs.isPattern filePattern then { itFilters with hidden := true }
    else itFilters
  if filePattern ≠ ".." ∧ filePattern ≠ "." then { itFilters with noDotAndDotDot := true }
  else itFilters

/-- The loop `while (it.hasNext())`: a path of the wrong kind fails the assertion and
breaks the loop, a directory is descended into through `recurse`, a file joins
`result`. -/
def expandEntries (fs : FileSystem) (isDir : Bool)
    (recurse : String → List String → List String) :
    List String → List String → List String
  | [], result => result
  | filePath :: rest, result =>
    QBS_ASSERT (fs.isDir filePath == isDir) result
      (if isDir then expandEntries fs isDir recurse rest (recurse filePath result)
       else expandEntries fs isDir recurse rest (qsetInsert result filePath))

/-- The recursive `expandPatterns(result, group, parts, baseDir)`.  Every level takes at
least one element off `parts`, and `fuel` is the length of `parts` at the first call, so
it is never used up (`expandParts_fuel`).  An empty `parts`, on which `takeFirst()` has
nothing to take, leaves `result` as it is. -/
def expandParts (fs : FileSystem) (group : ResolvedGroup) :
    Nat → List String → String → List String → List String
  | 0, _, _, result => result
  | _ + 1, [], _, result => result
  | fuel + 1, first :: others, baseDir, result =>
    let state := skipStars first others false
    let recursive := state.1
    let filePattern := state.2.1
    let changed_parts := state.2.2
    let isDir := !changed_parts.isEmpty
    expandEntries fs isDir
      (fun filePath result => expandParts fs group fuel changed_parts filePath result)
      (fs.dirIterator baseDir [filePattern] (iteratorFilters fs isDir filePattern) recursive)
      result

/-- The body of the `foreach` over the patterns: the set `files` after one pattern. -/
def expandPattern (fs : FileSystem) (self : SourceWildCards) (group : ResolvedGroup)
    (baseDir : String) (files : List String) (pattern : String) : List String :=
  let pattern := qreplace (self.pathPrefix ++ pattern) '\\' '/'
  let parts := qsplit pattern '/'
  if fs.isAbsolute pattern then
    if fs.isWindowsHost then
      let rootDir := parts.headD ""
      let parts := parts.tail
      let rootDir := if qendsWith rootDir '/' then rootDir else rootDir ++ "/"
      expandParts fs group parts.length parts rootDir files
    else
      expandParts fs group parts.length parts "/" files
  else
    expandParts fs group parts.length parts baseDir files

/-- The overload `expandPatterns(group, patterns, baseDir)`. -/
def expandPatternList (fs : FileSystem) (self : SourceWildCards) (group : ResolvedGroup)
    (patterns : List String) (baseDir : String) : List String :=
  patterns.foldl (expandPattern fs self group baseDir) []

/-- The overload `expandPatterns(group, baseDir)`. -/
def expandPatterns (fs : FileSystem) (self : SourceWildCards) (group : ResolvedGroup)
    (baseDir : String) : List String :=
  let files := expandPatternList fs self group self.patterns baseDir
  qsetSubtract files (expandPatternList fs self group self.excludePatterns baseDir)

end SourceWildCards

/-! ### A small file system for the scenario -/

/-- All suffixes of a list, the list itself first. -/
def suffixes : List Char → List (List Char)
  | [] => [[]]
  | c :: cs => (c :: cs) :: suffixes cs

/-- Wildcard matching of a name filter: `*` for any run of characters, `?` for one. -/
def globMatch : List Char → List Char → Bool
  | [], s => s.isEmpty
  | p :: ps, s =>
    if p = '*' then (suffixes s).any fun t => globMatch ps t
    else
      match s with
      | [] => false
      | c :: cs => (p = '?' || p = c) && globMatch ps cs

/-- The path `path` below the directory `base`, relative to it. -/
def relativeTo (base path : List Char) : Option (List Char) :=
  if base.isPrefixOf path then
    match path.drop base.length with
    | '/' :: rel => some rel
    | _ => none
  else none

/-- The entries of a file tree kept as a list of paths, each marked as directory or file,
as a `QDirIterator` on `baseDir` lists them: below `baseDir`, at any depth only with
`subdirs`, of the kind asked for, dot names only with `hidden`, and with a last segment
that matches a name filter. -/
def listEntries (tree : List (String × Bool)) (baseDir : String) (nameFilters : List String)
    (filters : DirFilters) (subdirs : Bool) : List String :=
  (tree.filter fun e =>
    match relativeTo baseDir.data e.1.data with
    | none => false
    | some rel =>
      let segments := splitChars '/' rel []
      let name := segments.getLastD []
      (subdirs || segments.length == 1) &&
        (if e.2 then filters.dirs else filters.files) &&
        (filters.hidden || segments.all fun s => s.head? != some '.') &&
        nameFilters.any fun f => globMatch f.data name).map Prod.fst

/-- The tree of the scenario, under `/p`. -/
def scenarioTree : List (String × Bool) :=
  [("/p/src", true), ("/p/src/a.cpp", false), ("/p/src/sub", true),
   ("/p/src/sub/b.cpp", false), ("/p/src/generated", true),
   ("/p/src/generated/g.cpp", false)]

/-- The surroundings of the scenario: a Unix host over `scenarioTree`. -/
def scenarioFileSystem : FileSystem where
  isWindowsHost := false
  isAbsolute := fun p => p.data.head? == some '/'
  isPattern := fun p => p.data.any fun c => c = '*' || c = '?' || c = '[' || c = ']'
  isDir := fun p => scenarioTree.any fun e => e.1 = p && e.2
  dirIterator := listEntries scenarioTree

/-- The wildcards of the scenario. -/
def scenarioWildCards : SourceWildCards :=
  ⟨"src/", ["**/*.cpp"], ["**/generated/*.cpp"], []⟩

/-- The group that owns `scenarioWildCards`. -/
def scenarioGroup : ResolvedGroup :=
  ⟨"sources", true, ⟨"project.qbs", 1, 1⟩, [], some scenarioWildCards, ⟨∅⟩⟩

/-- A group with one explicit file and no wildcards. -/
def exampleGroupPlain : ResolvedGroup :=
  ⟨"plain", true, ⟨"project.qbs", 2, 1⟩, [⟨"/p/main.cpp", ["cpp"], ⟨∅⟩⟩], none, ⟨∅⟩⟩

/-- A group with one explicit file and two files found through wildcards. -/
def exampleGroupWild : ResolvedGroup :=
  ⟨"wild", true, ⟨"project.qbs", 3, 1⟩, [⟨"/p/main.cpp", ["cpp"], ⟨∅⟩⟩],
    some ⟨"src/", ["*.cpp"], [],
      [⟨"/p/src/a.cpp", ["cpp"], ⟨∅⟩⟩, ⟨"/p/src/b.cpp", ["cpp"], ⟨∅⟩⟩]⟩, ⟨∅⟩⟩

/-! ## Products -/

/-- Embeds `ResolvedProduct`, with the members that the environment setup and the file lists
use.  The back pointer `project` is passed to the functions that follow it. -/
structure ResolvedProduct where
  enabled : Bool
  name : String
  properties : PropertyMapInternal
  modules : List ResolvedModule
  groups : List ResolvedGroup
  buildEnvironment : QProcessEnvironment
  runEnvironment : QProcessEnvironment

namespace ResolvedProduct

/-- Embeds `ResolvedProduct::setupBuildEnvironment`: the product after the call, `none` and
`Except.error` as for `getProcessEnvironment`. -/
def setupBuildEnvironment {σ Product : Type} (fuel : Nat) (engine : ScriptEngine σ)
    (engineState : σ) (self : ResolvedProduct) (project : ResolvedProject Product)
    (env : QProcessEnvironment) : Option (Except Error ResolvedProduct) :=
  if !self.buildEnvironment.isEmpty then some (Except.ok self)
  else
    match getProcessEnvironment fuel engine engineState EnvType.BuildEnv self.modules
      self.properties project env with
    | none => none
    | some (Except.error e) => some (Except.error e)
    | some (Except.ok procenv) => some (Except.ok { self with buildEnvironment := procenv })

/-- Embeds `ResolvedProduct::setupRunEnvironment`. -/
def setupRunEnvironment {σ Product : Type} (fuel : Nat) (engine : ScriptEngine σ)
    (engineState : σ) (self : ResolvedProduct) (project : ResolvedProject Product)
    (env : QProcessEnvironment) : Option (Except Error ResolvedProduct) :=
  if !self.runEnvironment.isEmpty then some (Except.ok self)
  else
    match getProcessEnvironment fuel engine engineState EnvType.RunEnv self.modules
      self.properties project env with
    | none => none
    | some (Except.error e) => some (Except.error e)
    | some (Except.ok procenv) => some (Except.ok { self with runEnvironment := procenv })

end ResolvedProduct

/-- A product whose only module names a dependency `base` that is not among its
modules. -/
def danglingProduct : ResolvedProduct :=
  ⟨true, "app", ⟨∅⟩, [⟨some "derived", ["base"], "putenv(\"X\", \"1\")", "", []⟩], [], ∅, ∅⟩

/-- A caller environment with `PATH` and `X`. -/
def callerEnvironment : QProcessEnvironment :=
  AList.insert "X" "base" (AList.insert "PATH" "/bin" ∅)

/-- A project whose platform environment sets `X`. -/
def platformProject : ResolvedProject Unit :=
  ⟨⟨"", 0, 0⟩, "", ∅, AList.insert "X" (QVariant.string "platform") ∅, []⟩

/-- The scope that the script of module `m` is evaluated in: the imports of the module,
one object per direct dependency, and the module's own properties, added to `scope`. -/
def preparedScope {σ : Type} (engine : ScriptEngine σ) (modules : List ResolvedModule)
    (productConfiguration : PropertyMapInternal) (g : ModuleGraph) (scope : σ) (m : Nat) : σ :=
  let module := modules.getD m default
  let s1 := engine.engineImport module.jsImports scope
  let productModules := (productConfiguration.value.value "modules").toMap
  let s2 := exposeDependencies engine productModules modules (g.moduleChildren m) s1
  exposeProperties engine (productModules.value (nameKey module.name)).toMap s2

/-- The loop over `topSortedModules` once more, this time with the list of the modules
whose script was handed to `engine->evaluate`, in the order of the calls. -/
def evaluateModulesTrace {σ : Type} (engine : ScriptEngine σ) (envType : EnvType)
    (modules : List ResolvedModule) (productConfiguration : PropertyMapInternal)
    (g : ModuleGraph) : List Nat → σ × QProcessEnvironment → List Nat →
    Except Error (σ × QProcessEnvironment) × List Nat
  | [], state, evaluated => (Except.ok state, evaluated)
  | m :: rest, state, evaluated =>
    if skipModule envType (modules.getD m default) then
      evaluateModulesTrace engine envType modules productConfiguration g rest state evaluated
    else
      match runSetupScript engine envType modules productConfiguration g state m with
      | Except.error e => (Except.error e, evaluated ++ [m])
      | Except.ok state1 =>
        evaluateModulesTrace engine envType modules productConfiguration g rest state1
          (evaluated ++ [m])

/-- Three modules in a chain: `base` sets `X`, `broken` depends on `base` and has a
script that the scenario engine rejects, `late` depends on `broken`. -/
def brokenModules : List ResolvedModule :=
  [⟨some "base", [], "putenv(\"X\", \"1\")", "", []⟩,
   ⟨some "broken", ["base"], "oops(", "", []⟩,
   ⟨some "late", ["broken"], "putenv(\"Y\", getenv(\"X\") + \"2\")", "", []⟩]

/-- A product with the modules `brokenModules` and no cached environment. -/
def brokenProduct : ResolvedProduct :=
  ⟨true, "app", ⟨∅⟩, brokenModules, [], ∅, ∅⟩

/-- A product without modules and without cached environment. -/
def bareProduct : ResolvedProduct :=
  ⟨true, "bare", ⟨∅⟩, [], [], ∅, ∅⟩

/-- A product with the two modules of the scenario and no cached environment. -/
def scenarioProduct : ResolvedProduct :=
  ⟨true, "app", ⟨∅⟩, scenarioModules, [], ∅, ∅⟩

/-- An engine whose every evaluation is an error. -/
def failingEngine : ScriptEngine Unit where
  clearImportsCache := fun s => s
  newScope := fun _ s => s
  engineImport := fun _ s => s
  setScopeObject := fun _ _ s => s
  setScopeProperty := fun _ _ s => s
  evaluate := fun _ s procenv => ⟨true, "Error", s, procenv⟩

/-- The two-module cycle: `A` depends on `B` and `B` on `A`, each with a build script. -/
def cycleModules : List ResolvedModule :=
  [⟨some "A", ["B"], "putenv(\"X\", \"1\")", "", []⟩,
   ⟨some "B", ["A"], "putenv(\"X\", \"1\")", "", []⟩]

/-! ## Shared objects in the pool -/

/-- Embeds `PropertyMapInternal::store`: `pool.stream() << m_value`. -/
def PropertyMapInternal.store (self : PropertyMapInternal) (pool : PersistentPool) :
    PersistentPool :=
  pool.write (StreamItem.variantMap self.value)

/-- Embeds `PropertyMapInternal::load`: `pool.stream() >> m_value`. -/
def PropertyMapInternal.load (pool : PersistentPool) :
    Option (PropertyMapInternal × PersistentPool) :=
  match pool.readVariantMap with
  | none => none
  | some (value, p1) => some (⟨value⟩, p1)

/-- Modelled from the spec: the writing pool with its table of stored objects
(`tools/persistence.h` is not among the sources).  An object is known by its address, and
its id is its position in `storageIndices`. -/
structure ObjectStorePool where
  pool : PersistentPool
  storageIndices : List Nat

/-- Modelled from the spec: the reading pool with its table of loaded objects:
`loadedRaw` holds, by id, the address of each object loaded so far, and `heap` the
property maps allocated by the loads, an address being a position in it. -/
structure ObjectLoadPool where
  pool : PersistentPool
  loadedRaw : List Nat
  heap : List PropertyMapInternal

/-- Modelled from the spec: `pool.store(object)` for a shared `PropertyMapInternal` at the
address `object`, "so repeated values serialize once": a stored object is written as its
id alone, a new one as the next id followed by what its own `store` writes.  `heap` gives
the object at an address. -/
def ObjectStorePool.store (heap : Nat → PropertyMapInternal) (sp : ObjectStorePool)
    (object : Nat) : ObjectStorePool :=
  if object ∈ sp.storageIndices then
    { sp with pool := sp.pool.write (StreamItem.int (sp.storageIndices.indexOf object)) }
  else
    { pool := (heap object).store (sp.pool.write (StreamItem.int sp.storageIndices.length))
      storageIndices := sp.storageIndices ++ [object] }

/-- Modelled from the spec: `pool.idLoadS<PropertyMapInternal>()`: a known id gives the
object loaded under it, the next free id allocates a new object, files it under the id
and loads it. -/
def ObjectLoadPool.idLoadS (lp : ObjectLoadPool) : Option (Nat × ObjectLoadPool) :=
  match lp.pool.readInt with
  | none => none
  | some (id, p1) =>
    if id < 0 then none
    else if h : id.toNat < lp.loadedRaw.length then
      some (lp.loadedRaw.get ⟨id.toNat, h⟩, { lp with pool := p1 })
    else if id.toNat = lp.loadedRaw.length then
      match PropertyMapInternal.load p1 with
      | none => none
      | some (object, p2) =>
        some (lp.heap.length, ⟨p2, lp.loadedRaw ++ [lp.heap.length], lp.heap ++ [object]⟩)
    else none

/-- A `SourceArtifact` as an object whose member `properties` is a pointer: the address
of a `PropertyMapInternal`. -/
structure SourceArtifactObject where
  absoluteFilePath : String
  fileTags : List String
  properties : Nat
  deriving DecidableEq, Repr

namespace SourceArtifactObject

/-- Embeds `SourceArtifact::store`. -/
def store (heap : Nat → PropertyMapInternal) (self : SourceArtifactObject)
    (sp : ObjectStorePool) : ObjectStorePool :=
  let p1 := sp.pool.write (StreamItem.string self.absoluteFilePath)
  let p2 := p1.write (StreamItem.fileTags self.fileTags)
  ObjectStorePool.store heap { sp with pool := p2 } self.properties

/-- Embeds `SourceArtifact::load`. -/
def load (lp : ObjectLoadPool) : Option (SourceArtifactObject × ObjectLoadPool) :=
  match lp.pool.readString with
  | none => none
  | some (absoluteFilePath, p1) =>
    match p1.readFileTags with
    | none => none
    | some (fileTags, p2) =>
      match ObjectLoadPool.idLoadS { lp with pool := p2 } with
      | none => none
      | some (properties, lp1) => some (⟨absoluteFilePath, fileTags, properties⟩, lp1)

end SourceArtifactObject

/-- The object tables of a writer and of a reader that has read what the writer wrote:
as many ids on both sides, no address twice on either side, every loaded address
allocated, and under each id a loaded object equal to the stored one. -/
def InStep (heap : Nat → PropertyMapInternal) (storageIndices loadedRaw : List Nat)
    (loaded : List PropertyMapInternal) : Prop :=
  storageIndices.length = loadedRaw.length ∧ storageIndices.Nodup ∧ loadedRaw.Nodup ∧
    (∀ b ∈ loadedRaw, b < loaded.length) ∧
    ∀ i a b : Nat, storageIndices[i]? = some a → loadedRaw[i]? = some b →
      loaded[b]? = some (heap a)

/-- What `pool.store(object)` appends to the stream when the stored objects are
`storageIndices`. -/
def objectItems (heap : Nat → PropertyMapInternal) (storageIndices : List Nat)
    (object : Nat) : List StreamItem :=
  if object ∈ storageIndices then [StreamItem.int (storageIndices.indexOf object)]
  else [StreamItem.int storageIndices.length, StreamItem.variantMap (heap object).value]

/-- The table of stored objects after `pool.store(object)`. -/
def objectTable (storageIndices : List Nat) (object : Nat) : List Nat :=
  if object ∈ storageIndices then storageIndices else storageIndices ++ [object]

/-- Two property maps at the addresses 7 and 8 of the writer. -/
def exampleHeap : Nat → PropertyMapInternal :=
  fun a => if a = 7 then ⟨exampleConfiguration "gcc" "debug"⟩ else ⟨∅⟩

/-- Two artifacts that share the property map at address 7. -/
def sharingArtifacts : SourceArtifactObject × SourceArtifactObject :=
  (⟨"/p/a.cpp", ["cpp"], 7⟩, ⟨"/p/b.cpp", ["cpp"], 7⟩)

/-- Two artifacts with the property maps at the addresses 7 and 8. -/
def distinctArtifacts : SourceArtifactObject × SourceArtifactObject :=
  (⟨"/p/a.cpp", ["cpp"], 7⟩, ⟨"/p/c.cpp", ["cpp"], 8⟩)

/-! ## `ResolvedModule` in the pool -/

namespace PersistentPool

/-- Modelled from the spec: `storeString` for a `QString` that may be null, as the name
of a module may be: the null string is written as the id `-1`, any other string as
`storeString` writes it. -/
def storeNullableString (pool : PersistentPool) (t : Option String) : PersistentPool :=
  match t with
  | none => pool.write (StreamItem.int (-1))
  | some s => pool.storeString s

/-- Modelled from the spec: `idLoadString` for a `QString` that may be null, the reader
of `storeNullableString`. -/
def idLoadNullableString (pool : PersistentPool) : Option (Option String × PersistentPool) :=
  match pool.readInt with
  | none => none
  | some (id, p1) =>
    if id = -1 then some (none, p1)
    else
      match pool.idLoadString with
      | none => none
      | some (s, p2) => some (some s, p2)

/-- Modelled from the spec: `storeStringList`: the count, then each string through
`storeString`. -/
def storeStringList (pool : PersistentPool) (l : List String) : PersistentPool :=
  l.foldl (fun p s => p.storeString s) (pool.write (StreamItem.int l.length))

/-- The reading loop of `idLoadStringList`. -/
def loadStrings : Nat → List String → PersistentPool →
    Option (List String × PersistentPool)
  | 0, acc, pool => some (acc, pool)
  | n + 1, acc, pool =>
    match pool.idLoadString with
    | none => none
    | some (s, p1) => loadStrings n (acc ++ [s]) p1

/-- Modelled from the spec: `idLoadStringList`, the reader of `storeStringList`. -/
def idLoadStringList (pool : PersistentPool) : Option (List String × PersistentPool) :=
  match pool.readInt with
  | none => none
  | some (count, p1) => loadStrings count.toNat [] p1

/-- Embeds `operator<<(QDataStream &, const JsImport &)`: scope name, file names,
location. -/
def writeJsImport (pool : PersistentPool) (jsImport : JsImport) : PersistentPool :=
  ((pool.write (StreamItem.string jsImport.scopeName)).write
    (StreamItem.stringList jsImport.fileNames)).write (StreamItem.location jsImport.location)

/-- Embeds `operator>>(QDataStream &, JsImport &)`. -/
def readJsImport (pool : PersistentPool) : Option (JsImport × PersistentPool) :=
  match pool.readString with
  | none => none
  | some (scopeName, p1) =>
    match p1.readStringList with
    | none => none
    | some (fileNames, p2) =>
      match p2.readLocation with
      | none => none
      | some (location, p3) => some (⟨scopeName, fileNames, location⟩, p3)

/-- The step `pool.stream() << jsImports` for the list: the count, then each import. -/
def writeJsImports (pool : PersistentPool) (jsImports : List JsImport) : PersistentPool :=
  jsImports.foldl writeJsImport (pool.write (StreamItem.int jsImports.length))

/-- The reading loop of `pool.stream() >> jsImports`. -/
def readJsImportLoop : Nat → List JsImport → PersistentPool →
    Option (List JsImport × PersistentPool)
  | 0, acc, pool => some (acc, pool)
  | n + 1, acc, pool =>
    match pool.readJsImport with
    | none => none
    | some (jsImport, p1) => readJsImportLoop n (acc ++ [jsImport]) p1

/-- The step `pool.stream() >> jsImports` for the list. -/
def readJsImports (pool : PersistentPool) : Option (List JsImport × PersistentPool) :=
  match pool.readInt with
  | none => none
  | some (count, p1) => readJsImportLoop count.toNat [] p1

end PersistentPool

namespace ResolvedModule

/-- Embeds `ResolvedModule::store`. -/
def store (self : ResolvedModule) (pool : PersistentPool) : PersistentPool :=
  let p1 := pool.storeNullableString self.name
  let p2 := p1.storeStringList self.moduleDependencies
  let p3 := p2.storeString self.setupBuildEnvironmentScript
  let p4 := p3.storeString self.setupRunEnvironmentScript
  let p5 := p4.writeJsImports self.jsImports
  let p6 := p5.write (StreamItem.string self.setupBuildEnvironmentScript)
  p6.write (StreamItem.string self.setupRunEnvironmentScript)

/-- Embeds `ResolvedModule::load`: the two scripts are read through the pool first and
then once more from the stream, the second value replacing the first. -/
def load (pool : PersistentPool) : Option (ResolvedModule × PersistentPool) :=
  match pool.idLoadNullableString with
  | none => none
  | some (name, p1) =>
    match p1.idLoadStringList with
    | none => none
    | some (moduleDependencies, p2) =>
      match p2.idLoadString with
      | none => none
      | some (_, p3) =>
        match p3.idLoadString with
        | none => none
        | some (_, p4) =>
          match p4.readJsImports with
          | none => none
          | some (jsImports, p5) =>
            match p5.readString with
            | none => none
            | some (setupBuildEnvironmentScript, p6) =>
              match p6.readString with
              | none => none
              | some (setupRunEnvironmentScript, p7) =>
                some (⟨name, moduleDependencies, setupBuildEnvironmentScript,
                  setupRunEnvironmentScript, jsImports⟩, p7)

end ResolvedModule

/-- What `storeNullableString t` appends to the stream. -/
def nullableStringItems (table : List String) (t : Option String) : List StreamItem :=
  match t with
  | none => [StreamItem.int (-1)]
  | some s => stringItems table s

/-- The string table after `storeNullableString t`. -/
def nullableStringTable (table : List String) (t : Option String) : List String :=
  match t with
  | none => table
  | some s => stringTable table s

/-- What the strings of a list append to the stream, each through `storeString`. -/
def stringsItems : List String → List String → List StreamItem
  | _, [] => []
  | table, s :: rest => stringItems table s ++ stringsItems (stringTable table s) rest

/-- The string table after the strings of a list went through `storeString`. -/
def stringsTable : List String → List String → List String
  | table, [] => table
  | table, s :: rest => stringsTable (stringTable table s) rest

/-- The three stream items of each import of the list, in list order. -/
def jsImportItems : List JsImport → List StreamItem
  | [] => []
  | i :: rest =>
    StreamItem.string i.scopeName :: StreamItem.stringList i.fileNames ::
      StreamItem.location i.location :: jsImportItems rest

/-- A module with dependencies, both scripts and one import. -/
def exampleModule : ResolvedModule :=
  ⟨some "cpp", ["qbs", "base"], "putenv(\"X\", \"1\")", "run()",
    [⟨"Helpers", ["helpers.js"], ⟨"cpp.qbs", 2, 1⟩⟩]⟩

/-! ## File lists of a product -/

namespace ResolvedProduct

/-- Embeds `ResolvedProduct::allFiles`. -/
def allFiles (self : ResolvedProduct) : List SourceArtifact :=
  self.groups.foldl (fun lst group => lst ++ group.allFiles) []

/-- Embeds `ResolvedProduct::allEnabledFiles`. -/
def allEnabledFiles (self : ResolvedProduct) : List SourceArtifact :=
  self.groups.foldl (fun lst group => if group.enabled then lst ++ group.allFiles else lst) []

end ResolvedProduct

/-- A product with an enabled group of one file, a disabled group of one file, and an
enabled group with one file and two wildcard files. -/
def exampleFilesProduct : ResolvedProduct :=
  ⟨true, "app", ⟨∅⟩, [],
    [exampleGroupPlain, { exampleGroupPlain with name := "off", enabled := false },
      exampleGroupWild], ∅, ∅⟩

/-! ## Jobs -/

namespace AbstractJob

/-- Embeds `enum State` of `AbstractJob` (`api/jobs.h`). -/
inductive State where
  | StateRunning
  | StateCanceling
  | StateFinished
  deriving DecidableEq, Repr

/-- The calls that change the state of a job. -/
inductive Transition where
  | cancel
  | handleFinished
  deriving DecidableEq, Repr

/-- Modelled from the spec: `AbstractJob::cancel()`, whose body (`api/jobs.cpp`) is not
among the sources: "if currently Running, transition to Canceling and request the
underlying work to stop at its next safe checkpoint; idempotent if already Canceling or
Finished". -/
def cancel (m_state : State) : State :=
  match m_state with
  | State.StateRunning => State.StateCanceling
  | other => other

/-- Modelled from the spec: the slot `handleFinished()`, whose body is not among the
sources: "Finished is terminal and reachable from either Running or Canceling". -/
def handleFinished (_m_state : State) : State :=
  State.StateFinished

/-- The state after one transition. -/
def step (m_state : State) : Transition → State
  | Transition.cancel => cancel m_state
  | Transition.handleFinished => handleFinished m_state

end AbstractJob

/-! ## Hidden entries and leading `**` -/

/-- A tree with a hidden file and a hidden directory under `/p`. -/
def dotTree : List (String × Bool) :=
  [("/p/.config", true), ("/p/.config/settings.cpp", false), ("/p/.hidden.cpp", false),
   ("/p/main.cpp", false)]

/-- A Unix host over `dotTree`. -/
def dotFileSystem : FileSystem where
  isWindowsHost := false
  isAbsolute := fun p => p.data.head? == some '/'
  isPattern := fun p => p.data.any fun c => c = '*' || c = '?' || c = '[' || c = ']'
  isDir := fun p => dotTree.any fun e => e.1 = p && e.2
  dirIterator := listEntries dotTree

/-- Wildcards without a path before the patterns, with the given include patterns. -/
def plainWildCards (patterns : List String) : SourceWildCards :=
  ⟨"", patterns, [], []⟩

/-! ## Examples for the recursion flag and the project id -/

/-- A tree under `/p` with a directory `a` that holds `b.cpp` and a subdirectory `x`
with another `b.cpp`. -/
def nestedTree : List (String × Bool) :=
  [("/p/a", true), ("/p/a/b.cpp", false), ("/p/a/x", true), ("/p/a/x/b.cpp", false)]

/-- A Unix host over `nestedTree`. -/
def nestedFileSystem : FileSystem where
  isWindowsHost := false
  isAbsolute := fun p => p.data.head? == some '/'
  isPattern := fun p => p.data.any fun c => c = '*' || c = '?' || c = '[' || c = ']'
  isDir := fun p => nestedTree.any fun e => e.1 = p && e.2
  dirIterator := listEntries nestedTree

/-- A build configuration with profile and build variant under `qbs`, a further key
under `qbs`, and a further top-level key. -/
def exampleConfigurationMore (profile buildVariant : String) : QVariantMap :=
  AList.insert "cpp" (QVariant.map [("debugInformation", QVariant.bool true)])
    (AList.insert "qbs"
      (QVariant.map [("profile", QVariant.string profile),
        ("buildVariant", QVariant.string buildVariant),
        ("architecture", QVariant.string "x86_64")]) ∅)

/-- A rescue record that already holds one child. -/
def occupiedRescueData : RescuableArtifactData :=
  ⟨7, [⟨"old", "gcc", "/src/old.h", false⟩], [⟨"old command"⟩]⟩

/-- The `moduleChildren` table that `getProcessEnvironment` builds for `exampleModules`. -/
def exampleChildren : Nat → List Nat :=
  ((moduleGraph exampleModules).getD ModuleGraph.empty).moduleChildren

/-- The `moduleChildren` table that `getProcessEnvironment` builds for `cycleModules`:
`A` has the child `B` and `B` has the child `A`. -/
def cycleChildren : Nat → List Nat :=
  ((moduleGraph cycleModules).getD ModuleGraph.empty).moduleChildren

/-- The modules of `added` have names, pairwise distinct, none of which is in `seen`.  (A
predicate of the proofs about `topSortModules`.) -/
def FreshNames (modules : List ResolvedModule) (seen : List String) (added : List Nat) :
    Prop :=
  (added.map (moduleName modules)).Nodup ∧
    ∀ m ∈ added, ∃ s, moduleName modules m = some s ∧ s ∉ seen

/-! ## The module map and the adjacency tables -/

section ModuleMap

theorem insertModules_cons (p : Nat × ResolvedModule) (l : List (Nat × ResolvedModule))
    (init : QMap Nat) :
    insertModules (p :: l) init = insertModules l (init.insert (nameKey p.2.name) p.1) := rfl

theorem buildModuleMap_eq (modules : List ResolvedModule) :
    buildModuleMap modules = insertModules modules.enum ∅ := rfl

theorem insertModules_lookup_of_not_mem (l : List (Nat × ResolvedModule)) (init : QMap Nat)
    (s : String) (h : ∀ p ∈ l, nameKey p.2.name ≠ s) :
    (insertModules l init).lookup s = init.lookup s := by
  induction l generalizing init with
  | nil => rfl
  | cons q rest ih =>
    rw [insertModules_cons, ih _ (fun p hp => h p (List.mem_cons_of_mem _ hp))]
    exact AList.lookup_insert_ne (fun e => h q (List.mem_cons_self _ _) e.symm)

theorem insertModules_lookup_some (l : List (Nat × ResolvedModule)) (init : QMap Nat)
    (s : String) (i : Nat) (h : (insertModules l init).lookup s = some i) :
    init.lookup s = some i ∨ ∃ p ∈ l, p.1 = i ∧ nameKey p.2.name = s := by
  induction l generalizing init with
  | nil => exact Or.inl h
  | cons q rest ih =>
    rw [insertModules_cons] at h
    rcases ih _ h with h1 | ⟨p, hp, h2⟩
    · by_cases e : s = nameKey q.2.name
      · subst e
        rw [AList.lookup_insert] at h1
        exact Or.inr ⟨q, List.mem_cons_self _ _, Option.some.inj h1, rfl⟩
      · rw [AList.lookup_insert_ne e] at h1
        exact Or.inl h1
    · exact Or.inr ⟨p, List.mem_cons_of_mem _ hp, h2⟩

theorem insertModules_lookup_of_mem (l : List (Nat × ResolvedModule)) (init : QMap Nat)
    (hnd : (l.map fun p => nameKey p.2.name).Nodup) (p : Nat × ResolvedModule) (hp : p ∈ l) :
    (insertModules l init).lookup (nameKey p.2.name) = some p.1 := by
  induction l generalizing init with
  | nil => cases hp
  | cons q rest ih =>
    rw [insertModules_cons]
    rw [List.map_cons, List.nodup_cons] at hnd
    rcases List.mem_cons.1 hp with e | hp
    · subst e
      rw [insertModules_lookup_of_not_mem, AList.lookup_insert]
      intro r hr e
      exact hnd.1 (List.mem_map.2 ⟨r, hr, e⟩)
    · exact ih _ hnd.2 hp

end ModuleMap

section Graph

theorem mem_hashAppend (h : Nat → List Nat) (key value k j : Nat) :
    j ∈ hashAppend h key value k ↔ j ∈ h k ∨ (k = key ∧ j = value) := by
  unfold hashAppend
  by_cases e : k = key
  · simp [e]
  · simp [e]

theorem addDependencies_children (mm : QMap Nat) (i : Nat) (deps : List String)
    (g g1 : ModuleGraph) (h : addDependencies mm i deps g = some g1) (k j : Nat) :
    j ∈ g1.moduleChildren k ↔
      j ∈ g.moduleChildren k ∨ (k = i ∧ ∃ d ∈ deps, mm.lookup d = some j) := by
  induction deps generalizing g with
  | nil =>
    simp only [addDependencies, Option.some.injEq] at h
    subst h
    simp
  | cons d rest ih =>
    simp only [addDependencies, QBS_ASSERT] at h
    cases hl : mm.lookup d with
    | none => simp [hl] at h
    | some x =>
      simp only [hl, Option.isSome_some, if_true, Option.some_bind] at h
      rw [ih _ h, mem_hashAppend]
      constructor
      · rintro ((h1 | ⟨h1, h2⟩) | ⟨h1, d1, hd1, h2⟩)
        · exact Or.inl h1
        · exact Or.inr ⟨h1, d, List.mem_cons_self _ _, by rw [hl, h2]⟩
        · exact Or.inr ⟨h1, d1, List.mem_cons_of_mem _ hd1, h2⟩
      · rintro (h1 | ⟨h1, d1, hd1, h2⟩)
        · exact Or.inl (Or.inl h1)
        · rcases List.mem_cons.1 hd1 with e | hd1
          · subst e
            rw [hl] at h2
            exact Or.inl (Or.inr ⟨h1, (Option.some.inj h2).symm⟩)
          · exact Or.inr ⟨h1, d1, hd1, h2⟩

theorem addModules_children (mm : QMap Nat) (l : List (Nat × ResolvedModule))
    (g g1 : ModuleGraph) (h : addModules mm l g = some g1) (k j : Nat) :
    j ∈ g1.moduleChildren k ↔
      j ∈ g.moduleChildren k ∨
        ∃ p ∈ l, p.1 = k ∧ ∃ d ∈ p.2.moduleDependencies, mm.lookup d = some j := by
  induction l generalizing g with
  | nil =>
    simp only [addModules, Option.some.injEq] at h
    subst h
    simp
  | cons q rest ih =>
    simp only [addModules] at h
    cases ha : addDependencies mm q.1 q.2.moduleDependencies g with
    | none => simp [ha] at h
    | some g2 =>
      simp only [ha, Option.some_bind] at h
      rw [ih _ h, addDependencies_children mm q.1 _ g g2 ha]
      constructor
      · rintro ((h1 | ⟨h1, h2⟩) | ⟨p, hp, h2⟩)
        · exact Or.inl h1
        · exact Or.inr ⟨q, List.mem_cons_self _ _, h1.symm, h2⟩
        · exact Or.inr ⟨p, List.mem_cons_of_mem _ hp, h2⟩
      · rintro (h1 | ⟨p, hp, h1, h2⟩)
        · exact Or.inl (Or.inl h1)
        · rcases List.mem_cons.1 hp with e | hp
          · subst e
            exact Or.inl (Or.inr ⟨h1.symm, h2⟩)
          · exact Or.inr ⟨p, hp, h1, h2⟩

theorem addDependencies_isSome (mm : QMap Nat) (i : Nat) (deps : List String)
    (g : ModuleGraph) (h : ∀ d ∈ deps, (mm.lookup d).isSome) :
    ∃ g1, addDependencies mm i deps g = some g1 := by
  induction deps generalizing g with
  | nil => exact ⟨g, rfl⟩
  | cons d rest ih =>
    have hd := h d (List.mem_cons_self _ _)
    obtain ⟨x, hx⟩ := Option.isSome_iff_exists.1 hd
    simp only [addDependencies, QBS_ASSERT, hx, Option.isSome_some, if_true, Option.some_bind]
    exact ih _ (fun d1 h1 => h d1 (List.mem_cons_of_mem _ h1))

theorem addModules_isSome (mm : QMap Nat) (l : List (Nat × ResolvedModule))
    (g : ModuleGraph) (h : ∀ p ∈ l, ∀ d ∈ p.2.moduleDependencies, (mm.lookup d).isSome) :
    ∃ g1, addModules mm l g = some g1 := by
  induction l generalizing g with
  | nil => exact ⟨g, rfl⟩
  | cons q rest ih =>
    obtain ⟨g2, h2⟩ := addDependencies_isSome mm q.1 q.2.moduleDependencies g
      (h q (List.mem_cons_self _ _))
    simp only [addModules, h2, Option.some_bind]
    exact ih _ (fun p hp => h p (List.mem_cons_of_mem _ hp))

end Graph

/-! ## `topSortModules`: what a returned order satisfies -/

section TopSort

variable (modules : List ResolvedModule) (moduleChildren : Nat → List Nat)

theorem DepsFirst_mono {S T : String → Prop} (h : ∀ s, S s → T s) (l : List Nat)
    (hl : DepsFirst modules moduleChildren S l) : DepsFirst modules moduleChildren T l := by
  induction l generalizing S T with
  | nil => trivial
  | cons m rest ih =>
    refine ⟨fun d hd s hs => h s (hl.1 d hd s hs), ih ?_ hl.2⟩
    rintro s (h1 | h1)
    · exact Or.inl (h s h1)
    · exact Or.inr h1

theorem DepsFirst_append {S : String → Prop} (A B : List Nat)
    (hA : DepsFirst modules moduleChildren S A)
    (hB : DepsFirst modules moduleChildren
      (fun s => S s ∨ ∃ m ∈ A, moduleName modules m = some s) B) :
    DepsFirst modules moduleChildren S (A ++ B) := by
  induction A generalizing S with
  | nil =>
    refine DepsFirst_mono modules moduleChildren ?_ B hB
    rintro s (h | ⟨m, hm, _⟩)
    · exact h
    · cases hm
  | cons a rest ih =>
    refine ⟨hA.1, ih hA.2 (DepsFirst_mono modules moduleChildren ?_ B hB)⟩
    rintro s (h | ⟨m, hm, h⟩)
    · exact Or.inl (Or.inl h)
    · rcases List.mem_cons.1 hm with e | hm
      · subst e
        exact Or.inl (Or.inr h)
      · exact Or.inr ⟨m, hm, h⟩

theorem DepsFirst_split {S : String → Prop} (pre post : List Nat) (m : Nat)
    (h : DepsFirst modules moduleChildren S (pre ++ m :: post)) (d : Nat)
    (hd : d ∈ moduleChildren m) (s : String) (hs : moduleName modules d = some s) :
    S s ∨ ∃ p ∈ pre, moduleName modules p = some s := by
  induction pre generalizing S with
  | nil => exact Or.inl (h.1 d hd s hs)
  | cons a rest ih =>
    rcases ih h.2 with (h1 | h1) | ⟨p, hp, h1⟩
    · exact Or.inl h1
    · exact Or.inr ⟨a, List.mem_cons_self _ _, h1⟩
    · exact Or.inr ⟨p, List.mem_cons_of_mem _ hp, h1⟩

theorem topSortLoop_spec
    (recurse : List Nat → List String → Option (List Nat × List String))
    (hrec : ∀ ms seen r, recurse ms seen = some r →
      TopSortSpec modules moduleChildren ms seen r.1 r.2)
    (ms : List Nat) (result : List Nat) (seen : List String) (r : List Nat × List String)
    (h : topSortLoop modules moduleChildren recurse ms (result, seen) = some r) :
    ∃ added, r.1 = result ++ added ∧
      TopSortSpec modules moduleChildren ms seen added r.2 := by
  induction ms generalizing result seen with
  | nil =>
    simp only [topSortLoop, Option.some.injEq] at h
    subst h
    exact ⟨[], by simp, ⟨by simp, by simp, trivial⟩⟩
  | cons m rest ih =>
    rw [topSortLoop] at h
    cases hn : moduleName modules m with
    | none =>
      simp only [hn] at h
      obtain ⟨added, h1, h2⟩ := ih _ _ h
      refine ⟨added, h1, ⟨h2.seen_iff, ?_, h2.depsFirst⟩⟩
      intro x hx s hs
      rcases List.mem_cons.1 hx with e | hx
      · subst e
        rw [hn] at hs
        cases hs
      · exact h2.covers x hx s hs
    | some name =>
      simp only [hn] at h
      cases hr : recurse (moduleChildren m) seen with
      | none => simp [hr] at h
      | some sub =>
        obtain ⟨sub, seen1⟩ := sub
        have hsub := hrec _ _ _ hr
        simp only [hr] at h
        by_cases hmem : name ∈ seen1
        · simp only [hmem, if_true] at h
          obtain ⟨added, h1, h2⟩ := ih _ _ h
          refine ⟨sub ++ added, by rw [h1, List.append_assoc], ⟨?_, ?_, ?_⟩⟩
          · intro s
            rw [h2.seen_iff, hsub.seen_iff]
            simp only [List.mem_append]
            constructor
            · rintro ((h3 | ⟨x, hx, h3⟩) | ⟨x, hx, h3⟩)
              · exact Or.inl h3
              · exact Or.inr ⟨x, Or.inl hx, h3⟩
              · exact Or.inr ⟨x, Or.inr hx, h3⟩
            · rintro (h3 | ⟨x, hx | hx, h3⟩)
              · exact Or.inl (Or.inl h3)
              · exact Or.inl (Or.inr ⟨x, hx, h3⟩)
              · exact Or.inr ⟨x, hx, h3⟩
          · intro x hx s hs
            rcases List.mem_cons.1 hx with e | hx
            · subst e
              rw [hn] at hs
              cases hs
              exact (h2.seen_iff _).2 (Or.inl hmem)
            · exact h2.covers x hx s hs
          · refine DepsFirst_append modules moduleChildren sub added hsub.depsFirst
              (DepsFirst_mono modules moduleChildren ?_ added h2.depsFirst)
            intro s hs
            exact (hsub.seen_iff s).1 hs
        · simp only [hmem, if_false] at h
          obtain ⟨added, h1, h2⟩ := ih _ _ h
          refine ⟨sub ++ m :: added, by rw [h1]; simp, ⟨?_, ?_, ?_⟩⟩
          · intro s
            rw [h2.seen_iff, List.mem_cons, hsub.seen_iff]
            simp only [List.mem_append, List.mem_cons]
            constructor
            · rintro ((h3 | h3 | ⟨x, hx, h3⟩) | ⟨x, hx, h3⟩)
              · exact Or.inr ⟨m, Or.inr (Or.inl rfl), by rw [hn, h3]⟩
              · exact Or.inl h3
              · exact Or.inr ⟨x, Or.inl hx, h3⟩
              · exact Or.inr ⟨x, Or.inr (Or.inr hx), h3⟩
            · rintro (h3 | ⟨x, hx | hx | hx, h3⟩)
              · exact Or.inl (Or.inr (Or.inl h3))
              · exact Or.inl (Or.inr (Or.inr ⟨x, hx, h3⟩))
              · subst hx
                rw [hn] at h3
                exact Or.inl (Or.inl (Option.some.inj h3).symm)
              · exact Or.inr ⟨x, hx, h3⟩
          · intro x hx s hs
            rcases List.mem_cons.1 hx with e | hx
            · subst e
              rw [hn] at hs
              cases hs
              exact (h2.seen_iff _).2 (Or.inl (List.mem_cons_self _ _))
            · exact h2.covers x hx s hs
          · refine DepsFirst_append modules moduleChildren sub (m :: added) hsub.depsFirst
              ⟨?_, DepsFirst_mono modules moduleChildren ?_ added h2.depsFirst⟩
            · intro d hd s hs
              exact (hsub.seen_iff s).1 (hsub.covers d hd s hs)
            · intro s hs
              rcases List.mem_cons.1 hs with e | hs
              · exact Or.inr (by rw [hn, e])
              · exact Or.inl ((hsub.seen_iff s).1 hs)

theorem topSortModules_spec (fuel : Nat) (ms : List Nat) (seen : List String)
    (r : List Nat × List String)
    (h : topSortModules modules moduleChildren fuel ms seen = some r) :
    TopSortSpec modules moduleChildren ms seen r.1 r.2 := by
  induction fuel generalizing ms seen r with
  | zero => simp [topSortModules] at h
  | succ fuel ih =>
    simp only [topSortModules] at h
    obtain ⟨added, h1, h2⟩ :=
      topSortLoop_spec modules moduleChildren _ (fun ms seen r hr => ih ms seen r hr)
        ms [] seen r h
    rw [List.nil_append] at h1
    rw [h1]
    exact h2

/-! ### Enough fuel gives a result -/

theorem topSortLoop_isSome
    (recurse : List Nat → List String → Option (List Nat × List String))
    (ms : List Nat)
    (hrec : ∀ m ∈ ms, moduleName modules m ≠ none →
      ∀ seen, ∃ r, recurse (moduleChildren m) seen = some r)
    (state : List Nat × List String) :
    ∃ r, topSortLoop modules moduleChildren recurse ms state = some r := by
  induction ms generalizing state with
  | nil => exact ⟨state, rfl⟩
  | cons m rest ih =>
    obtain ⟨result, seen⟩ := state
    have ih1 := ih (fun x hx => hrec x (List.mem_cons_of_mem _ hx))
    rw [topSortLoop]
    cases hn : moduleName modules m with
    | none => exact ih1 _
    | some name =>
      obtain ⟨⟨sub, seen1⟩, hr⟩ := hrec m (List.mem_cons_self _ _) (by rw [hn]; simp) seen
      simp only [hr]
      by_cases hmem : name ∈ seen1
      · simp only [hmem, if_true]
        exact ih1 _
      · simp only [hmem, if_false]
        exact ih1 _

theorem topSortModules_isSome (rank : Nat → Nat)
    (hrank : ∀ m, ∀ d ∈ moduleChildren m, rank d < rank m)
    (fuel : Nat) (ms : List Nat) (hms : ∀ m ∈ ms, rank m < fuel) (seen : List String) :
    ∃ r, topSortModules modules moduleChildren (fuel + 1) ms seen = some r := by
  induction fuel generalizing ms seen with
  | zero =>
    simp only [topSortModules]
    refine topSortLoop_isSome modules moduleChildren _ ms ?_ _
    intro m hm
    exact absurd (hms m hm) (Nat.not_lt_zero _)
  | succ fuel ih =>
    rw [topSortModules]
    refine topSortLoop_isSome modules moduleChildren _ ms ?_ _
    intro m hm _ seen1
    refine ih (moduleChildren m) ?_ seen1
    intro d hd
    have h1 := hrank m d hd
    have h2 := hms m hm
    omega

/-- A finite child relation without cycles has a rank that children lower, and the rank
of a node below `n` is below `n`. -/
theorem exists_rank (n : Nat) (hvalid : ∀ m, ∀ d ∈ moduleChildren m, d < n)
    (hacyc : ∀ m, ¬ Relation.TransGen (fun d m => d ∈ moduleChildren m) m m) :
    ∃ rank : Nat → Nat, (∀ m, ∀ d ∈ moduleChildren m, rank d < rank m) ∧
      ∀ m, m < n → rank m < n := by
  classical
  refine ⟨fun m => ((Finset.range n).filter
    fun d => Relation.TransGen (fun d m => d ∈ moduleChildren m) d m).card, ?_, ?_⟩
  · intro m d hd
    apply Finset.card_lt_card
    rw [Finset.ssubset_iff_of_subset]
    · refine ⟨d, ?_, ?_⟩
      · simp only [Finset.mem_filter, Finset.mem_range]
        exact ⟨hvalid m d hd, Relation.TransGen.single hd⟩
      · simp only [Finset.mem_filter, Finset.mem_range, not_and]
        intro _
        exact hacyc d
    · intro x hx
      simp only [Finset.mem_filter, Finset.mem_range] at hx ⊢
      exact ⟨hx.1, Relation.TransGen.tail hx.2 hd⟩
  · intro m hm
    have hlt : ((Finset.range n).filter
        fun d => Relation.TransGen (fun d m => d ∈ moduleChildren m) d m).card
        < (Finset.range n).card := by
      apply Finset.card_lt_card
      rw [Finset.ssubset_iff_of_subset (Finset.filter_subset _ _)]
      refine ⟨m, Finset.mem_range.2 hm, ?_⟩
      simp only [Finset.mem_filter, Finset.mem_range, not_and]
      intro _
      exact hacyc m
    simpa using hlt

end TopSort

/-! ## The evaluation order of `getProcessEnvironment` -/

section EvaluationOrder

theorem moduleName_of_getElem? (modules : List ResolvedModule) (m : Nat) (M : ResolvedModule)
    (h : modules[m]? = some M) : moduleName modules m = M.name := by
  unfold moduleName
  rw [List.getD_eq_getElem?_getD, h]
  rfl

theorem getElem?_of_moduleName (modules : List ResolvedModule) (m : Nat) (s : String)
    (h : moduleName modules m = some s) : ∃ M, modules[m]? = some M ∧ M.name = some s := by
  unfold moduleName at h
  rw [List.getD_eq_getElem?_getD] at h
  cases hm : modules[m]? with
  | none =>
    rw [hm] at h
    cases h
  | some M =>
    rw [hm] at h
    exact ⟨M, rfl, h⟩

theorem nodup_nameKey (modules : List ResolvedModule)
    (hnn : ∀ M ∈ modules, M.name ≠ none)
    (hnd : (modules.map fun M => M.name).Nodup) :
    (modules.enum.map fun p => nameKey p.2.name).Nodup := by
  have h1 : (modules.enum.map fun p => nameKey p.2.name)
      = (modules.map fun M => M.name).map nameKey := by
    rw [List.map_map]
    conv_rhs => rw [← List.enum_map_snd modules, List.map_map]
    rfl
  rw [h1]
  refine List.Nodup.map_on ?_ hnd
  intro a ha b hb hab
  obtain ⟨A, hA, rfl⟩ := List.mem_map.1 ha
  obtain ⟨B, hB, rfl⟩ := List.mem_map.1 hb
  cases h2 : A.name with
  | none => exact absurd h2 (hnn A hA)
  | some x =>
    cases h3 : B.name with
    | none => exact absurd h3 (hnn B hB)
    | some y =>
      rw [h2, h3] at hab
      simp only [nameKey, Option.getD_some] at hab
      rw [hab]

theorem moduleGraph_children_dependsOn (modules : List ResolvedModule)
    (hnn : ∀ M ∈ modules, M.name ≠ none) (g : ModuleGraph)
    (hg : moduleGraph modules = some g) (k j : Nat) (h : j ∈ g.moduleChildren k) :
    DependsOn modules k j := by
  rw [addModules_children _ _ _ _ hg] at h
  rcases h with h | ⟨p, hp, hk, d, hd, hl⟩
  · cases h
  · rcases insertModules_lookup_some _ _ _ _ hl with h1 | ⟨q, hq, hj, hkey⟩
    · simp at h1
    · have hp1 := List.mem_enum_iff_getElem?.1 hp
      have hq1 := List.mem_enum_iff_getElem?.1 hq
      rw [hk] at hp1
      rw [hj] at hq1
      refine ⟨p.2, q.2, hp1, hq1, d, hd, ?_⟩
      cases hqn : q.2.name with
      | none => exact absurd hqn (hnn _ (List.snd_mem_of_mem_enum hq))
      | some x =>
        rw [hqn] at hkey
        simp only [nameKey, Option.getD_some] at hkey
        rw [hkey]

theorem dependsOn_moduleGraph_children (modules : List ResolvedModule)
    (hnn : ∀ M ∈ modules, M.name ≠ none)
    (hnd : (modules.map fun M => M.name).Nodup) (g : ModuleGraph)
    (hg : moduleGraph modules = some g) (k j : Nat) (h : DependsOn modules k j) :
    j ∈ g.moduleChildren k := by
  obtain ⟨M, D, hM, hD, s, hs, hDs⟩ := h
  rw [addModules_children _ _ _ _ hg]
  refine Or.inr ⟨(k, M), List.mem_enum_iff_getElem?.2 hM, rfl, s, hs, ?_⟩
  have h1 := insertModules_lookup_of_mem modules.enum ∅ (nodup_nameKey modules hnn hnd)
    (j, D) (List.mem_enum_iff_getElem?.2 hD)
  simp only [nameKey] at h1
  rw [hDs, Option.getD_some] at h1
  exact h1

theorem moduleGraph_isSome (modules : List ResolvedModule)
    (hres : ∀ M ∈ modules, ∀ s ∈ M.moduleDependencies, ∃ D ∈ modules, D.name = some s)
    (hnn : ∀ M ∈ modules, M.name ≠ none)
    (hnd : (modules.map fun M => M.name).Nodup) :
    ∃ g, moduleGraph modules = some g := by
  refine addModules_isSome _ _ _ ?_
  intro p hp d hd
  obtain ⟨D, hD, hDs⟩ := hres p.2 (List.snd_mem_of_mem_enum hp) d hd
  obtain ⟨i, hi, hi2⟩ := List.getElem_of_mem hD
  have h1 := insertModules_lookup_of_mem modules.enum ∅ (nodup_nameKey modules hnn hnd)
    (i, D) (List.mem_enum_iff_getElem?.2 (by rw [List.getElem?_eq_getElem hi, hi2]))
  simp only [nameKey] at h1
  rw [hDs, Option.getD_some] at h1
  rw [buildModuleMap, h1]
  rfl

theorem moduleName_injective (modules : List ResolvedModule)
    (hnd : (modules.map fun M => M.name).Nodup) (a b : Nat) (s : String)
    (ha : moduleName modules a = some s) (hb : moduleName modules b = some s) : a = b := by
  obtain ⟨A, hA, hAs⟩ := getElem?_of_moduleName modules a s ha
  obtain ⟨B, hB, hBs⟩ := getElem?_of_moduleName modules b s hb
  obtain ⟨ha1, ha2⟩ := List.getElem?_eq_some.1 hA
  obtain ⟨hb1, hb2⟩ := List.getElem?_eq_some.1 hB
  have hla : a < (modules.map fun M => M.name).length := by simpa using ha1
  have hlb : b < (modules.map fun M => M.name).length := by simpa using hb1
  have h1 : (modules.map fun M => M.name).get ⟨a, hla⟩ =
      (modules.map fun M => M.name).get ⟨b, hlb⟩ := by
    simp only [List.get_eq_getElem, List.getElem_map, ha2, hb2, hAs, hBs]
  exact Fin.mk.inj ((List.Nodup.get_inj_iff hnd).1 h1)

end EvaluationOrder

section Acyclic

theorem dependsOnB_of_dependsOn (modules : List ResolvedModule) (m d : Nat)
    (h : DependsOn modules m d) :
    m < modules.length ∧ d < modules.length ∧ dependsOnB modules m d = true := by
  obtain ⟨M, D, hM, hD, s, hs, hDs⟩ := h
  refine ⟨(List.getElem?_eq_some.1 hM).1, (List.getElem?_eq_some.1 hD).1, ?_⟩
  simp only [dependsOnB, hM, hD, List.any_eq_true, decide_eq_true_eq]
  exact ⟨s, hs, hDs⟩

/-- A rank that every dependency lowers excludes a dependency cycle. -/
theorem acyclic_of_rank (modules : List ResolvedModule) (rank : Nat → Nat)
    (h : ∀ m < modules.length, ∀ d < modules.length,
      dependsOnB modules m d = true → rank d < rank m) :
    ∀ m, ¬ Relation.TransGen (DependsOn modules) m m := by
  have key : ∀ a b, Relation.TransGen (DependsOn modules) a b → rank b < rank a := by
    intro a b hab
    induction hab with
    | single h1 =>
      obtain ⟨h2, h3, h4⟩ := dependsOnB_of_dependsOn modules _ _ h1
      exact h _ h2 _ h3 h4
    | tail _ h1 ih =>
      obtain ⟨h2, h3, h4⟩ := dependsOnB_of_dependsOn modules _ _ h1
      exact lt_trans (h _ h2 _ h3 h4) ih
  intro m hm
  exact lt_irrefl _ (key m m hm)

theorem exampleModules_acyclic :
    ∀ m, ¬ Relation.TransGen (DependsOn exampleModules) m m :=
  acyclic_of_rank exampleModules (fun m => 3 - m) (by decide)

end Acyclic

/-- C1 (topological validity of the module evaluation order).  For a module list whose
dependency names all resolve to a module of the list, whose names are non-null and
pairwise distinct, and whose dependency graph has no cycle, `getProcessEnvironment`
builds its adjacency tables, and with any fuel above the number of modules
`topSortModules` from the root modules and an empty seen-set returns an order in which,
for every module `M` at any position and every dependency `D` of `M`, `D` occurs at an
earlier position. -/
theorem topSortedModules_topological (modules : List ResolvedModule)
    (hres : ∀ M ∈ modules, ∀ s ∈ M.moduleDependencies, ∃ D ∈ modules, D.name = some s)
    (hnn : ∀ M ∈ modules, M.name ≠ none)
    (hnd : (modules.map fun M => M.name).Nodup)
    (hacyc : ∀ m, ¬ Relation.TransGen (DependsOn modules) m m) :
    ∃ g, moduleGraph modules = some g ∧
      ∀ fuel, modules.length < fuel →
        ∃ order, topSortedModules fuel modules g = some order ∧
          ∀ pre M post, order = pre ++ M :: post →
            ∀ D, DependsOn modules M D → D ∈ pre := by
  obtain ⟨g, hg⟩ := moduleGraph_isSome modules hres hnn hnd
  refine ⟨g, hg, ?_⟩
  have hchild : ∀ m, ∀ d ∈ g.moduleChildren m, DependsOn modules m d :=
    fun m d hd => moduleGraph_children_dependsOn modules hnn g hg m d hd
  have hvalid : ∀ m, ∀ d ∈ g.moduleChildren m, d < modules.length :=
    fun m d hd => (dependsOnB_of_dependsOn modules m d (hchild m d hd)).2.1
  have hacyc1 : ∀ m, ¬ Relation.TransGen (fun d m => d ∈ g.moduleChildren m) m m := by
    intro m hm
    have h1 : Relation.TransGen (Function.swap (DependsOn modules)) m m :=
      Relation.TransGen.mono (fun a b hab => hchild b a hab) hm
    exact hacyc m (Relation.transGen_swap.1 h1)
  obtain ⟨rank, hrank, hbound⟩ := exists_rank g.moduleChildren modules.length hvalid hacyc1
  intro fuel hfuel
  obtain ⟨f, rfl⟩ : ∃ f, fuel = f + 1 := ⟨fuel - 1, by omega⟩
  have hroots : ∀ m ∈ rootModules modules g, rank m < f := by
    intro m hm
    have h1 : m < modules.length := List.mem_range.1 (List.mem_filter.1 hm).1
    have h2 := hbound m h1
    omega
  obtain ⟨⟨order, seen1⟩, hr⟩ :=
    topSortModules_isSome modules g.moduleChildren rank hrank f _ hroots []
  refine ⟨order, by simp [topSortedModules, hr], ?_⟩
  intro pre M post hsplit D hdep
  have hspec := topSortModules_spec modules g.moduleChildren _ _ _ _ hr
  have hfirst := hspec.depsFirst
  simp only [hsplit] at hfirst
  have hDchild : D ∈ g.moduleChildren M :=
    dependsOn_moduleGraph_children modules hnn hnd g hg M D hdep
  obtain ⟨_, DM, _, hDM, s, _, hDs⟩ := hdep
  have hDname : moduleName modules D = some s := by
    rw [moduleName_of_getElem? modules D DM hDM, hDs]
  rcases DepsFirst_split modules g.moduleChildren pre post M hfirst D hDchild s hDname with
    h1 | ⟨p, hp, h1⟩
  · cases h1
  · rw [moduleName_injective modules hnd D p s hDname h1]
    exact hp

/-- Witness for C1: the three modules `app`, `lib`, `base` meet every hypothesis. -/
theorem topSortedModules_topological_witness :
    ∃ g, moduleGraph exampleModules = some g ∧
      ∀ fuel, exampleModules.length < fuel →
        ∃ order, topSortedModules fuel exampleModules g = some order ∧
          ∀ pre M post, order = pre ++ M :: post →
            ∀ D, DependsOn exampleModules M D → D ∈ pre :=
  topSortedModules_topological exampleModules (by decide) (by decide) (by decide)
    exampleModules_acyclic

/-! ## The environment computed by `getProcessEnvironment` -/

section Environment

variable {σ Product : Type}

theorem evaluateModules_eq_foldlM (engine : ScriptEngine σ) (envType : EnvType)
    (modules : List ResolvedModule) (productConfiguration : PropertyMapInternal)
    (g : ModuleGraph) (order : List Nat) (state : σ × QProcessEnvironment) :
    evaluateModules engine envType modules productConfiguration g order state =
      (order.filter fun m => !skipModule envType (modules.getD m default)).foldlM
        (runSetupScript engine envType modules productConfiguration g) state := by
  induction order generalizing state with
  | nil => rfl
  | cons m rest ih =>
    rw [evaluateModules]
    by_cases hs : skipModule envType (modules.getD m default) = true
    · rw [if_pos hs, ih, List.filter_cons_of_neg (by rw [hs]; simp)]
    · rw [if_neg hs, List.filter_cons_of_pos (by rw [Bool.not_eq_true] at hs; rw [hs]; rfl), List.foldlM_cons]
      cases hr : runSetupScript engine envType modules productConfiguration g state m with
      | error e => rfl
      | ok state1 => exact ih state1

theorem addDependencies_eq_none (mm : QMap Nat) (i : Nat) (deps : List String)
    (g : ModuleGraph) (h : ∃ d ∈ deps, mm.lookup d = none) :
    addDependencies mm i deps g = none := by
  induction deps generalizing g with
  | nil =>
    obtain ⟨d, hd, _⟩ := h
    cases hd
  | cons d rest ih =>
    simp only [addDependencies, QBS_ASSERT]
    cases hl : mm.lookup d with
    | none => rfl
    | some x =>
      simp only [Option.isSome_some, if_true, Option.some_bind]
      refine ih _ ?_
      obtain ⟨d1, hd1, h1⟩ := h
      rcases List.mem_cons.1 hd1 with e | hd1
      · subst e
        rw [hl] at h1
        cases h1
      · exact ⟨d1, hd1, h1⟩

theorem addModules_eq_none (mm : QMap Nat) (l : List (Nat × ResolvedModule))
    (g : ModuleGraph)
    (h : ∃ p ∈ l, ∃ d ∈ p.2.moduleDependencies, mm.lookup d = none) :
    addModules mm l g = none := by
  induction l generalizing g with
  | nil =>
    obtain ⟨p, hp, _⟩ := h
    cases hp
  | cons q rest ih =>
    rw [addModules]
    cases ha : addDependencies mm q.1 q.2.moduleDependencies g with
    | none => rfl
    | some g1 =>
      rw [Option.some_bind]
      refine ih _ ?_
      obtain ⟨p, hp, h1⟩ := h
      rcases List.mem_cons.1 hp with e | hp
      · subst e
        rw [addDependencies_eq_none mm _ _ g h1] at ha
        cases ha
      · exact ⟨p, hp, h1⟩

theorem moduleGraph_eq_none (modules : List ResolvedModule)
    (h : ∃ M ∈ modules, ∃ s ∈ M.moduleDependencies, ∀ D ∈ modules, nameKey D.name ≠ s) :
    moduleGraph modules = none := by
  obtain ⟨M, hM, s, hs, hno⟩ := h
  obtain ⟨i, hi, hi2⟩ := List.getElem_of_mem hM
  refine addModules_eq_none _ _ _ ⟨(i, M),
    List.mem_enum_iff_getElem?.2 (by rw [List.getElem?_eq_getElem hi, hi2]), s, hs, ?_⟩
  rw [buildModuleMap, insertModules_lookup_of_not_mem]
  · rfl
  · intro p hp
    exact hno p.2 (List.snd_mem_of_mem_enum hp)

/-- With an unresolved dependency name `getProcessEnvironment` takes the `return env` of
its assertion: the caller's environment comes back as it was passed in. -/
theorem getProcessEnvironment_of_unresolved (fuel : Nat) (engine : ScriptEngine σ)
    (engineState : σ) (envType : EnvType) (modules : List ResolvedModule)
    (productConfiguration : PropertyMapInternal) (project : ResolvedProject Product)
    (env : QProcessEnvironment)
    (h : ∃ M ∈ modules, ∃ s ∈ M.moduleDependencies, ∀ D ∈ modules, nameKey D.name ≠ s) :
    getProcessEnvironment fuel engine engineState envType modules productConfiguration
      project env = some (Except.ok env) := by
  unfold getProcessEnvironment
  rw [moduleGraph_eq_none modules h]

end Environment

/-! ## Round trips through the pool -/

section Pool

open PersistentPool

theorem storeString_mk (pre : List StreamItem) (table : List String) (t : String) :
    PersistentPool.storeString ⟨pre, table⟩ t =
      ⟨pre ++ stringItems table t, stringTable table t⟩ := by
  unfold PersistentPool.storeString stringItems stringTable PersistentPool.write
  by_cases h : t ∈ table
  · simp [h]
  · simp [h]

theorem idLoadString_stringItems (table : List String) (t : String)
    (rest : List StreamItem) :
    PersistentPool.idLoadString ⟨stringItems table t ++ rest, table⟩ =
      some (t, ⟨rest, stringTable table t⟩) := by
  unfold PersistentPool.idLoadString stringItems stringTable PersistentPool.readInt
  by_cases h : t ∈ table
  · have h1 : table.indexOf t < table.length := List.indexOf_lt_length.2 h
    simp [h, h1]
  · simp [h, PersistentPool.readString]

theorem write_mk (pre : List StreamItem) (table : List String) (item : StreamItem) :
    PersistentPool.write ⟨pre, table⟩ item = ⟨pre ++ [item], table⟩ := rfl

theorem stringCodec_inverse : stringCodec.Inverse := by
  constructor
  · intro x pre table
    simp [stringCodec, storeString_mk]
  · intro x table rest
    simp only [stringCodec, storeString_mk, List.nil_append]
    exact idLoadString_stringItems table x rest

end Pool

section Rescue

open PersistentPool RescuableArtifactData

theorem storeChild_mk (cd : ChildData) (pre : List StreamItem) (table : List String) :
    storeChild cd ⟨pre, table⟩ = ⟨pre ++ childItems table cd, childTable table cd⟩ := by
  simp [storeChild, childItems, childTable, storeString_mk, write_mk]

theorem storeChildren_mk (children : List ChildData) (pre : List StreamItem)
    (table : List String) :
    storeChildren children ⟨pre, table⟩ =
      ⟨pre ++ childrenItems table children, childrenTable table children⟩ := by
  induction children generalizing pre table with
  | nil => simp [storeChildren, childrenItems, childrenTable]
  | cons cd rest ih =>
    have h := ih (pre ++ childItems table cd) (childTable table cd)
    simp only [storeChildren, List.foldl_cons, storeChild_mk] at h ⊢
    rw [h]
    simp [childrenItems, childrenTable]

theorem loadChildren_childrenItems (children acc : List ChildData) (table : List String)
    (rest : List StreamItem) :
    loadChildren children.length acc ⟨childrenItems table children ++ rest, table⟩ =
      some (acc ++ children, ⟨rest, childrenTable table children⟩) := by
  induction children generalizing acc table with
  | nil => simp [loadChildren, childrenItems, childrenTable]
  | cons cd cs ih =>
    simp only [List.length_cons, loadChildren, childrenItems, childItems, List.append_assoc,
      idLoadString_stringItems]
    simp only [List.singleton_append, readBool]
    have h := ih (acc ++ [cd]) (childTable table cd)
    rw [List.append_assoc] at h
    exact h

theorem storeCommandList_mk (commands : List Command) (pre : List StreamItem)
    (table : List String) :
    storeCommandList commands ⟨pre, table⟩ =
      ⟨pre ++ StreamItem.int commands.length :: commands.map StreamItem.command, table⟩ := by
  have key : ∀ (l : List Command) (s : List StreamItem),
      l.foldl (fun p c => PersistentPool.write p (StreamItem.command c)) ⟨s, table⟩ =
        ⟨s ++ l.map StreamItem.command, table⟩ := by
    intro l
    induction l with
    | nil => intro s; simp
    | cons c cs ih => intro s; simp [write_mk, ih]
  unfold storeCommandList
  rw [write_mk, key]
  simp

theorem loadCommands_map (commands acc : List Command) (table : List String)
    (rest : List StreamItem) :
    loadCommands commands.length acc ⟨commands.map StreamItem.command ++ rest, table⟩ =
      some (acc ++ commands, ⟨rest, table⟩) := by
  induction commands generalizing acc with
  | nil => simp [loadCommands]
  | cons c cs ih =>
    simp only [List.length_cons, loadCommands, List.map_cons, List.cons_append, readCommand]
    rw [ih]
    simp

theorem loadCommandList_mk (commands : List Command) (table : List String)
    (rest : List StreamItem) :
    loadCommandList
        ⟨StreamItem.int commands.length :: (commands.map StreamItem.command ++ rest), table⟩ =
      some (commands, ⟨rest, table⟩) := by
  simp only [loadCommandList, readInt, Int.toNat_ofNat]
  rw [loadCommands_map]
  simp

theorem rescue_store_mk (x : RescuableArtifactData) (pre : List StreamItem)
    (table : List String) :
    x.store ⟨pre, table⟩ =
      ⟨pre ++ (StreamItem.fileTime x.timeStamp :: StreamItem.int x.children.length ::
          (childrenItems table x.children ++
            StreamItem.int x.commands.length :: x.commands.map StreamItem.command)),
        childrenTable table x.children⟩ := by
  simp [RescuableArtifactData.store, write_mk, storeChildren_mk, storeCommandList_mk]

/-- Loading what `store` wrote, into a record that holds the children `self.children`:
the stored children come after those. -/
theorem rescue_load_store_append (self x : RescuableArtifactData)
    (table : List String) (rest : List StreamItem) :
    RescuableArtifactData.load self ⟨(x.store ⟨[], table⟩).stream ++ rest, table⟩ =
      some (⟨x.timeStamp, self.children ++ x.children, x.commands⟩,
        ⟨rest, (x.store ⟨[], table⟩).stringStorage⟩) := by
  simp only [rescue_store_mk, List.nil_append, List.cons_append,
    List.append_assoc, RescuableArtifactData.load, readFileTime, readInt, Int.toNat_ofNat]
  rw [loadChildren_childrenItems]
  simp only [loadCommandList_mk]

end Rescue

/-- C2 (round trip of `RescuableArtifactData`).  For every record `x`, every string table
of the pool and whatever follows in the stream, `load` into a record without children
reads back what `store` wrote for `x`: the result is `x` itself (same timeStamp, same
children in the same order, same commands), the stream is left at what follows, and the
reader's string table is the writer's. -/
theorem rescue_load_store (x : RescuableArtifactData) (timeStamp : Int)
    (commands : List Command) (table : List String) (rest : List StreamItem) :
    RescuableArtifactData.load ⟨timeStamp, [], commands⟩
        ⟨(x.store ⟨[], table⟩).stream ++ rest, table⟩ =
      some (x, ⟨rest, (x.store ⟨[], table⟩).stringStorage⟩) := by
  rw [rescue_load_store_append]
  simp

/-- Witness for C2: the record with two children and no commands loads back as stored,
with its two children. -/
theorem rescue_load_store_witness :
    RescuableArtifactData.load ⟨0, [], []⟩
        ⟨(exampleRescueData.store ⟨[], []⟩).stream ++ [], []⟩ =
      some (exampleRescueData, ⟨[], (exampleRescueData.store ⟨[], []⟩).stringStorage⟩) ∧
    exampleRescueData.children.length = 2 ∧ exampleRescueData.commands.length = 0 :=
  ⟨rescue_load_store exampleRescueData 0 [] [] [], rfl, rfl⟩

section Rule

open PersistentPool RuleArtifact

theorem bindingItems_append (l1 l2 : List Binding) :
    bindingItems (l1 ++ l2) = bindingItems l1 ++ bindingItems l2 := by
  induction l1 with
  | nil => rfl
  | cons b rest ih => simp [bindingItems, ih]

theorem storeBindings_mk (bindings : List Binding) (i : Nat) (hi : i ≤ bindings.length)
    (pre : List StreamItem) (table : List String) :
    storeBindings bindings i ⟨pre, table⟩ =
      ⟨pre ++ bindingItems (bindings.take i).reverse, table⟩ := by
  induction i generalizing pre with
  | zero => simp [storeBindings, bindingItems]
  | succ i ih =>
    have hlt : i < bindings.length := hi
    rw [storeBindings]
    simp only [write_mk]
    rw [ih (Nat.le_of_lt hlt)]
    have h1 : bindings.take (i + 1) = bindings.take i ++ [bindings.getD i default] := by
      rw [List.take_succ, List.getD_eq_getElem?_getD, List.getElem?_eq_getElem hlt]
      rfl
    rw [h1, List.reverse_append]
    simp [bindingItems]

theorem loadBindings_bindingItems (l acc : List Binding) (table : List String)
    (rest : List StreamItem) :
    loadBindings l.length acc ⟨bindingItems l ++ rest, table⟩ =
      some (acc ++ l, ⟨rest, table⟩) := by
  induction l generalizing acc with
  | nil => simp [loadBindings, bindingItems]
  | cons b bs ih =>
    simp only [List.length_cons, loadBindings, bindingItems, List.cons_append,
      readStringList, readString, readLocation]
    rw [ih]
    simp

theorem rule_store_mk (x : RuleArtifact) (pre : List StreamItem)
    (table : List String) :
    x.store ⟨pre, table⟩ =
      ⟨pre ++ (StreamItem.string x.fileName :: StreamItem.fileTags x.fileTags ::
          StreamItem.int x.bindings.length :: bindingItems x.bindings.reverse), table⟩ := by
  simp [RuleArtifact.store, write_mk, storeBindings_mk]

/-- What `load` reads back from what `store` wrote: the file name and tags of `x`, and
the bindings of `x` from the last to the first. -/
theorem rule_load_store_reverse (x : RuleArtifact) (table : List String)
    (rest : List StreamItem) :
    RuleArtifact.load ⟨(x.store ⟨[], table⟩).stream ++ rest, table⟩ =
      some (⟨x.fileName, x.fileTags, x.bindings.reverse⟩, ⟨rest, table⟩) := by
  simp only [rule_store_mk, List.nil_append, List.cons_append, RuleArtifact.load,
    readString, readFileTags, readInt, Int.toNat_ofNat]
  have h := loadBindings_bindingItems x.bindings.reverse [] table rest
  rw [List.length_reverse] at h
  rw [h]
  simp

end Rule

/-- C3 (round trip of `RuleArtifact`), evaluated at a rule artifact with two different
bindings: loading what `store` wrote gives the file name and the file tags back, and the
two bindings in the opposite order, which is not the stored artifact. -/
theorem rule_load_store_example :
    (RuleArtifact.load (exampleRuleArtifact.store ⟨[], []⟩)).map Prod.fst =
      some ⟨exampleRuleArtifact.fileName, exampleRuleArtifact.fileTags,
        exampleRuleArtifact.bindings.reverse⟩ ∧
    (RuleArtifact.load (exampleRuleArtifact.store ⟨[], []⟩)).map Prod.fst ≠
      some exampleRuleArtifact := by
  decide

section Project

open PersistentPool ResolvedProject

variable {Product : Type}

theorem storeProducts_mk (codec : ObjectCodec Product) (hc : codec.Inverse)
    (products : List Product) (pre : List StreamItem) (table : List String) :
    storeProducts codec products ⟨pre, table⟩ =
      ⟨pre ++ productItems codec table products, productTable codec table products⟩ := by
  induction products generalizing pre table with
  | nil => simp [storeProducts, productItems, productTable]
  | cons x rest ih =>
    have h := ih (pre ++ (codec.store x ⟨[], table⟩).stream)
      (codec.store x ⟨[], table⟩).stringStorage
    simp only [storeProducts, List.foldl_cons] at h ⊢
    rw [hc.1 x pre table, h]
    simp [productItems, productTable]

theorem loadProducts_productItems (codec : ObjectCodec Product) (hc : codec.Inverse)
    (products acc : List Product) (table : List String) (rest : List StreamItem) :
    loadProducts codec products.length acc ⟨productItems codec table products ++ rest, table⟩ =
      some (acc ++ products, ⟨rest, productTable codec table products⟩) := by
  induction products generalizing acc table with
  | nil => simp [loadProducts, productItems, productTable]
  | cons x xs ih =>
    simp only [List.length_cons, loadProducts, productItems, List.append_assoc]
    rw [hc.2 x table]
    simp only []
    rw [ih]
    simp [productTable]

theorem project_store_mk (codec : ObjectCodec Product) (hc : codec.Inverse)
    (x : ResolvedProject Product) (pre : List StreamItem) (table : List String) :
    store codec x ⟨pre, table⟩ =
      ⟨pre ++ (stringItems table x.location.fileName ++
          (StreamItem.int x.location.line :: StreamItem.int x.location.column ::
            StreamItem.string x.id :: StreamItem.variantMap x.platformEnvironment ::
            StreamItem.int x.products.length ::
            productItems codec (stringTable table x.location.fileName) x.products)),
        productTable codec (stringTable table x.location.fileName) x.products⟩ := by
  simp [ResolvedProject.store, write_mk, storeString_mk, storeProducts_mk codec hc]

/-- What `load` makes of the project `self` when it reads what `store` wrote for `x`:
the location, id, platform environment and products of `x`, and the build configuration
that `self` had. -/
theorem project_load_store_core (codec : ObjectCodec Product) (hc : codec.Inverse)
    (self x : ResolvedProject Product) (table : List String) (rest : List StreamItem) :
    load codec self ⟨(store codec x ⟨[], table⟩).stream ++ rest, table⟩ =
      some (⟨x.location, x.id, self.buildConfiguration, x.platformEnvironment, x.products⟩,
        ⟨rest, (store codec x ⟨[], table⟩).stringStorage⟩) := by
  simp only [project_store_mk codec hc, List.nil_append, List.append_assoc,
    ResolvedProject.load, idLoadString_stringItems]
  simp only [List.cons_append, readInt, readString, readVariantMap, Int.toNat_ofNat]
  rw [loadProducts_productItems codec hc]
  simp

/-- The build configuration is not among the fields that `load` assigns. -/
theorem project_load_buildConfiguration (codec : ObjectCodec Product)
    (self q : ResolvedProject Product) (pool pool1 : PersistentPool)
    (h : load codec self pool = some (q, pool1)) :
    q.buildConfiguration = self.buildConfiguration := by
  unfold ResolvedProject.load at h
  cases h1 : pool.idLoadString with
  | none => simp [h1] at h
  | some a1 =>
    simp only [h1] at h
    cases h2 : a1.2.readInt with
    | none => simp [h2] at h
    | some a2 =>
      simp only [h2] at h
      cases h3 : a2.2.readInt with
      | none => simp [h3] at h
      | some a3 =>
        simp only [h3] at h
        cases h4 : a3.2.readString with
        | none => simp [h4] at h
        | some a4 =>
          simp only [h4] at h
          cases h5 : a4.2.readVariantMap with
          | none => simp [h5] at h
          | some a5 =>
            simp only [h5] at h
            cases h6 : a5.2.readInt with
            | none => simp [h6] at h
            | some a6 =>
              simp only [h6] at h
              cases h7 : loadProducts codec a6.1.toNat [] a6.2 with
              | none => simp [h7] at h
              | some a7 =>
                simp only [h7, Option.some.injEq, Prod.mk.injEq] at h
                rw [← h.1]

end Project

/-- C4 (round trip of `ResolvedProject`, as the code has it).  When `pool.store` and
`pool.idLoadS` are an inverse pair on products, `load` on a project `self` reads back
from what `store` wrote for `x` the source location, the id, the platform environment
and the products of `x`, in the same number and order; the build configuration is not
written by `store` nor read by `load`, and stays the one that `self` had. -/
theorem project_load_store {Product : Type} (codec : ObjectCodec Product)
    (hc : codec.Inverse) (self x : ResolvedProject Product) (table : List String)
    (rest : List StreamItem) :
    ResolvedProject.load codec self
        ⟨(ResolvedProject.store codec x ⟨[], table⟩).stream ++ rest, table⟩ =
      some (⟨x.location, x.id, self.buildConfiguration, x.platformEnvironment, x.products⟩,
        ⟨rest, (ResolvedProject.store codec x ⟨[], table⟩).stringStorage⟩) :=
  project_load_store_core codec hc self x table rest

/-- Witness for C4: products stored as plain names through the string codec. -/
theorem project_load_store_witness :
    stringCodec.Inverse ∧
    ResolvedProject.load stringCodec freshProject
        ⟨(ResolvedProject.store stringCodec exampleProject ⟨[], []⟩).stream ++ [], []⟩ =
      some (⟨exampleProject.location, exampleProject.id, freshProject.buildConfiguration,
          exampleProject.platformEnvironment, exampleProject.products⟩,
        ⟨[], (ResolvedProject.store stringCodec exampleProject ⟨[], []⟩).stringStorage⟩) :=
  ⟨stringCodec_inverse,
    project_load_store stringCodec stringCodec_inverse freshProject exampleProject [] []⟩

/-- C4, the claim as stated fails: a project with a build configuration, stored and
loaded into a fresh project, comes back with the empty build configuration of the fresh
project, so not field for field. -/
theorem project_load_store_loses_buildConfiguration :
    ∃ q pool,
      ResolvedProject.load stringCodec freshProject
          ⟨(ResolvedProject.store stringCodec
            (exampleProject.setBuildConfiguration (exampleConfiguration "gcc" "debug"))
            ⟨[], []⟩).stream, []⟩ = some (q, pool) ∧
      q.buildConfiguration.lookup "qbs" = none ∧
      ((exampleProject.setBuildConfiguration
        (exampleConfiguration "gcc" "debug")).buildConfiguration.lookup "qbs").isSome
          = true := by
  have h := project_load_store_core stringCodec stringCodec_inverse freshProject
    (exampleProject.setBuildConfiguration (exampleConfiguration "gcc" "debug")) [] []
  rw [List.append_nil] at h
  exact ⟨_, _, h, rfl, rfl⟩

/-- C5 (project id, as the code has it).  `setBuildConfiguration` leaves the id equal to
`deriveId` of the configuration it stores.  `load` never changes the build configuration,
and from what `store` wrote for a project `x` it takes the id of `x`: after a load the id
is the stored one, whatever the configuration of the loading project derives to. -/
theorem project_id_after_setBuildConfiguration_and_load {Product : Type}
    (codec : ObjectCodec Product) (hc : codec.Inverse) (self x : ResolvedProject Product)
    (config : QVariantMap) (table : List String) (rest : List StreamItem) :
    (self.setBuildConfiguration config).id =
        ResolvedProject.deriveId (self.setBuildConfiguration config).buildConfiguration ∧
    (∀ pool q pool1, ResolvedProject.load codec self pool = some (q, pool1) →
        q.buildConfiguration = self.buildConfiguration) ∧
    ∃ q pool1,
      ResolvedProject.load codec self
          ⟨(ResolvedProject.store codec x ⟨[], table⟩).stream ++ rest, table⟩ =
        some (q, pool1) ∧
      q.id = x.id ∧ q.buildConfiguration = self.buildConfiguration :=
  ⟨rfl, fun pool q pool1 h => project_load_buildConfiguration codec self q pool pool1 h,
    _, _, project_load_store_core codec hc self x table rest, rfl, rfl⟩

/-- Witness for C5, with the string codec for the products. -/
theorem project_id_after_setBuildConfiguration_and_load_witness :
    stringCodec.Inverse ∧
    (freshProject.setBuildConfiguration (exampleConfiguration "gcc" "debug")).id =
        ResolvedProject.deriveId
          (freshProject.setBuildConfiguration
            (exampleConfiguration "gcc" "debug")).buildConfiguration ∧
    (∀ pool q pool1, ResolvedProject.load stringCodec freshProject pool = some (q, pool1) →
        q.buildConfiguration = freshProject.buildConfiguration) ∧
    ∃ q pool1,
      ResolvedProject.load stringCodec freshProject
          ⟨(ResolvedProject.store stringCodec exampleProject ⟨[], []⟩).stream ++ [], []⟩ =
        some (q, pool1) ∧
      q.id = exampleProject.id ∧ q.buildConfiguration = freshProject.buildConfiguration :=
  ⟨stringCodec_inverse,
    project_id_after_setBuildConfiguration_and_load stringCodec stringCodec_inverse
      freshProject exampleProject (exampleConfiguration "gcc" "debug") [] []⟩

/-- C5, the claim as stated fails: a project configured for `gcc`/`debug` that then loads
what was stored for a project configured for `clang`/`release` has the id
`clang-release`, while `deriveId` of its own build configuration is `gcc-debug`. -/
theorem project_id_not_derived_after_load :
    ∃ q pool,
      ResolvedProject.load stringCodec
          (freshProject.setBuildConfiguration (exampleConfiguration "gcc" "debug"))
          ⟨(ResolvedProject.store stringCodec
            (exampleProject.setBuildConfiguration (exampleConfiguration "clang" "release"))
            ⟨[], []⟩).stream, []⟩ = some (q, pool) ∧
      q.id = "clang-release" ∧
      ResolvedProject.deriveId q.buildConfiguration = "gcc-debug" ∧
      q.id ≠ ResolvedProject.deriveId q.buildConfiguration := by
  have h := project_load_store_core stringCodec stringCodec_inverse
    (freshProject.setBuildConfiguration (exampleConfiguration "gcc" "debug"))
    (exampleProject.setBuildConfiguration (exampleConfiguration "clang" "release")) [] []
  rw [List.append_nil] at h
  exact ⟨_, _, h, by decide, by decide, by decide⟩

/-! ## Groups and wildcard expansion -/

/-- C6 (`ResolvedGroup::allFiles`).  Without wildcards `allFiles()` is the list `files`
itself; with wildcards it is `files` followed by `wildcards->files`, so its length is the
sum of the two lengths and `files` is a prefix of it. -/
theorem group_allFiles_eq (self : ResolvedGroup) :
    (self.wildcards = none → self.allFiles = self.files) ∧
    ∀ wildcards, self.wildcards = some wildcards →
      self.allFiles = self.files ++ wildcards.files ∧
      self.allFiles.length = self.files.length + wildcards.files.length ∧
      self.files <+: self.allFiles := by
  constructor
  · intro h
    simp [ResolvedGroup.allFiles, h]
  · intro wildcards h
    simp [ResolvedGroup.allFiles, h]

/-- Witness for C6: a group without wildcards and a group with two wildcard files. -/
theorem group_allFiles_eq_witness :
    exampleGroupPlain.allFiles = exampleGroupPlain.files ∧
    exampleGroupWild.allFiles.length = 1 + 2 ∧
    exampleGroupWild.files <+: exampleGroupWild.allFiles :=
  ⟨(group_allFiles_eq exampleGroupPlain).1 rfl,
    ((group_allFiles_eq exampleGroupWild).2 _ rfl).2.1,
    ((group_allFiles_eq exampleGroupWild).2 _ rfl).2.2⟩

section Wildcards

open SourceWildCards

theorem mem_qsetInsert (set : List String) (x f : String) :
    f ∈ qsetInsert set x ↔ f ∈ set ∨ f = x := by
  unfold qsetInsert
  by_cases h : x ∈ set
  · rw [if_pos h]
    constructor
    · exact Or.inl
    · rintro (h1 | h1)
      · exact h1
      · rw [h1]
        exact h
  · rw [if_neg h]
    simp

theorem nodup_qsetInsert (set : List String) (x : String) (h : set.Nodup) :
    (qsetInsert set x).Nodup := by
  unfold qsetInsert
  by_cases hx : x ∈ set
  · rw [if_pos hx]
    exact h
  · rw [if_neg hx]
    exact List.Nodup.append h (List.nodup_singleton x) (by simpa using hx)

theorem mem_qsetSubtract (set other : List String) (f : String) :
    f ∈ qsetSubtract set other ↔ f ∈ set ∧ f ∉ other := by
  simp [qsetSubtract]

variable (fs : FileSystem)

theorem mem_expandEntries (isDir : Bool) (recurse : String → List String → List String)
    (hrec : ∀ filePath result f,
      f ∈ recurse filePath result ↔ f ∈ result ∨ f ∈ recurse filePath [])
    (entries result : List String) (f : String) :
    f ∈ expandEntries fs isDir recurse entries result ↔
      f ∈ result ∨ f ∈ expandEntries fs isDir recurse entries [] := by
  induction entries generalizing result with
  | nil => simp [expandEntries]
  | cons filePath rest ih =>
    simp only [expandEntries, QBS_ASSERT]
    by_cases hc : (fs.isDir filePath == isDir) = true
    · simp only [hc, if_true]
      cases isDir with
      | true =>
        simp only [if_true]
        rw [ih (recurse filePath result), ih (recurse filePath []), hrec filePath result]
        exact or_assoc
      | false =>
        simp only [Bool.false_eq_true, if_false]
        rw [ih (qsetInsert result filePath), ih (qsetInsert [] filePath),
          mem_qsetInsert, mem_qsetInsert]
        simp only [List.not_mem_nil, false_or]
        exact or_assoc
    · simp [hc]

theorem mem_expandParts (group : ResolvedGroup) (fuel : Nat) (parts : List String)
    (baseDir : String) (result : List String) (f : String) :
    f ∈ expandParts fs group fuel parts baseDir result ↔
      f ∈ result ∨ f ∈ expandParts fs group fuel parts baseDir [] := by
  induction fuel generalizing parts baseDir result f with
  | zero => simp [expandParts]
  | succ fuel ih =>
    cases parts with
    | nil => simp [expandParts]
    | cons first others =>
      simp only [expandParts]
      exact mem_expandEntries fs _ _ (fun filePath result f => ih _ filePath result f) _ _ f

theorem mem_expandPattern (self : SourceWildCards) (group : ResolvedGroup)
    (baseDir : String) (files : List String) (pattern f : String) :
    f ∈ expandPattern fs self group baseDir files pattern ↔
      f ∈ files ∨ f ∈ expandPattern fs self group baseDir [] pattern := by
  unfold expandPattern
  simp only []
  split
  · split
    · exact mem_expandParts fs group _ _ _ files f
    · exact mem_expandParts fs group _ _ _ files f
  · exact mem_expandParts fs group _ _ _ files f

theorem mem_foldl_expandPattern (self : SourceWildCards) (group : ResolvedGroup)
    (baseDir : String) (patterns : List String) (files : List String) (f : String) :
    f ∈ patterns.foldl (expandPattern fs self group baseDir) files ↔
      f ∈ files ∨ ∃ p ∈ patterns, f ∈ expandPattern fs self group baseDir [] p := by
  induction patterns generalizing files with
  | nil => simp
  | cons p rest ih =>
    rw [List.foldl_cons, ih, mem_expandPattern]
    simp only [List.mem_cons, exists_eq_or_imp]
    exact or_assoc

theorem mem_expandPatternList (self : SourceWildCards) (group : ResolvedGroup)
    (patterns : List String) (baseDir : String) (f : String) :
    f ∈ expandPatternList fs self group patterns baseDir ↔
      ∃ p ∈ patterns, f ∈ expandPatternList fs self group [p] baseDir := by
  unfold expandPatternList
  rw [mem_foldl_expandPattern]
  simp

theorem nodup_expandEntries (isDir : Bool) (recurse : String → List String → List String)
    (hrec : ∀ filePath result, result.Nodup → (recurse filePath result).Nodup)
    (entries result : List String) (h : result.Nodup) :
    (expandEntries fs isDir recurse entries result).Nodup := by
  induction entries generalizing result with
  | nil => exact h
  | cons filePath rest ih =>
    simp only [expandEntries, QBS_ASSERT]
    by_cases hc : (fs.isDir filePath == isDir) = true
    · simp only [hc, if_true]
      cases isDir with
      | true => exact ih _ (hrec filePath result h)
      | false => exact ih _ (nodup_qsetInsert result filePath h)
    · simp only [hc]
      exact h

theorem nodup_expandParts (group : ResolvedGroup) (fuel : Nat) (parts : List String)
    (baseDir : String) (result : List String) (h : result.Nodup) :
    (expandParts fs group fuel parts baseDir result).Nodup := by
  induction fuel generalizing parts baseDir result with
  | zero => exact h
  | succ fuel ih =>
    cases parts with
    | nil => exact h
    | cons first others =>
      simp only [expandParts]
      exact nodup_expandEntries fs _ _ (fun filePath result hr => ih _ filePath result hr) _ _ h

theorem nodup_expandPatternList (self : SourceWildCards) (group : ResolvedGroup)
    (patterns : List String) (baseDir : String) :
    (expandPatternList fs self group patterns baseDir).Nodup := by
  unfold expandPatternList
  have key : ∀ files : List String, files.Nodup →
      (patterns.foldl (expandPattern fs self group baseDir) files).Nodup := by
    induction patterns with
    | nil => intro files h; exact h
    | cons p rest ih =>
      intro files h
      rw [List.foldl_cons]
      refine ih _ ?_
      unfold expandPattern
      simp only []
      split
      · split
        · exact nodup_expandParts fs group _ _ _ files h
        · exact nodup_expandParts fs group _ _ _ files h
      · exact nodup_expandParts fs group _ _ _ files h
  exact key [] List.nodup_nil

/-! ### The fuel of `expandParts` is never used up -/

theorem skipStars_length (first : String) (others : List String) (recursive : Bool) :
    (skipStars first others recursive).2.2.length ≤ others.length := by
  induction others generalizing first recursive with
  | nil =>
    unfold skipStars
    split <;> simp
  | cons next rest ih =>
    unfold skipStars
    split
    · exact Nat.le_succ_of_le (ih next true)
    · simp

theorem expandParts_fuel (group : ResolvedGroup) (fuel1 fuel2 : Nat) (parts : List String)
    (h1 : parts.length ≤ fuel1) (h2 : parts.length ≤ fuel2) (baseDir : String)
    (result : List String) :
    expandParts fs group fuel1 parts baseDir result =
      expandParts fs group fuel2 parts baseDir result := by
  induction fuel1 generalizing fuel2 parts baseDir result with
  | zero =>
    have hp : parts = [] := List.length_eq_zero.1 (Nat.le_zero.1 h1)
    subst hp
    cases fuel2 <;> rfl
  | succ n ih =>
    cases parts with
    | nil => cases fuel2 <;> rfl
    | cons first others =>
      cases fuel2 with
      | zero => simp at h2
      | succ m =>
        simp only [expandParts]
        have hlen := skipStars_length first others false
        simp only [List.length_cons] at h1 h2
        have hfun : (fun filePath result =>
            expandParts fs group n (skipStars first others false).2.2 filePath result) =
            (fun filePath result =>
              expandParts fs group m (skipStars first others false).2.2 filePath result) := by
          funext filePath r
          exact ih m _ (by omega) (by omega) filePath r
        rw [hfun]

end Wildcards

/-- C7 (wildcard expansion is a set difference).  Over any file system, a path is in
`expandPatterns(group, baseDir)` exactly when the expansion of some pattern of `patterns`
holds it and the expansion of no pattern of `excludePatterns` does; so the result lies
within the include set and holds nothing that an exclude pattern produces, and as a set
it has no path twice. -/
theorem expandPatterns_set_difference (fs : FileSystem)
    (self : SourceWildCards) (group : ResolvedGroup) (baseDir : String) :
    (∀ f, f ∈ self.expandPatterns fs group baseDir ↔
      (∃ p ∈ self.patterns, f ∈ self.expandPatternList fs group [p] baseDir) ∧
      ¬ ∃ q ∈ self.excludePatterns, f ∈ self.expandPatternList fs group [q] baseDir) ∧
    (∀ f, f ∈ self.expandPatterns fs group baseDir →
      f ∈ self.expandPatternList fs group self.patterns baseDir ∧
      f ∉ self.expandPatternList fs group self.excludePatterns baseDir) ∧
    (self.expandPatterns fs group baseDir).Nodup := by
  refine ⟨?_, ?_, ?_⟩
  · intro f
    unfold SourceWildCards.expandPatterns
    simp only []
    rw [mem_qsetSubtract, mem_expandPatternList fs self group self.patterns,
      mem_expandPatternList fs self group self.excludePatterns]
  · intro f hf
    unfold SourceWildCards.expandPatterns at hf
    exact (mem_qsetSubtract _ _ f).1 hf
  · unfold SourceWildCards.expandPatterns qsetSubtract
    exact List.Nodup.filter _ (nodup_expandPatternList fs self group self.patterns baseDir)

/-- Witness for C7: the scenario expands to `a.cpp` and `sub/b.cpp` under `/p/src`. -/
theorem expandPatterns_scenario :
    scenarioWildCards.expandPatterns scenarioFileSystem scenarioGroup "/p" =
      ["/p/src/a.cpp", "/p/src/sub/b.cpp"] ∧
    (∀ f, f ∈ scenarioWildCards.expandPatterns scenarioFileSystem scenarioGroup "/p" ↔
      (∃ p ∈ scenarioWildCards.patterns,
        f ∈ scenarioWildCards.expandPatternList scenarioFileSystem scenarioGroup [p] "/p") ∧
      ¬ ∃ q ∈ scenarioWildCards.excludePatterns,
        f ∈ scenarioWildCards.expandPatternList scenarioFileSystem scenarioGroup [q] "/p") :=
  ⟨by decide,
    (expandPatterns_set_difference scenarioFileSystem scenarioWildCards
      scenarioGroup "/p").1⟩

/-! ## The claims about `getProcessEnvironment` -/

/-- The fold behind `getProcessEnvironment`.  When the adjacency tables `g` are built and
`topSortModules` returns the evaluation order `order`, the result of
`getProcessEnvironment` is the left fold, over the modules of `order` that are not
skipped and in that order, of the step that runs a module's selected script, started
from the scope and from the caller's environment overlaid with the platform environment;
a failing script ends the fold with its error. -/
theorem getProcessEnvironment_eq_foldlM {σ Product : Type} (fuel : Nat)
    (engine : ScriptEngine σ) (engineState : σ) (envType : EnvType)
    (modules : List ResolvedModule) (productConfiguration : PropertyMapInternal)
    (project : ResolvedProject Product) (env : QProcessEnvironment) (g : ModuleGraph)
    (order : List Nat) (hg : moduleGraph modules = some g)
    (ho : topSortedModules fuel modules g = some order) :
    getProcessEnvironment fuel engine engineState envType modules productConfiguration
        project env =
      some (((order.filter fun m => !skipModule envType (modules.getD m default)).foldlM
          (runSetupScript engine envType modules productConfiguration g)
          (engine.newScope ⟨js_getenv, js_putenv⟩ (engine.clearImportsCache engineState),
            overlayPlatformEnvironment project.platformEnvironment env)).map Prod.snd) := by
  unfold getProcessEnvironment
  simp only [hg, ho]
  rw [evaluateModules_eq_foldlM]

/-- C10 (an unresolved dependency name, as the code has it).  When some module of the
product lists a dependency name that is the name of no module of the product,
`getProcessEnvironment` throws nothing and returns the caller's environment as it was
passed in, without the platform overlay and without running a script; and
`setupBuildEnvironment` / `setupRunEnvironment`, on a product without a cached
environment, store that environment in the product. -/
theorem getProcessEnvironment_unresolved {σ Product : Type} (fuel : Nat)
    (engine : ScriptEngine σ) (engineState : σ) (envType : EnvType)
    (product : ResolvedProduct) (project : ResolvedProject Product)
    (env : QProcessEnvironment)
    (h : ∃ M ∈ product.modules, ∃ s ∈ M.moduleDependencies,
      ∀ D ∈ product.modules, nameKey D.name ≠ s) :
    getProcessEnvironment fuel engine engineState envType product.modules
        product.properties project env = some (Except.ok env) ∧
    (product.buildEnvironment.isEmpty = true →
      product.setupBuildEnvironment fuel engine engineState project env =
        some (Except.ok { product with buildEnvironment := env })) ∧
    (product.runEnvironment.isEmpty = true →
      product.setupRunEnvironment fuel engine engineState project env =
        some (Except.ok { product with runEnvironment := env })) := by
  refine ⟨getProcessEnvironment_of_unresolved _ _ _ _ _ _ _ _ h, ?_, ?_⟩
  · intro he
    simp [ResolvedProduct.setupBuildEnvironment, he,
      getProcessEnvironment_of_unresolved _ _ _ _ _ _ _ _ h]
  · intro he
    simp [ResolvedProduct.setupRunEnvironment, he,
      getProcessEnvironment_of_unresolved _ _ _ _ _ _ _ _ h]

/-- Witness for C10: a product whose one module depends on a missing `base`. -/
theorem getProcessEnvironment_unresolved_witness :
    (∃ M ∈ danglingProduct.modules, ∃ s ∈ M.moduleDependencies,
      ∀ D ∈ danglingProduct.modules, nameKey D.name ≠ s) ∧
    getProcessEnvironment 3 scenarioEngine none EnvType.BuildEnv danglingProduct.modules
        danglingProduct.properties platformProject callerEnvironment =
      some (Except.ok callerEnvironment) :=
  ⟨by decide,
    (getProcessEnvironment_unresolved 3 scenarioEngine none EnvType.BuildEnv danglingProduct
      platformProject callerEnvironment (by decide)).1⟩

/-- C10, the claim as stated fails: the one module of the product depends on `base`,
which is no module of the product, and environment resolution ends without an error,
with the caller's environment as its result. -/
theorem getProcessEnvironment_unresolved_no_error :
    (∃ M ∈ danglingProduct.modules, ∃ s ∈ M.moduleDependencies,
      ∀ D ∈ danglingProduct.modules, nameKey D.name ≠ s) ∧
    getProcessEnvironment 3 scenarioEngine none EnvType.BuildEnv danglingProduct.modules
        danglingProduct.properties platformProject callerEnvironment =
      some (Except.ok callerEnvironment) ∧
    (∀ e, getProcessEnvironment 3 scenarioEngine none EnvType.BuildEnv
        danglingProduct.modules danglingProduct.properties platformProject
        callerEnvironment ≠ some (Except.error e)) ∧
    (danglingProduct.setupBuildEnvironment 3 scenarioEngine none platformProject
        callerEnvironment).map (fun r => r.map fun p => p.buildEnvironment) =
      some (Except.ok callerEnvironment) := by
  refine ⟨by decide, rfl, ?_, rfl⟩
  intro e h
  have h1 : getProcessEnvironment 3 scenarioEngine none EnvType.BuildEnv
      danglingProduct.modules danglingProduct.properties platformProject
      callerEnvironment = some (Except.ok callerEnvironment) := rfl
  rw [h1] at h
  cases h

/-! ## Script errors, caching, script selection, cycles -/

section ScriptErrors

variable {σ Product : Type}

theorem runSetupScript_eq (engine : ScriptEngine σ) (envType : EnvType)
    (modules : List ResolvedModule) (productConfiguration : PropertyMapInternal)
    (g : ModuleGraph) (state : σ × QProcessEnvironment) (m : Nat) :
    runSetupScript engine envType modules productConfiguration g state m =
      if (engine.evaluate (setupScript envType (modules.getD m default))
          (preparedScope engine modules productConfiguration g state.1 m) state.2).isError
      then Except.error ⟨setupErrorMessage envType
        (engine.evaluate (setupScript envType (modules.getD m default))
          (preparedScope engine modules productConfiguration g state.1 m) state.2).message⟩
      else Except.ok
        ((engine.evaluate (setupScript envType (modules.getD m default))
          (preparedScope engine modules productConfiguration g state.1 m) state.2).engine,
         (engine.evaluate (setupScript envType (modules.getD m default))
          (preparedScope engine modules productConfiguration g state.1 m) state.2).procenv) :=
  rfl

theorem evaluateModulesTrace_fst (engine : ScriptEngine σ) (envType : EnvType)
    (modules : List ResolvedModule) (productConfiguration : PropertyMapInternal)
    (g : ModuleGraph) (order : List Nat) (state : σ × QProcessEnvironment)
    (evaluated : List Nat) :
    (evaluateModulesTrace engine envType modules productConfiguration g order state
        evaluated).1 =
      evaluateModules engine envType modules productConfiguration g order state := by
  induction order generalizing state evaluated with
  | nil => rfl
  | cons m rest ih =>
    rw [evaluateModulesTrace, evaluateModules]
    by_cases hs : skipModule envType (modules.getD m default) = true
    · rw [if_pos hs, if_pos hs, ih]
    · rw [if_neg hs, if_neg hs]
      cases hr : runSetupScript engine envType modules productConfiguration g state m with
      | error e => rfl
      | ok state1 => exact ih state1 _

/-- A failing script after a run of modules that went through: the error of that script
is the result, and the evaluated modules are those of the run that are not skipped,
followed by the failing one. -/
theorem evaluateModulesTrace_error (engine : ScriptEngine σ) (envType : EnvType)
    (modules : List ResolvedModule) (productConfiguration : PropertyMapInternal)
    (g : ModuleGraph) (pre post : List Nat) (m : Nat)
    (state state1 : σ × QProcessEnvironment) (evaluated : List Nat) (e : Error)
    (hpre : evaluateModules engine envType modules productConfiguration g pre state =
      Except.ok state1)
    (hm : skipModule envType (modules.getD m default) = false)
    (herr : runSetupScript engine envType modules productConfiguration g state1 m =
      Except.error e) :
    evaluateModulesTrace engine envType modules productConfiguration g (pre ++ m :: post)
        state evaluated =
      (Except.error e,
        evaluated ++ (pre.filter fun k => !skipModule envType (modules.getD k default)) ++
          [m]) := by
  induction pre generalizing state evaluated with
  | nil =>
    simp only [evaluateModules, Except.ok.injEq] at hpre
    subst hpre
    rw [List.nil_append, evaluateModulesTrace, if_neg (by rw [hm]; simp), herr]
    simp
  | cons k rest ih =>
    rw [evaluateModules] at hpre
    rw [List.cons_append, evaluateModulesTrace]
    by_cases hs : skipModule envType (modules.getD k default) = true
    · rw [if_pos hs] at hpre
      rw [if_pos hs, ih state evaluated hpre, List.filter_cons_of_neg (by rw [hs]; simp)]
    · rw [if_neg hs] at hpre
      rw [if_neg hs]
      cases hr : runSetupScript engine envType modules productConfiguration g state k with
      | error e1 =>
        rw [hr] at hpre
        cases hpre
      | ok state2 =>
        rw [hr] at hpre
        simp only []
        rw [ih state2 _ hpre, List.filter_cons_of_pos
          (by rw [Bool.not_eq_true] at hs; rw [hs]; rfl)]
        simp

end ScriptErrors

/-- C11 (a script error aborts the resolution).  Let the evaluation order be
`pre ++ m :: post`, let the scripts of `pre` go through, and let the script selected for
the module `m`, which is not skipped, report an error.  Then `getProcessEnvironment`
throws the `Error` whose message is "Error while setting up build environment: " (or
"run", by the environment kind) followed by the message of the script, and returns no
environment; the scripts that were evaluated are those of `pre` and that of `m`, none of
`post`; and `setupBuildEnvironment` / `setupRunEnvironment` on a product without cached
environment end with the same `Error`, in place of a product with a new cached
environment. -/
theorem getProcessEnvironment_script_error {σ Product : Type} (fuel : Nat)
    (engine : ScriptEngine σ) (engineState : σ) (envType : EnvType)
    (product : ResolvedProduct) (project : ResolvedProject Product)
    (env : QProcessEnvironment) (g : ModuleGraph) (pre post : List Nat) (m : Nat)
    (state1 : σ × QProcessEnvironment)
    (hg : moduleGraph product.modules = some g)
    (ho : topSortedModules fuel product.modules g = some (pre ++ m :: post))
    (hpre : evaluateModules engine envType product.modules product.properties g pre
      (engine.newScope ⟨js_getenv, js_putenv⟩ (engine.clearImportsCache engineState),
        overlayPlatformEnvironment project.platformEnvironment env) = Except.ok state1)
    (hm : skipModule envType (product.modules.getD m default) = false)
    (herr : (engine.evaluate (setupScript envType (product.modules.getD m default))
      (preparedScope engine product.modules product.properties g state1.1 m)
      state1.2).isError = true) :
    getProcessEnvironment fuel engine engineState envType product.modules
        product.properties project env =
      some (Except.error ⟨"Error while setting up " ++
        (if envType = EnvType.BuildEnv then "build" else "run") ++ " environment: " ++
        (engine.evaluate (setupScript envType (product.modules.getD m default))
          (preparedScope engine product.modules product.properties g state1.1 m)
          state1.2).message⟩) ∧
    (evaluateModulesTrace engine envType product.modules product.properties g
        (pre ++ m :: post)
        (engine.newScope ⟨js_getenv, js_putenv⟩ (engine.clearImportsCache engineState),
          overlayPlatformEnvironment project.platformEnvironment env) []).2 =
      (pre.filter fun k => !skipModule envType (product.modules.getD k default)) ++ [m] ∧
    (envType = EnvType.BuildEnv → product.buildEnvironment.isEmpty = true →
      product.setupBuildEnvironment fuel engine engineState project env =
        some (Except.error ⟨"Error while setting up build environment: " ++
          (engine.evaluate (setupScript envType (product.modules.getD m default))
            (preparedScope engine product.modules product.properties g state1.1 m)
            state1.2).message⟩)) ∧
    (envType = EnvType.RunEnv → product.runEnvironment.isEmpty = true →
      product.setupRunEnvironment fuel engine engineState project env =
        some (Except.error ⟨"Error while setting up run environment: " ++
          (engine.evaluate (setupScript envType (product.modules.getD m default))
            (preparedScope engine product.modules product.properties g state1.1 m)
            state1.2).message⟩)) := by
  have hrun : runSetupScript engine envType product.modules product.properties g state1 m =
      Except.error ⟨setupErrorMessage envType
        (engine.evaluate (setupScript envType (product.modules.getD m default))
          (preparedScope engine product.modules product.properties g state1.1 m)
          state1.2).message⟩ := by
    rw [runSetupScript_eq, if_pos herr]
  have htrace := evaluateModulesTrace_error engine envType product.modules product.properties
    g pre post m _ state1 [] _ hpre hm hrun
  have hget : getProcessEnvironment fuel engine engineState envType product.modules
      product.properties project env =
      some (Except.error ⟨setupErrorMessage envType
        (engine.evaluate (setupScript envType (product.modules.getD m default))
          (preparedScope engine product.modules product.properties g state1.1 m)
          state1.2).message⟩) := by
    unfold getProcessEnvironment
    simp only [hg, ho]
    rw [← evaluateModulesTrace_fst engine envType product.modules product.properties g _ _ [],
      htrace]
    rfl
  refine ⟨hget, ?_, ?_, ?_⟩
  · rw [htrace]
    simp
  · intro he hempty
    subst he
    simp only [ResolvedProduct.setupBuildEnvironment, hempty, hget]
    rfl
  · intro he hempty
    subst he
    simp only [ResolvedProduct.setupRunEnvironment, hempty, hget]
    rfl

/-- Witness for C11: `base` goes through, the script of `broken` is rejected, `late` is
never reached. -/
theorem getProcessEnvironment_script_error_witness :
    getProcessEnvironment 4 scenarioEngine none EnvType.BuildEnv brokenProduct.modules
        brokenProduct.properties scenarioProject ∅ =
      some (Except.error ⟨"Error while setting up build environment: SyntaxError"⟩) ∧
    brokenProduct.setupBuildEnvironment 4 scenarioEngine none scenarioProject ∅ =
      some (Except.error ⟨"Error while setting up build environment: SyntaxError"⟩) :=
  ⟨(getProcessEnvironment_script_error 4 scenarioEngine none EnvType.BuildEnv brokenProduct
      scenarioProject ∅ _ [0] [2] 1 (some ⟨js_getenv, js_putenv⟩, AList.insert "X" "1" ∅)
      rfl rfl rfl rfl rfl).1.trans rfl,
    ((getProcessEnvironment_script_error 4 scenarioEngine none EnvType.BuildEnv brokenProduct
      scenarioProject ∅ _ [0] [2] 1 (some ⟨js_getenv, js_putenv⟩, AList.insert "X" "1" ∅)
      rfl rfl rfl rfl rfl).2.2.1 rfl rfl).trans rfl⟩

/-- C12 (environment caching, as the code has it).  Once `setupBuildEnvironment` (resp.
`setupRunEnvironment`) has completed with an environment that is not empty, a second
call on the product, with any engine, project and base environment, returns the product
as it is: the cached environment is the one of the first call, and no script is
evaluated, whatever the engine would have answered. -/
theorem setupEnvironment_second_call {σ τ Product Product2 : Type} (fuel1 fuel2 : Nat)
    (engine1 : ScriptEngine σ) (engineState1 : σ) (engine2 : ScriptEngine τ)
    (engineState2 : τ) (project1 : ResolvedProject Product)
    (project2 : ResolvedProject Product2) (env1 env2 : QProcessEnvironment)
    (product p1 : ResolvedProduct) :
    (product.setupBuildEnvironment fuel1 engine1 engineState1 project1 env1 =
        some (Except.ok p1) →
      p1.buildEnvironment.isEmpty = false →
      p1.setupBuildEnvironment fuel2 engine2 engineState2 project2 env2 =
        some (Except.ok p1)) ∧
    (product.setupRunEnvironment fuel1 engine1 engineState1 project1 env1 =
        some (Except.ok p1) →
      p1.runEnvironment.isEmpty = false →
      p1.setupRunEnvironment fuel2 engine2 engineState2 project2 env2 =
        some (Except.ok p1)) := by
  constructor
  · intro _ hne
    simp [ResolvedProduct.setupBuildEnvironment, hne]
  · intro _ hne
    simp [ResolvedProduct.setupRunEnvironment, hne]

/-- Witness for C12: the scenario product, set up once, comes back unchanged from a
second call with an engine that fails on every script and with another base
environment. -/
theorem setupEnvironment_second_call_witness :
    ∃ p1, scenarioProduct.setupBuildEnvironment 3 scenarioEngine none scenarioProject ∅ =
        some (Except.ok p1) ∧
      p1.buildEnvironment.isEmpty = false ∧
      p1.setupBuildEnvironment 0 failingEngine () platformProject callerEnvironment =
        some (Except.ok p1) :=
  ⟨_, rfl, rfl,
    (setupEnvironment_second_call 3 0 scenarioEngine none failingEngine () scenarioProject
      platformProject ∅ callerEnvironment scenarioProduct _).1 rfl rfl⟩

/-- C12, the claim as stated fails: a product without modules, set up with an empty base
environment, completes with an empty build environment; a second call with another base
environment computes again and caches that other environment. -/
theorem setupBuildEnvironment_recomputed :
    ∃ p1 p2,
      bareProduct.setupBuildEnvironment 1 scenarioEngine none scenarioProject ∅ =
        some (Except.ok p1) ∧
      p1.setupBuildEnvironment 1 scenarioEngine none scenarioProject callerEnvironment =
        some (Except.ok p2) ∧
      p1.buildEnvironment.lookup "X" = none ∧
      p2.buildEnvironment.lookup "X" = some "base" :=
  ⟨_, _, rfl, rfl, rfl, rfl⟩

/-- C18 (cycles, as the code has it).  A cycle is neither looked for nor reported.  When
the dependency names resolve and every module has a parent, so that there is no root
module (as in a module list that is one cycle), `topSortModules` is handed the empty
list, no script is evaluated, and `getProcessEnvironment` returns the caller's
environment overlaid with the platform environment. -/
theorem getProcessEnvironment_no_roots {σ Product : Type} (fuel : Nat)
    (engine : ScriptEngine σ) (engineState : σ) (envType : EnvType)
    (modules : List ResolvedModule) (productConfiguration : PropertyMapInternal)
    (project : ResolvedProject Product) (env : QProcessEnvironment) (g : ModuleGraph)
    (hg : moduleGraph modules = some g) (hroots : rootModules modules g = [])
    (hfuel : 0 < fuel) :
    topSortedModules fuel modules g = some [] ∧
    getProcessEnvironment fuel engine engineState envType modules productConfiguration
        project env =
      some (Except.ok (overlayPlatformEnvironment project.platformEnvironment env)) := by
  obtain ⟨f, rfl⟩ : ∃ f, fuel = f + 1 := ⟨fuel - 1, by omega⟩
  have ho : topSortedModules (f + 1) modules g = some [] := by
    simp [topSortedModules, topSortModules, hroots, topSortLoop]
  refine ⟨ho, ?_⟩
  unfold getProcessEnvironment
  simp only [hg, ho]
  rfl

/-- Witness for C18: the two-module cycle has no root module. -/
theorem getProcessEnvironment_no_roots_witness :
    ∃ g, moduleGraph cycleModules = some g ∧ rootModules cycleModules g = [] ∧
      topSortedModules 3 cycleModules g = some [] ∧
      getProcessEnvironment 3 scenarioEngine none EnvType.BuildEnv cycleModules ⟨∅⟩
          platformProject callerEnvironment =
        some (Except.ok
          (overlayPlatformEnvironment platformProject.platformEnvironment
            callerEnvironment)) :=
  ⟨_, rfl, rfl,
    getProcessEnvironment_no_roots 3 scenarioEngine none EnvType.BuildEnv cycleModules ⟨∅⟩
      platformProject callerEnvironment _ rfl rfl (by decide)⟩

/-- C18, the claim as stated fails: `A` depends on `B` and `B` on `A`, both have a build
script, and `getProcessEnvironment` returns an environment as after a successful
resolution, with the platform value of `X` that either script would have replaced. -/
theorem getProcessEnvironment_cycle_returns :
    Relation.TransGen (DependsOn cycleModules) 0 0 ∧
    (∀ M ∈ cycleModules, skipModule EnvType.BuildEnv M = false) ∧
    ∃ result,
      getProcessEnvironment 3 scenarioEngine none EnvType.BuildEnv cycleModules ⟨∅⟩
        platformProject callerEnvironment = some (Except.ok result) ∧
      result.lookup "X" = some "platform" := by
  refine ⟨?_, by decide, _, rfl, rfl⟩
  have h01 : DependsOn cycleModules 0 1 :=
    ⟨_, _, rfl, rfl, "B", by simp [cycleModules], rfl⟩
  have h10 : DependsOn cycleModules 1 0 :=
    ⟨_, _, rfl, rfl, "A", by simp [cycleModules], rfl⟩
  exact Relation.TransGen.tail (Relation.TransGen.single h01) h10

/-! ## Round trip of `ResolvedModule` -/

section ModuleStore

open PersistentPool

theorem storeNullableString_mk (pre : List StreamItem) (table : List String)
    (t : Option String) :
    PersistentPool.storeNullableString ⟨pre, table⟩ t =
      ⟨pre ++ nullableStringItems table t, nullableStringTable table t⟩ := by
  cases t with
  | none => rfl
  | some s => exact storeString_mk pre table s

theorem idLoadNullableString_items (table : List String) (t : Option String)
    (rest : List StreamItem) :
    PersistentPool.idLoadNullableString ⟨nullableStringItems table t ++ rest, table⟩ =
      some (t, ⟨rest, nullableStringTable table t⟩) := by
  cases t with
  | none => simp [idLoadNullableString, nullableStringItems, nullableStringTable, readInt]
  | some s =>
    have h := idLoadString_stringItems table s rest
    simp only [nullableStringItems, nullableStringTable]
    unfold idLoadNullableString
    rw [h]
    unfold stringItems readInt
    by_cases hs : s ∈ table
    · simp only [hs, if_true, List.cons_append, List.nil_append]
      rw [if_neg (by omega)]
    · simp only [hs, if_false, List.cons_append, List.nil_append]
      rw [if_neg (by omega)]

theorem storeStrings_mk (l : List String) (pre : List StreamItem) (table : List String) :
    l.foldl (fun p s => PersistentPool.storeString p s) ⟨pre, table⟩ =
      ⟨pre ++ stringsItems table l, stringsTable table l⟩ := by
  induction l generalizing pre table with
  | nil => simp [stringsItems, stringsTable]
  | cons s rest ih =>
    rw [List.foldl_cons, storeString_mk, ih]
    simp [stringsItems, stringsTable]

theorem storeStringList_mk (l : List String) (pre : List StreamItem) (table : List String) :
    PersistentPool.storeStringList ⟨pre, table⟩ l =
      ⟨pre ++ StreamItem.int l.length :: stringsItems table l, stringsTable table l⟩ := by
  unfold storeStringList
  rw [write_mk, storeStrings_mk]
  simp

theorem loadStrings_stringsItems (l acc : List String) (table : List String)
    (rest : List StreamItem) :
    loadStrings l.length acc ⟨stringsItems table l ++ rest, table⟩ =
      some (acc ++ l, ⟨rest, stringsTable table l⟩) := by
  induction l generalizing acc table with
  | nil => simp [loadStrings, stringsItems, stringsTable]
  | cons s rest1 ih =>
    simp only [List.length_cons, loadStrings, stringsItems, List.append_assoc,
      idLoadString_stringItems]
    rw [ih]
    simp [stringsTable]

theorem idLoadStringList_mk (l : List String) (table : List String)
    (rest : List StreamItem) :
    PersistentPool.idLoadStringList
        ⟨StreamItem.int l.length :: (stringsItems table l ++ rest), table⟩ =
      some (l, ⟨rest, stringsTable table l⟩) := by
  simp only [idLoadStringList, readInt, Int.toNat_ofNat]
  rw [loadStrings_stringsItems]
  simp

theorem writeJsImportLoop_mk (l : List JsImport) (pre : List StreamItem)
    (table : List String) :
    l.foldl PersistentPool.writeJsImport ⟨pre, table⟩ = ⟨pre ++ jsImportItems l, table⟩ := by
  induction l generalizing pre with
  | nil => simp [jsImportItems]
  | cons i rest ih =>
    rw [List.foldl_cons]
    simp only [writeJsImport, write_mk]
    rw [ih]
    simp [jsImportItems]

theorem writeJsImports_mk (l : List JsImport) (pre : List StreamItem) (table : List String) :
    PersistentPool.writeJsImports ⟨pre, table⟩ l =
      ⟨pre ++ StreamItem.int l.length :: jsImportItems l, table⟩ := by
  unfold writeJsImports
  rw [write_mk, writeJsImportLoop_mk]
  simp

theorem readJsImportLoop_items (l acc : List JsImport) (table : List String)
    (rest : List StreamItem) :
    readJsImportLoop l.length acc ⟨jsImportItems l ++ rest, table⟩ =
      some (acc ++ l, ⟨rest, table⟩) := by
  induction l generalizing acc with
  | nil => simp [readJsImportLoop, jsImportItems]
  | cons i rest1 ih =>
    simp only [List.length_cons, readJsImportLoop, jsImportItems, List.cons_append,
      readJsImport, readString, readStringList, readLocation]
    rw [ih]
    simp

theorem readJsImports_mk (l : List JsImport) (table : List String) (rest : List StreamItem) :
    PersistentPool.readJsImports ⟨StreamItem.int l.length :: (jsImportItems l ++ rest), table⟩ =
      some (l, ⟨rest, table⟩) := by
  simp only [readJsImports, readInt, Int.toNat_ofNat]
  rw [readJsImportLoop_items]
  simp

theorem module_store_mk (x : ResolvedModule) (pre : List StreamItem) (table : List String) :
    x.store ⟨pre, table⟩ =
      ⟨pre ++ (nullableStringItems table x.name ++
        (StreamItem.int x.moduleDependencies.length ::
          (stringsItems (nullableStringTable table x.name) x.moduleDependencies ++
          (stringItems
            (stringsTable (nullableStringTable table x.name) x.moduleDependencies)
            x.setupBuildEnvironmentScript ++
          (stringItems
            (stringTable
              (stringsTable (nullableStringTable table x.name) x.moduleDependencies)
              x.setupBuildEnvironmentScript)
            x.setupRunEnvironmentScript ++
          (StreamItem.int x.jsImports.length ::
            (jsImportItems x.jsImports ++
              [StreamItem.string x.setupBuildEnvironmentScript,
                StreamItem.string x.setupRunEnvironmentScript]))))))),
        stringTable
          (stringTable
            (stringsTable (nullableStringTable table x.name) x.moduleDependencies)
            x.setupBuildEnvironmentScript)
          x.setupRunEnvironmentScript⟩ := by
  simp [ResolvedModule.store, storeNullableString_mk, storeStringList_mk, storeString_mk,
    writeJsImports_mk, write_mk]

end ModuleStore

/-- C15 (round trip of `ResolvedModule`).  `store` writes, in this order: the name, the
dependency names, the build script and the run script through the pool, then the
imports, the build script and the run script into the stream; and `load` reads exactly
that sequence back, leaving what follows in the stream: the loaded module is the stored
one, in name, dependencies, both scripts and imports. -/
theorem module_load_store (x : ResolvedModule) (table : List String)
    (rest : List StreamItem) :
    (x.store ⟨[], table⟩).stream =
      nullableStringItems table x.name ++
        (StreamItem.int x.moduleDependencies.length ::
          (stringsItems (nullableStringTable table x.name) x.moduleDependencies ++
          (stringItems
            (stringsTable (nullableStringTable table x.name) x.moduleDependencies)
            x.setupBuildEnvironmentScript ++
          (stringItems
            (stringTable
              (stringsTable (nullableStringTable table x.name) x.moduleDependencies)
              x.setupBuildEnvironmentScript)
            x.setupRunEnvironmentScript ++
          (StreamItem.int x.jsImports.length ::
            (jsImportItems x.jsImports ++
              [StreamItem.string x.setupBuildEnvironmentScript,
                StreamItem.string x.setupRunEnvironmentScript])))))) ∧
    ResolvedModule.load ⟨(x.store ⟨[], table⟩).stream ++ rest, table⟩ =
      some (x, ⟨rest, (x.store ⟨[], table⟩).stringStorage⟩) := by
  refine ⟨by rw [module_store_mk]; rfl, ?_⟩
  simp only [module_store_mk, List.nil_append, List.append_assoc, List.cons_append,
    ResolvedModule.load, idLoadNullableString_items, idLoadStringList_mk,
    idLoadString_stringItems, readJsImports_mk, PersistentPool.readString]

/-- The round trip of C15 at `exampleModule`, into an empty pool. -/
theorem module_load_store_example :
    ResolvedModule.load ⟨(exampleModule.store ⟨[], []⟩).stream ++ [], []⟩ =
      some (exampleModule, ⟨[], (exampleModule.store ⟨[], []⟩).stringStorage⟩) :=
  (module_load_store exampleModule [] []).2

/-! ## Shared property maps through the pool -/

section Sharing

open PersistentPool

variable (heap : Nat → PropertyMapInternal)

theorem objectStore_mk (pre : List StreamItem) (table : List String) (W : List Nat)
    (object : Nat) :
    ObjectStorePool.store heap ⟨⟨pre, table⟩, W⟩ object =
      ⟨⟨pre ++ objectItems heap W object, table⟩, objectTable W object⟩ := by
  unfold ObjectStorePool.store objectItems objectTable
  by_cases h : object ∈ W
  · simp [h, write_mk]
  · simp [h, write_mk, PropertyMapInternal.store]

theorem artifact_store_mk (a : SourceArtifactObject) (pre : List StreamItem)
    (table : List String) (W : List Nat) :
    a.store heap ⟨⟨pre, table⟩, W⟩ =
      ⟨⟨pre ++ (StreamItem.string a.absoluteFilePath :: StreamItem.fileTags a.fileTags ::
          objectItems heap W a.properties), table⟩, objectTable W a.properties⟩ := by
  simp [SourceArtifactObject.store, write_mk, objectStore_mk]

theorem sublist_objectTable (W : List Nat) (object : Nat) :
    W <+: objectTable W object := by
  unfold objectTable
  split
  · exact List.prefix_refl W
  · exact List.prefix_append W _

theorem getElem?_of_initial_segment {α : Type} {l1 l2 : List α} (h : l1 <+: l2) (i : Nat) (a : α)
    (hi : l1[i]? = some a) : l2[i]? = some a := by
  obtain ⟨t, rfl⟩ := h
  have hlt : i < l1.length := (List.getElem?_eq_some.1 hi).1
  rw [List.getElem?_append_left hlt]
  exact hi

theorem nodup_getElem?_inj {l : List Nat} (h : l.Nodup) {i j a : Nat}
    (hi : l[i]? = some a) (hj : l[j]? = some a) : i = j := by
  obtain ⟨hi1, hi2⟩ := List.getElem?_eq_some.1 hi
  obtain ⟨hj1, hj2⟩ := List.getElem?_eq_some.1 hj
  have h3 : l.get ⟨i, hi1⟩ = l.get ⟨j, hj1⟩ := by
    simp only [List.get_eq_getElem]
    rw [hi2, hj2]
  exact Fin.mk.inj ((List.Nodup.get_inj_iff h).1 h3)

/-- Loading one object that the writer stored: the reader is handed an address that
stands under the same id as the stored address, the tables stay in step, and they only
grow at their ends. -/
theorem idLoadS_objectItems (W L : List Nat) (H : List PropertyMapInternal)
    (hstep : InStep heap W L H) (object : Nat) (table : List String)
    (rest : List StreamItem) :
    ∃ b L1 H1,
      ObjectLoadPool.idLoadS ⟨⟨objectItems heap W object ++ rest, table⟩, L, H⟩ =
        some (b, ⟨⟨rest, table⟩, L1, H1⟩) ∧
      InStep heap (objectTable W object) L1 H1 ∧ L <+: L1 ∧
      ∃ i : Nat, (objectTable W object)[i]? = some object ∧ L1[i]? = some b := by
  obtain ⟨hlen, hW, hL, hlt, hval⟩ := hstep
  by_cases h : object ∈ W
  · have hidx : W.indexOf object < L.length := by
      rw [← hlen]
      exact List.indexOf_lt_length.2 h
    refine ⟨L.get ⟨W.indexOf object, hidx⟩, L, H, ?_, ?_, List.prefix_refl L,
      W.indexOf object, ?_, ?_⟩
    · simp [ObjectLoadPool.idLoadS, objectItems, h, readInt, hidx]
    · simp only [objectTable, h, if_true]
      exact ⟨hlen, hW, hL, hlt, hval⟩
    · simp only [objectTable, h, if_true]
      rw [List.getElem?_eq_getElem (List.indexOf_lt_length.2 h)]
      simp
    · rw [List.getElem?_eq_getElem hidx]
      rfl
  · refine ⟨H.length, L ++ [H.length], H ++ [heap object], ?_, ?_, List.prefix_append L _,
      W.length, ?_, ?_⟩
    · simp [ObjectLoadPool.idLoadS, objectItems, h, readInt, hlen, PropertyMapInternal.load,
        readVariantMap]
    · simp only [objectTable, h, if_false]
      refine ⟨by simp [hlen], ?_, ?_, ?_, ?_⟩
      · exact List.Nodup.append hW (List.nodup_singleton _) (by simpa using h)
      · exact List.Nodup.append hL (List.nodup_singleton _)
          (by simpa using fun hmem => lt_irrefl _ (hlt _ hmem))
      · intro b hb
        rw [List.length_append, List.length_singleton]
        rcases List.mem_append.1 hb with hb | hb
        · exact Nat.lt_succ_of_lt (hlt b hb)
        · rw [List.mem_singleton.1 hb]
          exact Nat.lt_succ_self _
      · intro i a b ha hb
        by_cases hi : i < W.length
        · rw [List.getElem?_append_left hi] at ha
          rw [List.getElem?_append_left (by rw [← hlen]; exact hi)] at hb
          have hbl : b < H.length := hlt b (List.getElem?_mem hb)
          rw [List.getElem?_append_left hbl]
          exact hval i a b ha hb
        · have hiW : i = W.length := by
            have h1 := (List.getElem?_eq_some.1 ha).1
            rw [List.length_append, List.length_singleton] at h1
            omega
          subst hiW
          rw [List.getElem?_append_right (le_refl _)] at ha
          rw [hlen, List.getElem?_append_right (le_refl _)] at hb
          simp only [Nat.sub_self, List.getElem?_cons_zero, Option.some.injEq] at ha hb
          subst ha hb
          rw [List.getElem?_append_right (le_refl _)]
          simp
    · simp only [objectTable, h, if_false]
      rw [List.getElem?_append_right (le_refl _)]
      simp
    · rw [hlen, List.getElem?_append_right (le_refl _)]
      simp

theorem artifact_load_items (W L : List Nat) (H : List PropertyMapInternal)
    (hstep : InStep heap W L H) (a : SourceArtifactObject) (table : List String)
    (rest : List StreamItem) :
    ∃ b L1 H1,
      SourceArtifactObject.load
          ⟨⟨StreamItem.string a.absoluteFilePath :: StreamItem.fileTags a.fileTags ::
            (objectItems heap W a.properties ++ rest), table⟩, L, H⟩ =
        some (⟨a.absoluteFilePath, a.fileTags, b⟩, ⟨⟨rest, table⟩, L1, H1⟩) ∧
      InStep heap (objectTable W a.properties) L1 H1 ∧ L <+: L1 ∧
      ∃ i : Nat, (objectTable W a.properties)[i]? = some a.properties ∧ L1[i]? = some b := by
  obtain ⟨b, L1, H1, h1, h2, h3, h4⟩ :=
    idLoadS_objectItems heap W L H hstep a.properties table rest
  refine ⟨b, L1, H1, ?_, h2, h3, h4⟩
  simp only [SourceArtifactObject.load, readString, readFileTags, h1]

end Sharing

/-- C14 (structural sharing survives the round trip).  Let two source artifacts be
stored one after the other through one pool, and loaded through a pool whose object
table is in step with the writer's (as two fresh pools are).  Then both loads succeed
and give back file path and file tags; the two loaded `properties` pointers are the same
address exactly when the two stored pointers were the same address; and each loaded
pointer leads to a property map equal to the one stored. -/
theorem sourceArtifact_sharing (heap : Nat → PropertyMapInternal)
    (a1 a2 : SourceArtifactObject) (table : List String) (W L : List Nat)
    (H : List PropertyMapInternal) (rest : List StreamItem)
    (hstep : InStep heap W L H) :
    ∃ b1 lp1 b2 lp2,
      SourceArtifactObject.load
          ⟨⟨(a2.store heap (a1.store heap ⟨⟨[], table⟩, W⟩)).pool.stream ++ rest, table⟩,
            L, H⟩ = some (b1, lp1) ∧
      SourceArtifactObject.load lp1 = some (b2, lp2) ∧
      lp2.pool.stream = rest ∧
      b1.absoluteFilePath = a1.absoluteFilePath ∧ b1.fileTags = a1.fileTags ∧
      b2.absoluteFilePath = a2.absoluteFilePath ∧ b2.fileTags = a2.fileTags ∧
      (b1.properties = b2.properties ↔ a1.properties = a2.properties) ∧
      lp2.heap[b1.properties]? = some (heap a1.properties) ∧
      lp2.heap[b2.properties]? = some (heap a2.properties) := by
  obtain ⟨b1, L1, H1, hl1, hs1, _, i1, hi1W, hi1L⟩ :=
    artifact_load_items heap W L H hstep a1 table
      (StreamItem.string a2.absoluteFilePath :: StreamItem.fileTags a2.fileTags ::
        (objectItems heap (objectTable W a1.properties) a2.properties ++ rest))
  obtain ⟨b2, L2, H2, hl2, hs2, hp2, i2, hi2W, hi2L⟩ :=
    artifact_load_items heap (objectTable W a1.properties) L1 H1 hs1 a2 table rest
  refine ⟨⟨a1.absoluteFilePath, a1.fileTags, b1⟩, _, ⟨a2.absoluteFilePath, a2.fileTags, b2⟩,
    _, ?_, hl2, rfl, rfl, rfl, rfl, rfl, ?_, ?_, ?_⟩
  · rw [artifact_store_mk, artifact_store_mk]
    simp only [List.nil_append, List.cons_append, List.append_assoc]
    exact hl1
  · have hi1W2 := getElem?_of_initial_segment (sublist_objectTable (objectTable W a1.properties)
      a2.properties) i1 _ hi1W
    have hi1L2 := getElem?_of_initial_segment hp2 i1 _ hi1L
    obtain ⟨_, hW2, hL2, _, _⟩ := hs2
    constructor
    · intro hb
      have hb : b1 = b2 := hb
      have hi : i1 = i2 :=
        nodup_getElem?_inj hL2 (hi1L2.trans (congrArg some hb)) hi2L
      rw [hi, hi2W] at hi1W2
      exact (Option.some.inj hi1W2).symm
    · intro ha
      have hi : i1 = i2 :=
        nodup_getElem?_inj hW2 (hi1W2.trans (congrArg some ha)) hi2W
      rw [hi, hi2L] at hi1L2
      exact (Option.some.inj hi1L2).symm
  · exact hs2.2.2.2.2 i1 _ _
      (getElem?_of_initial_segment (sublist_objectTable (objectTable W a1.properties) a2.properties)
        i1 _ hi1W) (getElem?_of_initial_segment hp2 i1 _ hi1L)
  · exact hs2.2.2.2.2 i2 _ _ hi2W hi2L

theorem inStep_nil (heap : Nat → PropertyMapInternal) : InStep heap [] [] [] := by
  refine ⟨rfl, List.nodup_nil, List.nodup_nil, ?_, ?_⟩
  · intro b hb
    cases hb
  · intro i a b ha
    simp at ha

/-- Witness for C14, with two fresh pools: two artifacts that share the map at address 7
load with one and the same pointer, two artifacts with the maps at 7 and 8 load with two
different pointers. -/
theorem sourceArtifact_sharing_witness :
    InStep exampleHeap [] [] [] ∧
    (∃ b1 lp1 b2 lp2,
      SourceArtifactObject.load
          ⟨⟨(sharingArtifacts.2.store exampleHeap
            (sharingArtifacts.1.store exampleHeap ⟨⟨[], []⟩, []⟩)).pool.stream ++ [], []⟩,
            [], []⟩ = some (b1, lp1) ∧
      SourceArtifactObject.load lp1 = some (b2, lp2) ∧
      b1.properties = b2.properties) ∧
    ∃ b1 lp1 b2 lp2,
      SourceArtifactObject.load
          ⟨⟨(distinctArtifacts.2.store exampleHeap
            (distinctArtifacts.1.store exampleHeap ⟨⟨[], []⟩, []⟩)).pool.stream ++ [], []⟩,
            [], []⟩ = some (b1, lp1) ∧
      SourceArtifactObject.load lp1 = some (b2, lp2) ∧
      b1.properties ≠ b2.properties := by
  refine ⟨inStep_nil _, ?_, ?_⟩
  · obtain ⟨b1, lp1, b2, lp2, h1, h2, _, _, _, _, _, hiff, _⟩ :=
      sourceArtifact_sharing exampleHeap sharingArtifacts.1 sharingArtifacts.2 [] [] [] [] []
        (inStep_nil _)
    exact ⟨b1, lp1, b2, lp2, h1, h2, hiff.2 rfl⟩
  · obtain ⟨b1, lp1, b2, lp2, h1, h2, _, _, _, _, _, hiff, _⟩ :=
      sourceArtifact_sharing exampleHeap distinctArtifacts.1 distinctArtifacts.2 [] [] [] []
        [] (inStep_nil _)
    exact ⟨b1, lp1, b2, lp2, h1, h2, fun h => absurd (hiff.1 h) (by decide)⟩

/-! ## File lists of a product -/

section ProductFiles

theorem foldl_allFiles (groups : List ResolvedGroup) (acc : List SourceArtifact) :
    groups.foldl (fun lst group => lst ++ group.allFiles) acc =
      acc ++ (groups.map ResolvedGroup.allFiles).flatten := by
  induction groups generalizing acc with
  | nil => simp
  | cons g rest ih =>
    rw [List.foldl_cons, ih]
    simp

theorem foldl_allEnabledFiles (groups : List ResolvedGroup) (acc : List SourceArtifact) :
    groups.foldl (fun lst group => if group.enabled then lst ++ group.allFiles else lst) acc =
      acc ++ ((groups.filter fun g => g.enabled).map ResolvedGroup.allFiles).flatten := by
  induction groups generalizing acc with
  | nil => simp
  | cons g rest ih =>
    rw [List.foldl_cons, ih]
    cases hg : g.enabled
    · simp [hg]
    · simp [hg]

theorem join_filter_sublist (groups : List ResolvedGroup) :
    (((groups.filter fun g => g.enabled).map ResolvedGroup.allFiles).flatten).Sublist
      ((groups.map ResolvedGroup.allFiles).flatten) := by
  induction groups with
  | nil => simp
  | cons g rest ih =>
    cases hg : g.enabled
    · rw [List.filter_cons_of_neg (by simp [hg]), List.map_cons, List.flatten_cons]
      exact List.Sublist.trans ih (List.sublist_append_right _ _)
    · rw [List.filter_cons_of_pos (by simp [hg]), List.map_cons, List.map_cons,
        List.flatten_cons, List.flatten_cons]
      exact List.Sublist.append_left ih _

end ProductFiles

/-- C16 (file lists of a product).  `allFiles()` is the concatenation, in group order, of
`allFiles()` of the groups; `allEnabledFiles()` is `allFiles()` of the product with its
disabled groups removed; so the two are equal when every group is enabled,
`allEnabledFiles()` is empty when no group is enabled, and it always is a subsequence of
`allFiles()`. -/
theorem product_allEnabledFiles (self : ResolvedProduct) :
    self.allFiles = (self.groups.map ResolvedGroup.allFiles).flatten ∧
    self.allEnabledFiles =
      ResolvedProduct.allFiles
        { self with groups := self.groups.filter fun g => g.enabled } ∧
    ((∀ g ∈ self.groups, g.enabled = true) → self.allEnabledFiles = self.allFiles) ∧
    ((∀ g ∈ self.groups, g.enabled = false) → self.allEnabledFiles = []) ∧
    self.allEnabledFiles.Sublist self.allFiles := by
  have h1 : self.allFiles = (self.groups.map ResolvedGroup.allFiles).flatten := by
    rw [ResolvedProduct.allFiles, foldl_allFiles, List.nil_append]
  have h2 : self.allEnabledFiles =
      ((self.groups.filter fun g => g.enabled).map ResolvedGroup.allFiles).flatten := by
    rw [ResolvedProduct.allEnabledFiles, foldl_allEnabledFiles, List.nil_append]
  refine ⟨h1, ?_, ?_, ?_, ?_⟩
  · rw [h2, ResolvedProduct.allFiles, foldl_allFiles, List.nil_append]
  · intro h
    rw [h1, h2, List.filter_eq_self.2 (fun g hg => h g hg)]
  · intro h
    rw [h2, List.filter_eq_nil_iff.2 (fun g hg => by rw [h g hg]; simp)]
    rfl
  · rw [h1, h2]
    exact join_filter_sublist self.groups

/-- Witness for C16: with one of three groups disabled, the enabled files are the four
files of the other two groups, out of five in all; and a product without a disabled
group has the same list twice. -/
theorem product_allEnabledFiles_witness :
    exampleFilesProduct.allEnabledFiles.length = 4 ∧ exampleFilesProduct.allFiles.length = 5 ∧
    exampleFilesProduct.allEnabledFiles.Sublist exampleFilesProduct.allFiles ∧
    bareProduct.allEnabledFiles = bareProduct.allFiles :=
  ⟨rfl, rfl, (product_allEnabledFiles exampleFilesProduct).2.2.2.2,
    (product_allEnabledFiles bareProduct).2.2.1 (by intro g hg; cases hg)⟩

/-! ## The state of a job -/

/-- C17 (job cancel transitions), over `cancel()` and `handleFinished()` as the spec
describes them.  `cancel()` in state Running gives Canceling; `cancel()` in state
Canceling or Finished leaves the state as it is; a transition that ends in Canceling
from another state starts in Running; and no transition leaves Finished. -/
theorem job_cancel_transitions :
    AbstractJob.cancel AbstractJob.State.StateRunning = AbstractJob.State.StateCanceling ∧
    AbstractJob.cancel AbstractJob.State.StateCanceling = AbstractJob.State.StateCanceling ∧
    AbstractJob.cancel AbstractJob.State.StateFinished = AbstractJob.State.StateFinished ∧
    (∀ s t, AbstractJob.step s t = AbstractJob.State.StateCanceling →
      s ≠ AbstractJob.State.StateCanceling → s = AbstractJob.State.StateRunning) ∧
    ∀ t, AbstractJob.step AbstractJob.State.StateFinished t =
      AbstractJob.State.StateFinished := by
  refine ⟨rfl, rfl, rfl, ?_, ?_⟩
  · intro s t
    cases s <;> cases t <;> simp [AbstractJob.step, AbstractJob.cancel,
      AbstractJob.handleFinished]
  · intro t
    cases t <;> rfl

/-- Witness for C17: the one transition into Canceling, `cancel()` on a running job. -/
theorem job_cancel_transitions_witness :
    AbstractJob.step AbstractJob.State.StateRunning AbstractJob.Transition.cancel =
      AbstractJob.State.StateCanceling ∧
    AbstractJob.State.StateRunning = AbstractJob.State.StateRunning :=
  ⟨rfl, job_cancel_transitions.2.2.2.1 AbstractJob.State.StateRunning
    AbstractJob.Transition.cancel rfl (by decide)⟩

/-! ## One level of the wildcard expander -/

section Levels

open SourceWildCards

/-- One level of the recursive `expandPatterns`, for a non-empty `parts`: the state after
the `**` loop gives the recursion flag, the name filter and the remaining parts; the
level is a directory level when parts remain. -/
theorem expandParts_level (fs : FileSystem) (group : ResolvedGroup) (fuel : Nat)
    (first : String) (others : List String) (baseDir : String) (result : List String) :
    expandParts fs group (fuel + 1) (first :: others) baseDir result =
      expandEntries fs (!(skipStars first others false).2.2.isEmpty)
        (fun filePath result =>
          expandParts fs group fuel (skipStars first others false).2.2 filePath result)
        (fs.dirIterator baseDir [(skipStars first others false).2.1]
          (iteratorFilters fs (!(skipStars first others false).2.2.isEmpty)
            (skipStars first others false).2.1)
          (skipStars first others false).1)
        result :=
  rfl

theorem skipStars_eq (first : String) (others : List String) (recursive : Bool) :
    skipStars first others recursive =
      match (first :: others).dropWhile fun p => decide (p = "**") with
      | [] => (true, "*", [])
      | p :: rest => (recursive || decide (first = "**"), p, rest) := by
  induction others generalizing first recursive with
  | nil =>
    unfold skipStars
    by_cases h : first = "**"
    · simp [h]
    · simp [h]
  | cons next rest ih =>
    unfold skipStars
    by_cases h : first = "**"
    · rw [if_pos h, ih next true]
      simp [h]
    · simp [h]

theorem iteratorFilters_eq (fs : FileSystem) (isDir : Bool) (filePattern : String) :
    iteratorFilters fs isDir filePattern =
      ⟨isDir, !isDir, isDir && !fs.isPattern filePattern,
        decide (filePattern ≠ ".." ∧ filePattern ≠ ".")⟩ := by
  unfold iteratorFilters
  by_cases hc : filePattern ≠ ".." ∧ filePattern ≠ "."
  · rw [if_pos hc, decide_eq_true hc]
    cases isDir <;> cases fs.isPattern filePattern <;> rfl
  · rw [if_neg hc, decide_eq_false hc]
    cases isDir <;> cases fs.isPattern filePattern <;> rfl

end Levels

/-- C19 (hidden entries, as the code has it).  At a level of `expandPatterns` the
iterator is asked for hidden entries exactly when further segments remain (a directory
level) and the current segment is a literal, not a pattern.  At the last segment, the
file level, hidden entries are never asked for, literal segment or not; and a pattern
segment never gets hidden entries.  The entries `.` and `..` are left out unless the
current segment is `.` or `..`.  Directories are listed at a directory level and files at
the file level. -/
theorem iteratorFilters_spec (fs : FileSystem) (group : ResolvedGroup) (fuel : Nat)
    (first : String) (others : List String) (baseDir : String) (result : List String)
    (isDir : Bool) (filePattern : String) :
    ((SourceWildCards.iteratorFilters fs isDir filePattern).hidden = true ↔
      (isDir = true ∧ fs.isPattern filePattern = false)) ∧
    (SourceWildCards.iteratorFilters fs false filePattern).hidden = false ∧
    (fs.isPattern filePattern = true →
      (SourceWildCards.iteratorFilters fs isDir filePattern).hidden = false) ∧
    ((SourceWildCards.iteratorFilters fs isDir filePattern).noDotAndDotDot = false ↔
      (filePattern = ".." ∨ filePattern = ".")) ∧
    (SourceWildCards.iteratorFilters fs isDir filePattern).dirs = isDir ∧
    (SourceWildCards.iteratorFilters fs isDir filePattern).files = !isDir ∧
    SourceWildCards.expandParts fs group (fuel + 1) (first :: others) baseDir result =
      SourceWildCards.expandEntries fs
        (!(SourceWildCards.skipStars first others false).2.2.isEmpty)
        (fun filePath result =>
          SourceWildCards.expandParts fs group fuel
            (SourceWildCards.skipStars first others false).2.2 filePath result)
        (fs.dirIterator baseDir [(SourceWildCards.skipStars first others false).2.1]
          (SourceWildCards.iteratorFilters fs
            (!(SourceWildCards.skipStars first others false).2.2.isEmpty)
            (SourceWildCards.skipStars first others false).2.1)
          (SourceWildCards.skipStars first others false).1)
        result := by
  rw [iteratorFilters_eq, iteratorFilters_eq]
  refine ⟨?_, ?_, ?_, ?_, rfl, rfl, rfl⟩
  · simp
  · simp
  · intro hp
    simp [hp]
  · simp only [decide_eq_false_iff_not, not_and_or, not_not]

/-- Witness for C19: the literal `.config` before further segments is looked up with
hidden entries, the pattern `*` before further segments is not, and `..` is iterated
with the dot entries. -/
theorem iteratorFilters_spec_witness :
    (SourceWildCards.iteratorFilters dotFileSystem true ".config").hidden = true ∧
    (SourceWildCards.iteratorFilters dotFileSystem true "*").hidden = false ∧
    (SourceWildCards.iteratorFilters dotFileSystem true "..").noDotAndDotDot = false :=
  ⟨(iteratorFilters_spec dotFileSystem scenarioGroup 0 "" [] "" [] true ".config").1.2
      ⟨rfl, by decide⟩,
    (iteratorFilters_spec dotFileSystem scenarioGroup 0 "" [] "" [] true "*").2.2.1
      (by decide),
    (iteratorFilters_spec dotFileSystem scenarioGroup 0 "" [] "" [] true "..").2.2.2.1.2
      (Or.inl rfl)⟩

/-- C19, the claim as stated fails: `.hidden.cpp` is a literal, and as the last segment
of a pattern it is looked up without hidden entries, so the file `/p/.hidden.cpp` is not
found; the same kind of name before a further segment, `.config`, is found. -/
theorem hidden_file_not_matched :
    dotFileSystem.isPattern ".hidden.cpp" = false ∧
    (SourceWildCards.iteratorFilters dotFileSystem false ".hidden.cpp").hidden = false ∧
    ("/p/.hidden.cpp", false) ∈ dotTree ∧
    (plainWildCards [".hidden.cpp"]).expandPatterns dotFileSystem scenarioGroup "/p" = [] ∧
    (plainWildCards [".config/settings.cpp"]).expandPatterns dotFileSystem scenarioGroup
      "/p" = ["/p/.config/settings.cpp"] := by
  decide

/-- C20 (leading `**`).  For a segment list `first :: others` handed to the recursive
`expandPatterns`: the recursion flag is set exactly when `first` is `**`; the name filter
is the first segment that is not `**` and the remaining segments are those after it, or
the filter is `*` and nothing remains when every segment is `**`; and the level is a
directory level exactly when segments remain. -/
theorem skipStars_spec (fs : FileSystem) (group : ResolvedGroup) (fuel : Nat)
    (first : String) (others : List String) (baseDir : String) (result : List String) :
    ((SourceWildCards.skipStars first others false).1 = true ↔ first = "**") ∧
    (match (first :: others).dropWhile fun p => decide (p = "**") with
      | [] =>
        (SourceWildCards.skipStars first others false).2.1 = "*" ∧
          (SourceWildCards.skipStars first others false).2.2 = []
      | p :: rest =>
        (SourceWildCards.skipStars first others false).2.1 = p ∧
          (SourceWildCards.skipStars first others false).2.2 = rest) ∧
    SourceWildCards.expandParts fs group (fuel + 1) (first :: others) baseDir result =
      SourceWildCards.expandEntries fs
        (!(SourceWildCards.skipStars first others false).2.2.isEmpty)
        (fun filePath result =>
          SourceWildCards.expandParts fs group fuel
            (SourceWildCards.skipStars first others false).2.2 filePath result)
        (fs.dirIterator baseDir [(SourceWildCards.skipStars first others false).2.1]
          (SourceWildCards.iteratorFilters fs
            (!(SourceWildCards.skipStars first others false).2.2.isEmpty)
            (SourceWildCards.skipStars first others false).2.1)
          (SourceWildCards.skipStars first others false).1)
        result := by
  refine ⟨?_, ?_, rfl⟩
  · rw [skipStars_eq]
    by_cases h : first = "**"
    · simp only [h, iff_true]
      split <;> simp
    · simp only [h, iff_false]
      rw [List.dropWhile_cons_of_neg (by simp [h])]
      simp [h]
  · rw [skipStars_eq]
    split <;> simp

/-- The three examples of C20. -/
theorem skipStars_examples :
    SourceWildCards.skipStars "**" [] false = (true, "*", []) ∧
    SourceWildCards.skipStars "**" ["**", "a", "b"] false = (true, "a", ["b"]) ∧
    SourceWildCards.skipStars "a" ["**"] false = (false, "a", ["**"]) ∧
    ((SourceWildCards.skipStars "**" ["**", "a", "b"] false).1 = true ↔ "**" = "**") :=
  ⟨by decide, by decide, by decide,
    (skipStars_spec scenarioFileSystem scenarioGroup 0 "**" ["**", "a", "b"] "" []).1⟩

/-! ## The recursion flag of the wildcard expander -/

section RecursionFlag

open SourceWildCards

theorem skipStars_of_ne (first : String) (others : List String) (recursive : Bool)
    (h : first ≠ "**") : skipStars first others recursive = (recursive, first, others) := by
  cases others with
  | nil => simp [skipStars, h]
  | cons next rest => simp [skipStars, h]

theorem skipStars_star_cons (next : String) (rest : List String) (recursive : Bool) :
    skipStars "**" (next :: rest) recursive = skipStars next rest true := by
  simp [skipStars]

end RecursionFlag

/-- C21 (the recursion flag, as the code has it).  The flag `recursive` belongs to one
level of `expandPatterns`.  For segments `**`, `a`, `b` and so on, with `a` and `b` no
`**`: the level of `a` iterates over all subdirectories of the base directory, and for
every directory matched there the level of `b` iterates over that directory alone,
without its subdirectories. -/
theorem expandParts_flag_per_level (fs : FileSystem) (group : ResolvedGroup) (fuel : Nat)
    (a b : String) (rest : List String) (baseDir : String) (result : List String)
    (ha : a ≠ "**") (hb : b ≠ "**") :
    SourceWildCards.expandParts fs group (fuel + 2) ("**" :: a :: b :: rest) baseDir result =
      SourceWildCards.expandEntries fs true
        (fun dir r =>
          SourceWildCards.expandEntries fs (!rest.isEmpty)
            (fun filePath r2 => SourceWildCards.expandParts fs group fuel rest filePath r2)
            (fs.dirIterator dir [b] (SourceWildCards.iteratorFilters fs (!rest.isEmpty) b)
              false) r)
        (fs.dirIterator baseDir [a] (SourceWildCards.iteratorFilters fs true a) true)
        result := by
  rw [expandParts_level, skipStars_star_cons, skipStars_of_ne a (b :: rest) true ha]
  simp only [List.isEmpty_cons, Bool.not_false]
  congr 1
  funext dir r
  rw [expandParts_level, skipStars_of_ne b rest false hb]

/-- Witness for C21: the pattern `**/a/b.cpp`. -/
theorem expandParts_flag_per_level_witness :
    SourceWildCards.expandParts nestedFileSystem scenarioGroup 2 ["**", "a", "b.cpp"] "/p" [] =
      SourceWildCards.expandEntries nestedFileSystem true
        (fun dir r =>
          SourceWildCards.expandEntries nestedFileSystem false
            (fun filePath r2 =>
              SourceWildCards.expandParts nestedFileSystem scenarioGroup 0 [] filePath r2)
            (nestedFileSystem.dirIterator dir ["b.cpp"]
              (SourceWildCards.iteratorFilters nestedFileSystem false "b.cpp") false) r)
        (nestedFileSystem.dirIterator "/p" ["a"]
          (SourceWildCards.iteratorFilters nestedFileSystem true "a") true) [] :=
  expandParts_flag_per_level nestedFileSystem scenarioGroup 0 "a" "b.cpp" [] "/p" []
    (by decide) (by decide)

/-- C21, the claim as stated fails: over a tree with `a/b.cpp` and `a/x/b.cpp`, the
pattern `**/a/b.cpp` finds `a/b.cpp` and does not find `a/x/b.cpp`, which lies in a
subdirectory of the matched directory `a`; the pattern `**/b.cpp` finds both. -/
theorem nested_file_not_matched :
    ("/p/a/x/b.cpp", false) ∈ nestedTree ∧
    (plainWildCards ["**/a/b.cpp"]).expandPatterns nestedFileSystem scenarioGroup "/p" =
      ["/p/a/b.cpp"] ∧
    "/p/a/x/b.cpp" ∉
      (plainWildCards ["**/a/b.cpp"]).expandPatterns nestedFileSystem scenarioGroup "/p" ∧
    (plainWildCards ["**/b.cpp"]).expandPatterns nestedFileSystem scenarioGroup "/p" =
      ["/p/a/b.cpp", "/p/a/x/b.cpp"] := by
  decide

/-! ## The project id -/

/-- C22 (`deriveId` and `deriveBuildDirectory`).  The id is the string value of `profile`,
a `-`, and the string value of `buildVariant`, both taken from the map under `qbs`; a
key that is absent gives the empty string; two configurations with the same two strings
have the same id; and the build directory is the build root, a `/`, and the id. -/
theorem deriveId_spec (config c1 c2 : QVariantMap) (buildRoot id : String) :
    ResolvedProject.deriveId config =
      ((config.value "qbs").toMap.value "profile").toString ++ "-" ++
        ((config.value "qbs").toMap.value "buildVariant").toString ∧
    (config.lookup "qbs" = none → ResolvedProject.deriveId config = "-") ∧
    (∀ (m : QVariantMap) (key : String), m.lookup key = none → (m.value key).toString = "") ∧
    (((c1.value "qbs").toMap.value "profile").toString =
        ((c2.value "qbs").toMap.value "profile").toString →
      ((c1.value "qbs").toMap.value "buildVariant").toString =
        ((c2.value "qbs").toMap.value "buildVariant").toString →
      ResolvedProject.deriveId c1 = ResolvedProject.deriveId c2) ∧
    ResolvedProject.deriveBuildDirectory buildRoot id = buildRoot ++ "/" ++ id := by
  refine ⟨rfl, ?_, ?_, ?_, rfl⟩
  · intro h
    simp only [ResolvedProject.deriveId, QVariantMap.value, h]
    rfl
  · intro m key h
    simp only [QVariantMap.value, h]
    rfl
  · intro h1 h2
    simp only [ResolvedProject.deriveId]
    rw [h1, h2]

/-- Witness for C22: two configurations that differ in everything but profile and build
variant have the id `gcc-debug`, and the empty configuration has the id `-`. -/
theorem deriveId_spec_witness :
    ResolvedProject.deriveId (exampleConfiguration "gcc" "debug") = "gcc-debug" ∧
    ResolvedProject.deriveId (exampleConfiguration "gcc" "debug") =
      ResolvedProject.deriveId (exampleConfigurationMore "gcc" "debug") ∧
    ResolvedProject.deriveId ∅ = "-" ∧
    ResolvedProject.deriveBuildDirectory "/build" "gcc-debug" = "/build/gcc-debug" :=
  ⟨by decide,
    (deriveId_spec ∅ (exampleConfiguration "gcc" "debug")
      (exampleConfigurationMore "gcc" "debug") "" "").2.2.2.1 (by decide) (by decide),
    (deriveId_spec ∅ ∅ ∅ "" "").2.1 rfl, by decide⟩

/-! ## Lists under `load` -/

/-- C25 (binding order of `RuleArtifact` under `store` and `load`).  Loading what `store`
wrote for `x` gives the bindings of `x` in reverse order, next to the file name and file
tags of `x`; storing and loading that result once more gives `x` back; and one
store-then-load gives `x` back exactly when the bindings of `x` read the same in both
directions. -/
theorem rule_bindings_reversed (x : RuleArtifact) (table : List String)
    (rest : List StreamItem) :
    RuleArtifact.load ⟨(x.store ⟨[], table⟩).stream ++ rest, table⟩ =
      some (⟨x.fileName, x.fileTags, x.bindings.reverse⟩, ⟨rest, table⟩) ∧
    RuleArtifact.load
        ⟨((⟨x.fileName, x.fileTags, x.bindings.reverse⟩ : RuleArtifact).store
          ⟨[], table⟩).stream ++ rest, table⟩ = some (x, ⟨rest, table⟩) ∧
    (RuleArtifact.load ⟨(x.store ⟨[], table⟩).stream ++ rest, table⟩ =
        some (x, ⟨rest, table⟩) ↔ x.bindings.reverse = x.bindings) := by
  refine ⟨rule_load_store_reverse x table rest, ?_, ?_⟩
  · rw [rule_load_store_reverse]
    simp
  · rw [rule_load_store_reverse]
    constructor
    · intro h
      have h1 := congrArg (fun r => r.1.bindings) (Option.some.inj h)
      exact h1
    · intro h
      rw [h]

/-- Witness for C25: the two bindings of the example come back in the other order, which
is not the order stored. -/
theorem rule_bindings_reversed_witness :
    (RuleArtifact.load ⟨(exampleRuleArtifact.store ⟨[], []⟩).stream ++ [], []⟩).map
        (fun r => r.1.bindings) = some exampleRuleArtifact.bindings.reverse ∧
    RuleArtifact.load ⟨(exampleRuleArtifact.store ⟨[], []⟩).stream ++ [], []⟩ ≠
      some (exampleRuleArtifact, ⟨[], []⟩) :=
  ⟨by rw [(rule_bindings_reversed exampleRuleArtifact [] []).1]; rfl,
    fun h => absurd ((rule_bindings_reversed exampleRuleArtifact [] []).2.2.1 h) (by decide)⟩

/-- C26 (`RescuableArtifactData::load` appends).  Loading what `store` wrote for `x` into
a record `self` gives the children of `self` followed by the children of `x`, with the
time stamp and the commands of `x`; the stored children list is reproduced exactly when
`self` had no children.  `ResolvedProject::load` gives the stored products whatever
products the project had, and `RuleArtifact::load` as many bindings as were stored. -/
theorem rescue_load_appends {Product : Type} (self x : RescuableArtifactData)
    (table : List String) (rest : List StreamItem) (codec : ObjectCodec Product)
    (project y : ResolvedProject Product) (rule : RuleArtifact) :
    RescuableArtifactData.load self ⟨(x.store ⟨[], table⟩).stream ++ rest, table⟩ =
      some (⟨x.timeStamp, self.children ++ x.children, x.commands⟩,
        ⟨rest, (x.store ⟨[], table⟩).stringStorage⟩) ∧
    (self.children ++ x.children).length = self.children.length + x.children.length ∧
    (self.children ++ x.children = x.children ↔ self.children = []) ∧
    (codec.Inverse →
      ResolvedProject.load codec project
          ⟨(ResolvedProject.store codec y ⟨[], table⟩).stream ++ rest, table⟩ =
        some (⟨y.location, y.id, project.buildConfiguration, y.platformEnvironment,
            y.products⟩,
          ⟨rest, (ResolvedProject.store codec y ⟨[], table⟩).stringStorage⟩)) ∧
    (RuleArtifact.load ⟨(rule.store ⟨[], table⟩).stream ++ rest, table⟩).map
        (fun r => r.1.bindings.length) = some rule.bindings.length := by
  refine ⟨rescue_load_store_append self x table rest, List.length_append _ _, ?_, ?_, ?_⟩
  · constructor
    · intro h
      exact List.append_left_eq_self.1 h
    · intro h
      rw [h, List.nil_append]
  · intro hc
    exact project_load_store_core codec hc project y table rest
  · rw [rule_load_store_reverse]
    simp

/-- Witness for C26: a record with one child, loading the record with two children, ends
with three; a project with two products, loading a project with two products, ends with
two. -/
theorem rescue_load_appends_witness :
    (RescuableArtifactData.load occupiedRescueData
        ⟨(exampleRescueData.store ⟨[], []⟩).stream ++ [], []⟩).map
          (fun r => (r.1.children.length, r.1.timeStamp, r.1.commands)) =
      some (3, exampleRescueData.timeStamp, exampleRescueData.commands) ∧
    stringCodec.Inverse ∧
    (ResolvedProject.load stringCodec exampleProject
        ⟨(ResolvedProject.store stringCodec exampleProject ⟨[], []⟩).stream ++ [], []⟩).map
          (fun r => r.1.products.length) = some 2 :=
  ⟨by rw [(rescue_load_appends occupiedRescueData exampleRescueData [] [] stringCodec
        exampleProject exampleProject exampleRuleArtifact).1]; rfl,
    stringCodec_inverse,
    by rw [(rescue_load_appends occupiedRescueData exampleRescueData [] [] stringCodec
        exampleProject exampleProject exampleRuleArtifact).2.2.2.1 stringCodec_inverse]; rfl⟩

/-! ## Termination of `topSortModules` -/

section Termination

variable (modules : List ResolvedModule) (moduleChildren : Nat → List Nat)

/-- The loop has no result when the recursive call for the children of one named module
of the list has none. -/
theorem topSortLoop_eq_none
    (recurse : List Nat → List String → Option (List Nat × List String))
    (ms : List Nat) (m : Nat) (hm : m ∈ ms) (hname : moduleName modules m ≠ none)
    (hrec : ∀ seen, recurse (moduleChildren m) seen = none)
    (state : List Nat × List String) :
    topSortLoop modules moduleChildren recurse ms state = none := by
  induction ms generalizing state with
  | nil => cases hm
  | cons a rest ih =>
    obtain ⟨result, seen⟩ := state
    rw [topSortLoop]
    cases hn : moduleName modules a with
    | none =>
      have hne : m ≠ a := fun e => hname (by rw [e, hn])
      rcases List.mem_cons.1 hm with e | hm1
      · exact absurd e hne
      · exact ih hm1 _
    | some name =>
      cases hr : recurse (moduleChildren a) seen with
      | none => rfl
      | some r =>
        obtain ⟨sub, seen1⟩ := r
        rcases List.mem_cons.1 hm with e | hm1
        · rw [← e, hrec seen] at hr
          cases hr
        · by_cases hmem : name ∈ seen1
          · simp only [hmem, if_true]
            exact ih hm1 _
          · simp only [hmem, if_false]
            exact ih hm1 _

/-- On a set of named modules in which every module has a child in the set, no depth of
recursion gives a result, whatever the seen-set holds. -/
theorem topSortModules_eq_none (C : Nat → Prop)
    (hC : ∀ m, C m → moduleName modules m ≠ none ∧ ∃ d ∈ moduleChildren m, C d)
    (fuel : Nat) (ms : List Nat) (seen : List String) (hms : ∃ m ∈ ms, C m) :
    topSortModules modules moduleChildren fuel ms seen = none := by
  induction fuel generalizing ms seen with
  | zero => rfl
  | succ fuel ih =>
    obtain ⟨m, hm, hCm⟩ := hms
    obtain ⟨hname, d, hd, hCd⟩ := hC m hCm
    rw [topSortModules]
    exact topSortLoop_eq_none modules moduleChildren _ ms m hm hname
      (fun seen1 => ih _ seen1 ⟨d, hd, hCd⟩) _

/-- A children map with all its entries below `n` and no cycle gives a result at every
depth above `n + 1`. -/
theorem topSortModules_isSome_of_acyclic (n : Nat)
    (hvalid : ∀ m, ∀ d ∈ moduleChildren m, m < n ∧ d < n)
    (hacyc : ∀ m, ¬ Relation.TransGen (fun d m => d ∈ moduleChildren m) m m)
    (ms : List Nat) (seen : List String) (fuel : Nat) (hfuel : n + 1 < fuel) :
    ∃ r, topSortModules modules moduleChildren fuel ms seen = some r := by
  obtain ⟨rank, hrank, hbound⟩ :=
    exists_rank moduleChildren n (fun m d hd => (hvalid m d hd).2) hacyc
  obtain ⟨f, rfl⟩ : ∃ f, fuel = f + 1 := ⟨fuel - 1, by omega⟩
  refine topSortModules_isSome modules moduleChildren
    (fun m => if m < n then rank m + 1 else 0) ?_ f ms ?_ seen
  · intro m d hd
    obtain ⟨h1, h2⟩ := hvalid m d hd
    simp only [h1, h2, if_true]
    exact Nat.succ_lt_succ (hrank m d hd)
  · intro m _
    by_cases h : m < n
    · simp only [h, if_true]
      have := hbound m h
      omega
    · simp only [h, if_false]
      omega

end Termination

section GraphFacts

theorem moduleGraph_children_finite (modules : List ResolvedModule)
    (hnn : ∀ M ∈ modules, M.name ≠ none) (g : ModuleGraph)
    (hg : moduleGraph modules = some g) :
    ∀ m, ∀ d ∈ g.moduleChildren m, m < modules.length ∧ d < modules.length := by
  intro m d hd
  have h := dependsOnB_of_dependsOn modules m d
    (moduleGraph_children_dependsOn modules hnn g hg m d hd)
  exact ⟨h.1, h.2.1⟩

theorem moduleGraph_children_acyclic (modules : List ResolvedModule)
    (hnn : ∀ M ∈ modules, M.name ≠ none) (g : ModuleGraph)
    (hg : moduleGraph modules = some g)
    (hacyc : ∀ m, ¬ Relation.TransGen (DependsOn modules) m m) :
    ∀ m, ¬ Relation.TransGen (fun d m => d ∈ g.moduleChildren m) m m := by
  intro m hm
  have h1 : Relation.TransGen (Function.swap (DependsOn modules)) m m :=
    Relation.TransGen.mono
      (fun a b hab => moduleGraph_children_dependsOn modules hnn g hg b a hab) hm
  exact hacyc m (Relation.transGen_swap.1 h1)

theorem exampleChildren_eq :
    ∃ g, moduleGraph exampleModules = some g ∧ exampleChildren = g.moduleChildren := by
  obtain ⟨g, hg⟩ := moduleGraph_isSome exampleModules (by decide) (by decide) (by decide)
  exact ⟨g, hg, by simp [exampleChildren, hg]⟩

theorem cycleChildren_entries : cycleChildren 0 = [1] ∧ cycleChildren 1 = [0] := by
  decide

end GraphFacts

/-- C24 (termination of `topSortModules`).  For a children map with all its entries below
`n` and no cycle, every module list and every seen-set, `topSortModules` returns a result
at every recursion depth above `n + 1`.  The seen-set plays no part in that: on a children
map in which some set of named modules is closed under taking one child (a cycle), the
call for a list holding one of them returns at no depth, whatever the seen-set holds. -/
theorem topSortModules_terminates (heap : List ResolvedModule)
    (moduleChildren : Nat → List Nat) (n : Nat)
    (hvalid : ∀ m, ∀ d ∈ moduleChildren m, m < n ∧ d < n)
    (hacyc : ∀ m, ¬ Relation.TransGen (fun d m => d ∈ moduleChildren m) m m) :
    (∀ (ms : List Nat) (seen : List String) (fuel : Nat), n + 1 < fuel →
      ∃ r, topSortModules heap moduleChildren fuel ms seen = some r) ∧
    ∀ (cyclic : Nat → List Nat) (C : Nat → Prop),
      (∀ m, C m → moduleName heap m ≠ none ∧ ∃ d ∈ cyclic m, C d) →
      ∀ (fuel : Nat) (ms : List Nat) (seen : List String), (∃ m ∈ ms, C m) →
        topSortModules heap cyclic fuel ms seen = none :=
  ⟨fun ms seen fuel hfuel =>
      topSortModules_isSome_of_acyclic heap moduleChildren n hvalid hacyc ms seen fuel hfuel,
    fun cyclic C hC fuel ms seen hms =>
      topSortModules_eq_none heap cyclic C hC fuel ms seen hms⟩

/-- Witness for C24: the children map of `app`, `lib`, `base` meets both hypotheses with
`n = 3`, and the call for `app` returns `base`, `lib`, `app`; on the map of the two
modules `A` and `B` that depend on each other the call for `A` returns at no depth, also
with both names in the seen-set. -/
theorem topSortModules_terminates_witness :
    (∀ (ms : List Nat) (seen : List String) (fuel : Nat), 3 + 1 < fuel →
      ∃ r, topSortModules exampleModules exampleChildren fuel ms seen = some r) ∧
    topSortModules exampleModules exampleChildren 5 [0] [] =
      some ([2, 1, 0], ["app", "lib", "base"]) ∧
    ∀ fuel, topSortModules cycleModules cycleChildren fuel [0] ["A", "B"] = none := by
  obtain ⟨g, hg, he⟩ := exampleChildren_eq
  have hnn : ∀ M ∈ exampleModules, M.name ≠ none := by decide
  have hc : ∀ m, m < 2 → moduleName cycleModules m ≠ none ∧ ∃ d ∈ cycleChildren m, d < 2 := by
    intro m hm
    have h01 : m = 0 ∨ m = 1 := by omega
    rcases h01 with e | e
    · subst e
      exact ⟨by decide, 1, by rw [cycleChildren_entries.1]; simp, by decide⟩
    · subst e
      exact ⟨by decide, 0, by rw [cycleChildren_entries.2]; simp, by decide⟩
  refine ⟨(topSortModules_terminates exampleModules exampleChildren 3 ?_ ?_).1, by decide,
    fun fuel => (topSortModules_terminates cycleModules exampleChildren 3 ?_ ?_).2
      cycleChildren (fun m => m < 2) hc fuel [0] ["A", "B"] ⟨0, by simp, by decide⟩⟩
  · rw [he]
    exact moduleGraph_children_finite exampleModules hnn g hg
  · rw [he]
    exact moduleGraph_children_acyclic exampleModules hnn g hg exampleModules_acyclic
  · rw [he]
    exact moduleGraph_children_finite exampleModules hnn g hg
  · rw [he]
    exact moduleGraph_children_acyclic exampleModules hnn g hg exampleModules_acyclic

/-! ## Completeness of the evaluation order -/

section Duality

theorem addDependencies_dual (mm : QMap Nat) (i : Nat) (deps : List String)
    (g g1 : ModuleGraph) (h : addDependencies mm i deps g = some g1)
    (hdual : ∀ p m, p ∈ g.moduleParents m ↔ m ∈ g.moduleChildren p) :
    ∀ p m, p ∈ g1.moduleParents m ↔ m ∈ g1.moduleChildren p := by
  induction deps generalizing g with
  | nil =>
    simp only [addDependencies, Option.some.injEq] at h
    subst h
    exact hdual
  | cons d rest ih =>
    simp only [addDependencies, QBS_ASSERT] at h
    cases hl : mm.lookup d with
    | none => simp [hl] at h
    | some x =>
      simp only [hl, Option.isSome_some, if_true, Option.some_bind] at h
      refine ih _ h ?_
      intro p m
      simp only [mem_hashAppend, hdual p m]
      constructor
      · rintro (h1 | ⟨h1, h2⟩)
        · exact Or.inl h1
        · exact Or.inr ⟨h2, h1⟩
      · rintro (h1 | ⟨h1, h2⟩)
        · exact Or.inl h1
        · exact Or.inr ⟨h2, h1⟩

theorem addModules_dual (mm : QMap Nat) (l : List (Nat × ResolvedModule))
    (g g1 : ModuleGraph) (h : addModules mm l g = some g1)
    (hdual : ∀ p m, p ∈ g.moduleParents m ↔ m ∈ g.moduleChildren p) :
    ∀ p m, p ∈ g1.moduleParents m ↔ m ∈ g1.moduleChildren p := by
  induction l generalizing g with
  | nil =>
    simp only [addModules, Option.some.injEq] at h
    subst h
    exact hdual
  | cons q rest ih =>
    simp only [addModules] at h
    cases ha : addDependencies mm q.1 q.2.moduleDependencies g with
    | none => simp [ha] at h
    | some g2 =>
      simp only [ha, Option.some_bind] at h
      exact ih _ h (addDependencies_dual mm q.1 _ g g2 ha hdual)

/-- The two tables of `getProcessEnvironment` mirror each other: `p` is a parent of `m`
exactly when `m` is a child of `p`. -/
theorem moduleGraph_dual (modules : List ResolvedModule) (g : ModuleGraph)
    (hg : moduleGraph modules = some g) :
    ∀ p m, p ∈ g.moduleParents m ↔ m ∈ g.moduleChildren p :=
  addModules_dual _ _ _ _ hg (fun p m => by simp [ModuleGraph.empty])

end Duality

section Fresh

variable (modules : List ResolvedModule) (moduleChildren : Nat → List Nat)

theorem freshNames_nil (seen : List String) : FreshNames modules seen [] :=
  ⟨by simp, fun m hm => by cases hm⟩

theorem freshNames_append (seen seen1 : List String) (A B : List Nat)
    (hA : FreshNames modules seen A)
    (hin : ∀ m ∈ A, ∀ s, moduleName modules m = some s → s ∈ seen1)
    (hsub : ∀ s ∈ seen, s ∈ seen1)
    (hB : FreshNames modules seen1 B) : FreshNames modules seen (A ++ B) := by
  refine ⟨?_, ?_⟩
  · rw [List.map_append, List.nodup_append]
    refine ⟨hA.1, hB.1, ?_⟩
    intro x hxa hxb
    obtain ⟨a, ha, hax⟩ := List.mem_map.1 hxa
    obtain ⟨b, hb, hbx⟩ := List.mem_map.1 hxb
    obtain ⟨s, hs, hs1⟩ := hB.2 b hb
    have h1 : moduleName modules a = some s := by rw [hax, ← hbx, hs]
    exact hs1 (hin a ha s h1)
  · intro m hm
    rcases List.mem_append.1 hm with h | h
    · exact hA.2 m h
    · obtain ⟨s, hs, hs1⟩ := hB.2 m h
      exact ⟨s, hs, fun h2 => hs1 (hsub s h2)⟩

theorem topSortLoop_fresh
    (recurse : List Nat → List String → Option (List Nat × List String))
    (hspec : ∀ ms seen r, recurse ms seen = some r →
      TopSortSpec modules moduleChildren ms seen r.1 r.2)
    (hrec : ∀ ms seen r, recurse ms seen = some r → FreshNames modules seen r.1)
    (ms : List Nat) (result : List Nat) (seen : List String) (r : List Nat × List String)
    (h : topSortLoop modules moduleChildren recurse ms (result, seen) = some r) :
    ∃ added, r.1 = result ++ added ∧ FreshNames modules seen added := by
  induction ms generalizing result seen with
  | nil =>
    simp only [topSortLoop, Option.some.injEq] at h
    subst h
    exact ⟨[], by simp, freshNames_nil modules seen⟩
  | cons a rest ih =>
    rw [topSortLoop] at h
    cases hn : moduleName modules a with
    | none =>
      simp only [hn] at h
      exact ih result seen h
    | some name =>
      simp only [hn] at h
      cases hr : recurse (moduleChildren a) seen with
      | none => simp [hr] at h
      | some q =>
        obtain ⟨sub, seen1⟩ := q
        simp only [hr] at h
        have hs := hspec _ _ _ hr
        have hf := hrec _ _ _ hr
        have hin : ∀ m ∈ sub, ∀ s, moduleName modules m = some s → s ∈ seen1 :=
          fun m hm s hms => (hs.seen_iff s).2 (Or.inr ⟨m, hm, hms⟩)
        have hsub : ∀ s ∈ seen, s ∈ seen1 := fun s h1 => (hs.seen_iff s).2 (Or.inl h1)
        by_cases hmem : name ∈ seen1
        · simp only [hmem, if_true] at h
          obtain ⟨added, h1, h2⟩ := ih _ _ h
          refine ⟨sub ++ added, by rw [h1, List.append_assoc], ?_⟩
          exact freshNames_append modules seen seen1 sub added hf hin hsub h2
        · simp only [hmem, if_false] at h
          obtain ⟨added, h1, h2⟩ := ih _ _ h
          refine ⟨(sub ++ [a]) ++ added, by rw [h1]; simp, ?_⟩
          have ha : FreshNames modules seen1 [a] :=
            ⟨by simp, fun m hm => by
              rw [List.mem_singleton.1 hm]
              exact ⟨name, hn, hmem⟩⟩
          have h3 : FreshNames modules seen (sub ++ [a]) :=
            freshNames_append modules seen seen1 sub [a] hf hin hsub ha
          refine freshNames_append modules seen (name :: seen1) (sub ++ [a]) added h3 ?_ ?_ h2
          · intro m hm s hms
            rcases List.mem_append.1 hm with h4 | h4
            · exact List.mem_cons_of_mem _ (hin m h4 s hms)
            · rw [List.mem_singleton.1 h4, hn] at hms
              rw [← Option.some.inj hms]
              exact List.mem_cons_self _ _
          · intro s h4
            exact List.mem_cons_of_mem _ (hsub s h4)

theorem topSortModules_fresh (fuel : Nat) (ms : List Nat) (seen : List String)
    (r : List Nat × List String)
    (h : topSortModules modules moduleChildren fuel ms seen = some r) :
    FreshNames modules seen r.1 := by
  induction fuel generalizing ms seen r with
  | zero => simp [topSortModules] at h
  | succ fuel ih =>
    simp only [topSortModules] at h
    obtain ⟨added, h1, h2⟩ :=
      topSortLoop_fresh modules moduleChildren _
        (fun ms seen r hr => topSortModules_spec modules moduleChildren fuel ms seen r hr)
        (fun ms seen r hr => ih ms seen r hr) ms [] seen r h
    rw [List.nil_append] at h1
    rw [h1]
    exact h2

end Fresh

section Completeness

theorem moduleName_isSome_of_lt (modules : List ResolvedModule)
    (hnn : ∀ M ∈ modules, M.name ≠ none) (m : Nat) (hm : m < modules.length) :
    ∃ s, moduleName modules m = some s := by
  have h1 : modules[m]? = some modules[m] := List.getElem?_eq_getElem hm
  rw [moduleName_of_getElem? modules m _ h1]
  exact Option.ne_none_iff_exists'.1 (hnn _ (List.getElem_mem hm))

theorem lt_of_moduleName (modules : List ResolvedModule) (m : Nat) (s : String)
    (h : moduleName modules m = some s) : m < modules.length := by
  obtain ⟨M, hM, _⟩ := getElem?_of_moduleName modules m s h
  exact (List.getElem?_eq_some.1 hM).1

theorem map_getD_range (modules : List ResolvedModule) :
    (List.range modules.length).map (fun m => modules.getD m default) = modules := by
  apply List.ext_getElem
  · simp
  · intro i h1 h2
    simp only [List.getElem_map, List.getElem_range]
    rw [List.getD_eq_getElem?_getD, List.getElem?_eq_getElem h2]
    rfl

end Completeness

/-- C23 (completeness of the evaluation order).  For a module list whose dependency names
all resolve to a module of the list, whose names are non-null and pairwise distinct, and
whose dependency graph has no cycle, the order that `topSortModules` returns from the
root modules with an empty seen-set, at any fuel above the number of modules, has no
module twice and holds every position of the list: it is a permutation of the positions
`0 .. length - 1`, and the modules at these positions are a permutation of the list. -/
theorem topSortedModules_complete (modules : List ResolvedModule)
    (hres : ∀ M ∈ modules, ∀ s ∈ M.moduleDependencies, ∃ D ∈ modules, D.name = some s)
    (hnn : ∀ M ∈ modules, M.name ≠ none)
    (hnd : (modules.map fun M => M.name).Nodup)
    (hacyc : ∀ m, ¬ Relation.TransGen (DependsOn modules) m m) :
    ∃ g, moduleGraph modules = some g ∧
      ∀ fuel, modules.length < fuel →
        ∃ order, topSortedModules fuel modules g = some order ∧
          order.Nodup ∧ (∀ m, m ∈ order ↔ m < modules.length) ∧
          order.Perm (List.range modules.length) ∧
          (order.map fun m => modules.getD m default).Perm modules := by
  obtain ⟨g, hg⟩ := moduleGraph_isSome modules hres hnn hnd
  refine ⟨g, hg, ?_⟩
  have hfin := moduleGraph_children_finite modules hnn g hg
  have hacyc1 := moduleGraph_children_acyclic modules hnn g hg hacyc
  obtain ⟨rank, hrank, hbound⟩ :=
    exists_rank g.moduleChildren modules.length (fun m d hd => (hfin m d hd).2) hacyc1
  intro fuel hfuel
  obtain ⟨f, rfl⟩ : ∃ f, fuel = f + 1 := ⟨fuel - 1, by omega⟩
  have hroots : ∀ m ∈ rootModules modules g, rank m < f := by
    intro m hm
    have h1 : m < modules.length := List.mem_range.1 (List.mem_filter.1 hm).1
    have h2 := hbound m h1
    omega
  obtain ⟨⟨order, seen1⟩, hr⟩ :=
    topSortModules_isSome modules g.moduleChildren rank hrank f _ hroots []
  have hspec := topSortModules_spec modules g.moduleChildren _ _ _ _ hr
  have hfresh := topSortModules_fresh modules g.moduleChildren _ _ _ _ hr
  have hnodup : order.Nodup := List.Nodup.of_map _ hfresh.1
  have hlt : ∀ m ∈ order, m < modules.length := by
    intro m hm
    obtain ⟨s, hs, _⟩ := hfresh.2 m hm
    exact lt_of_moduleName modules m s hs
  have hnamed : ∀ m, m < modules.length → ∀ s, moduleName modules m = some s →
      s ∈ seen1 → m ∈ order := by
    intro m _ s hs h1
    rcases (hspec.seen_iff s).1 h1 with h2 | ⟨p, hp, h2⟩
    · cases h2
    · rw [moduleName_injective modules hnd m p s hs h2]
      exact hp
  have hroot : ∀ m ∈ rootModules modules g, m ∈ order := by
    intro m hm
    have h1 : m < modules.length := List.mem_range.1 (List.mem_filter.1 hm).1
    obtain ⟨s, hs⟩ := moduleName_isSome_of_lt modules hnn m h1
    exact hnamed m h1 s hs (hspec.covers m hm s hs)
  have hclosed : ∀ m ∈ order, ∀ d ∈ g.moduleChildren m, d ∈ order := by
    intro m hm d hd
    obtain ⟨pre, post, hsplit⟩ := List.append_of_mem hm
    have hfirst := hspec.depsFirst
    simp only [hsplit] at hfirst
    obtain ⟨s, hs⟩ := moduleName_isSome_of_lt modules hnn d (hfin m d hd).2
    rcases DepsFirst_split modules g.moduleChildren pre post m hfirst d hd s hs with
      h1 | ⟨p, hp, h1⟩
    · cases h1
    · rw [hsplit, moduleName_injective modules hnd d p s hs h1]
      exact List.mem_append_left _ hp
  have hall : ∀ k m, m < modules.length → modules.length - rank m ≤ k → m ∈ order := by
    intro k
    induction k with
    | zero =>
      intro m hm hk
      have := hbound m hm
      omega
    | succ k ih =>
      intro m hm hk
      cases hp : g.moduleParents m with
      | nil =>
        refine hroot m (List.mem_filter.2 ⟨List.mem_range.2 hm, ?_⟩)
        rw [hp]
        rfl
      | cons p rest =>
        have h1 : m ∈ g.moduleChildren p :=
          (moduleGraph_dual modules g hg p m).1 (by rw [hp]; exact List.mem_cons_self _ _)
        have h2 := (hfin p m h1).1
        have h3 := hrank p m h1
        have h4 := hbound p h2
        exact hclosed p (ih p h2 (by omega)) m h1
  have hmem : ∀ m, m ∈ order ↔ m < modules.length :=
    fun m => ⟨hlt m, fun hm => hall modules.length m hm (Nat.sub_le _ _)⟩
  have hperm : order.Perm (List.range modules.length) :=
    (List.perm_ext_iff_of_nodup hnodup (List.nodup_range _)).2
      (fun m => by rw [hmem m, List.mem_range])
  refine ⟨order, by simp [topSortedModules, hr], hnodup, hmem, hperm, ?_⟩
  have h5 := List.Perm.map (fun m => modules.getD m default) hperm
  rw [map_getD_range] at h5
  exact h5

/-- Witness for C23: the three modules `app`, `lib`, `base` meet every hypothesis, and
their order is `base`, `lib`, `app`. -/
theorem topSortedModules_complete_witness :
    (∃ g, moduleGraph exampleModules = some g ∧
      ∀ fuel, exampleModules.length < fuel →
        ∃ order, topSortedModules fuel exampleModules g = some order ∧
          order.Nodup ∧ (∀ m, m ∈ order ↔ m < exampleModules.length) ∧
          order.Perm (List.range exampleModules.length) ∧
          (order.map fun m => exampleModules.getD m default).Perm exampleModules) ∧
    (moduleGraph exampleModules).bind (topSortedModules 4 exampleModules) =
      some [2, 1, 0] :=
  ⟨topSortedModules_complete exampleModules (by decide) (by decide) (by decide)
    exampleModules_acyclic, by decide⟩

/-! ## The fold of the setup scripts over the evaluation order -/

section FoldOrder

/-- For a well-formed module list the evaluation order exists at every fuel above the
number of modules, holds every position once, and lists every module after the modules
it depends on. -/
theorem topSortedModules_order (modules : List ResolvedModule)
    (hres : ∀ M ∈ modules, ∀ s ∈ M.moduleDependencies, ∃ D ∈ modules, D.name = some s)
    (hnn : ∀ M ∈ modules, M.name ≠ none)
    (hnd : (modules.map fun M => M.name).Nodup)
    (hacyc : ∀ m, ¬ Relation.TransGen (DependsOn modules) m m) :
    ∃ g, moduleGraph modules = some g ∧
      ∀ fuel, modules.length < fuel →
        ∃ order, topSortedModules fuel modules g = some order ∧
          order.Perm (List.range modules.length) ∧
          ∀ pre M post, order = pre ++ M :: post →
            ∀ D, DependsOn modules M D → D ∈ pre := by
  obtain ⟨g, hg⟩ := moduleGraph_isSome modules hres hnn hnd
  refine ⟨g, hg, ?_⟩
  have hfin := moduleGraph_children_finite modules hnn g hg
  have hacyc1 := moduleGraph_children_acyclic modules hnn g hg hacyc
  obtain ⟨rank, hrank, hbound⟩ :=
    exists_rank g.moduleChildren modules.length (fun m d hd => (hfin m d hd).2) hacyc1
  intro fuel hfuel
  obtain ⟨f, rfl⟩ : ∃ f, fuel = f + 1 := ⟨fuel - 1, by omega⟩
  have hroots : ∀ m ∈ rootModules modules g, rank m < f := by
    intro m hm
    have h1 : m < modules.length := List.mem_range.1 (List.mem_filter.1 hm).1
    have h2 := hbound m h1
    omega
  obtain ⟨⟨order, seen1⟩, hr⟩ :=
    topSortModules_isSome modules g.moduleChildren rank hrank f _ hroots []
  have hspec := topSortModules_spec modules g.moduleChildren _ _ _ _ hr
  have hfresh := topSortModules_fresh modules g.moduleChildren _ _ _ _ hr
  have hbefore : ∀ pre m post, order = pre ++ m :: post →
      ∀ d ∈ g.moduleChildren m, d ∈ pre := by
    intro pre m post hsplit d hd
    have hfirst := hspec.depsFirst
    simp only [hsplit] at hfirst
    obtain ⟨s, hs⟩ := moduleName_isSome_of_lt modules hnn d (hfin m d hd).2
    rcases DepsFirst_split modules g.moduleChildren pre post m hfirst d hd s hs with
      h1 | ⟨p, hp, h1⟩
    · cases h1
    · rw [moduleName_injective modules hnd d p s hs h1]
      exact hp
  have hclosed : ∀ m ∈ order, ∀ d ∈ g.moduleChildren m, d ∈ order := by
    intro m hm d hd
    obtain ⟨pre, post, hsplit⟩ := List.append_of_mem hm
    rw [hsplit]
    exact List.mem_append_left _ (hbefore pre m post hsplit d hd)
  have hroot : ∀ m ∈ rootModules modules g, m ∈ order := by
    intro m hm
    have h1 : m < modules.length := List.mem_range.1 (List.mem_filter.1 hm).1
    obtain ⟨s, hs⟩ := moduleName_isSome_of_lt modules hnn m h1
    rcases (hspec.seen_iff s).1 (hspec.covers m hm s hs) with h2 | ⟨p, hp, h2⟩
    · cases h2
    · rw [moduleName_injective modules hnd m p s hs h2]
      exact hp
  have hall : ∀ k m, m < modules.length → modules.length - rank m ≤ k → m ∈ order := by
    intro k
    induction k with
    | zero =>
      intro m hm hk
      have := hbound m hm
      omega
    | succ k ih =>
      intro m hm hk
      cases hp : g.moduleParents m with
      | nil =>
        refine hroot m (List.mem_filter.2 ⟨List.mem_range.2 hm, ?_⟩)
        rw [hp]
        rfl
      | cons p rest =>
        have h1 : m ∈ g.moduleChildren p :=
          (moduleGraph_dual modules g hg p m).1 (by rw [hp]; exact List.mem_cons_self _ _)
        have h2 := (hfin p m h1).1
        have h3 := hrank p m h1
        have h4 := hbound p h2
        exact hclosed p (ih p h2 (by omega)) m h1
  have hperm : order.Perm (List.range modules.length) := by
    refine (List.perm_ext_iff_of_nodup (List.Nodup.of_map _ hfresh.1)
      (List.nodup_range _)).2 (fun m => ?_)
    rw [List.mem_range]
    constructor
    · intro hm
      obtain ⟨s, hs, _⟩ := hfresh.2 m hm
      exact lt_of_moduleName modules m s hs
    · intro hm
      exact hall modules.length m hm (Nat.sub_le _ _)
  refine ⟨order, by simp [topSortedModules, hr], hperm, ?_⟩
  intro pre M post hsplit D hdep
  exact hbefore pre M post hsplit D
    (dependsOn_moduleGraph_children modules hnn hnd g hg M D hdep)

/-- A left fold over the kept elements of a list runs the elements before `M`, then `M`,
then the elements after it. -/
theorem foldlM_filter_split {α : Type} (keep : Nat → Bool)
    (step : α → Nat → Except Error α) (pre post : List Nat) (M : Nat)
    (hM : keep M = true) (start : α) :
    ((pre ++ M :: post).filter keep).foldlM step start =
      ((pre.filter keep).foldlM step start >>= fun s1 =>
        step s1 M >>= fun s2 => (post.filter keep).foldlM step s2) := by
  rw [List.filter_append, List.filter_cons_of_pos hM, List.foldlM_append]
  rfl

theorem scenarioModules_acyclic :
    ∀ m, ¬ Relation.TransGen (DependsOn scenarioModules) m m :=
  acyclic_of_rank scenarioModules (fun m => 2 - m) (by decide)

end FoldOrder

/-- C8 (scripts run in dependency order over one environment, for a well-formed module
list).  For a module list whose dependency names all resolve to a module of the list,
whose names are non-null and pairwise distinct, and whose dependency graph has no cycle,
`getProcessEnvironment` builds its adjacency tables and, at every fuel above the number
of modules, `topSortModules` returns an evaluation order that holds every module once
and every module after the modules it depends on; the result of `getProcessEnvironment`
is the left fold, over the modules of that order that are not skipped, of the step that
runs a module's selected script, started from the caller's environment overlaid with the
platform environment (a failing script ends the fold with its error); and the script of
a module `M` starts from what the fold over the modules before `M`, its dependencies
among them, has left. -/
theorem getProcessEnvironment_fold_in_order {σ Product : Type}
    (engine : ScriptEngine σ) (engineState : σ) (envType : EnvType)
    (modules : List ResolvedModule) (productConfiguration : PropertyMapInternal)
    (project : ResolvedProject Product) (env : QProcessEnvironment)
    (hres : ∀ M ∈ modules, ∀ s ∈ M.moduleDependencies, ∃ D ∈ modules, D.name = some s)
    (hnn : ∀ M ∈ modules, M.name ≠ none)
    (hnd : (modules.map fun M => M.name).Nodup)
    (hacyc : ∀ m, ¬ Relation.TransGen (DependsOn modules) m m) :
    ∃ g, moduleGraph modules = some g ∧
      ∀ fuel, modules.length < fuel →
        ∃ order, topSortedModules fuel modules g = some order ∧
          order.Perm (List.range modules.length) ∧
          (∀ pre M post, order = pre ++ M :: post →
            ∀ D, DependsOn modules M D → D ∈ pre) ∧
          getProcessEnvironment fuel engine engineState envType modules
              productConfiguration project env =
            some (((order.filter fun m =>
                !skipModule envType (modules.getD m default)).foldlM
              (runSetupScript engine envType modules productConfiguration g)
              (engine.newScope ⟨js_getenv, js_putenv⟩
                (engine.clearImportsCache engineState),
                overlayPlatformEnvironment project.platformEnvironment env)).map
                  Prod.snd) ∧
          ∀ pre M post, order = pre ++ M :: post →
            skipModule envType (modules.getD M default) = false →
            ∀ start,
              (order.filter fun m => !skipModule envType (modules.getD m default)).foldlM
                  (runSetupScript engine envType modules productConfiguration g) start =
                ((pre.filter fun m => !skipModule envType (modules.getD m default)).foldlM
                    (runSetupScript engine envType modules productConfiguration g) start >>=
                  fun s1 =>
                    runSetupScript engine envType modules productConfiguration g s1 M >>=
                      fun s2 =>
                        (post.filter fun m =>
                          !skipModule envType (modules.getD m default)).foldlM
                          (runSetupScript engine envType modules productConfiguration g)
                          s2) := by
  obtain ⟨g, hg, h⟩ := topSortedModules_order modules hres hnn hnd hacyc
  refine ⟨g, hg, fun fuel hfuel => ?_⟩
  obtain ⟨order, ho, hperm, hdeps⟩ := h fuel hfuel
  refine ⟨order, ho, hperm, hdeps,
    getProcessEnvironment_eq_foldlM fuel engine engineState envType modules
      productConfiguration project env g order hg ho, ?_⟩
  intro pre M post hsplit hM start
  rw [hsplit]
  exact foldlM_filter_split (fun m => !skipModule envType (modules.getD m default))
    (runSetupScript engine envType modules productConfiguration g) pre post M
    (by show (!skipModule envType (modules.getD M default)) = true; rw [hM]; rfl) start

/-- Witness for C8: `derived` is listed first and evaluated second; the build environment
is `X=1`, `Y=12`. -/
theorem getProcessEnvironment_fold_in_order_witness :
    (∃ g, moduleGraph scenarioModules = some g ∧
      ∀ fuel, scenarioModules.length < fuel →
        ∃ order, topSortedModules fuel scenarioModules g = some order ∧
          order.Perm (List.range scenarioModules.length) ∧
          (∀ pre M post, order = pre ++ M :: post →
            ∀ D, DependsOn scenarioModules M D → D ∈ pre) ∧
          getProcessEnvironment fuel scenarioEngine none EnvType.BuildEnv scenarioModules
              ⟨∅⟩ scenarioProject ∅ =
            some (((order.filter fun m =>
                !skipModule EnvType.BuildEnv (scenarioModules.getD m default)).foldlM
              (runSetupScript scenarioEngine EnvType.BuildEnv scenarioModules ⟨∅⟩ g)
              (scenarioEngine.newScope ⟨js_getenv, js_putenv⟩
                (scenarioEngine.clearImportsCache none),
                overlayPlatformEnvironment scenarioProject.platformEnvironment ∅)).map
                  Prod.snd)) ∧
    (moduleGraph scenarioModules).bind (topSortedModules 3 scenarioModules) =
      some [1, 0] ∧
    getProcessEnvironment 3 scenarioEngine none EnvType.BuildEnv scenarioModules ⟨∅⟩
        scenarioProject ∅ =
      some (Except.ok (AList.insert "Y" "12" (AList.insert "X" "1" ∅))) := by
  refine ⟨?_, rfl, rfl⟩
  obtain ⟨g, hg, h⟩ :=
    getProcessEnvironment_fold_in_order scenarioEngine none EnvType.BuildEnv
      scenarioModules ⟨∅⟩ scenarioProject ∅ (by decide) (by decide) (by decide)
      scenarioModules_acyclic
  refine ⟨g, hg, fun fuel hfuel => ?_⟩
  obtain ⟨order, ho, hperm, hdeps, hfold, _⟩ := h fuel hfuel
  exact ⟨order, ho, hperm, hdeps, hfold⟩

/-- C8, the claim as stated fails.  The one module of `danglingProduct` has a script that
sets `X` to `1` and names a dependency that is no module of the list: the environment
that comes back is the caller's, with `X` at `base`, while the fold of that script from
the overlaid environment has `X` at `1`.  The two modules of `cycleModules` depend on
each other and both have a script that sets `X`: the environment that comes back has no
`X`, no script having run. -/
theorem getProcessEnvironment_not_the_fold :
    (∀ M ∈ danglingProduct.modules, skipModule EnvType.BuildEnv M = false) ∧
    getProcessEnvironment 3 scenarioEngine none EnvType.BuildEnv danglingProduct.modules
        danglingProduct.properties platformProject callerEnvironment =
      some (Except.ok callerEnvironment) ∧
    callerEnvironment.lookup "X" = some "base" ∧
    (([0].filter fun m =>
        !skipModule EnvType.BuildEnv (danglingProduct.modules.getD m default)).foldlM
      (runSetupScript scenarioEngine EnvType.BuildEnv danglingProduct.modules
        danglingProduct.properties ModuleGraph.empty)
      (scenarioEngine.newScope ⟨js_getenv, js_putenv⟩
        (scenarioEngine.clearImportsCache none),
        overlayPlatformEnvironment platformProject.platformEnvironment
          callerEnvironment)).map (fun r => r.2.lookup "X") = Except.ok (some "1") ∧
    (∀ M ∈ cycleModules, skipModule EnvType.BuildEnv M = false) ∧
    (getProcessEnvironment 3 scenarioEngine none EnvType.BuildEnv cycleModules ⟨∅⟩
        scenarioProject ∅).map (fun r => r.map fun e => e.lookup "X") =
      some (Except.ok none) :=
  ⟨by decide, rfl, rfl, rfl, by decide, rfl⟩

end qbs
